import Mathlib

/-!
# go-chrono: the simulated clock, its task queue, timers and tickers

A shallow embedding of `simulator.go`, `task.go`, `timer.go`, `ticker.go`,
`lock.go` and `buffered.go`, followed by theorems about them.

Modelling conventions.

* A `time.Time` is an instant on one time line, counted in nanoseconds from the
  zero time `time.Time{}` (so `IsZero` is `= 0`); `Add` is exact and `Sub`
  saturates to the range of `time.Duration` (a signed 64-bit integer), as
  documented for the standard library.
* `*Task` pointers are task identifiers (`TaskId`); the objects they point to
  live in `World.tasks`.  The queue is a list of such pointers, so that a handle
  and the queue alias the same task, as in the source.
* User callbacks are programs (`Prog`) over the `Clock` interface and the
  `Timer`/`Ticker` handles; `Prog.run` executes one on the simulator.  The
  variables a closure captures are the component `vars` of the world.
* `World.fired` is a ghost trace: `Task.Run` appends one entry per call.  It is
  never read by the modelled code.
* The usage lock is not part of `World`: every method releases what it
  acquires and task bodies run with the lock released, so in a sequential run
  the lock has no effect on the data.  `LockedSim` carries a `NoLock` through
  the same methods, with every lock call of the source, and is proved to
  compute what the model without lock computes.
* An index out of range panics in Go.  `taskQueue.Swap`, `taskQueue.Pop` and
  `heap.Remove` are total here (at such an index they change nothing, or drop
  the last slot); such an index is reached only through a handle left stale by
  `PopAllTasks`.
* Loops over slices (`up`, `down`) are given fuel that is provably never
  exhausted; `ProcessAllUntil`, which need not terminate, takes explicit fuel
  and returns `none` when it runs out.
-/

set_option autoImplicit false

namespace Chrono

/-! ## Time -/

/-! Instants (`time.Time`) and durations (`time.Duration`) are integers
(nanoseconds); task pointers (`*Task`) are natural numbers. -/

/-- Largest `time.Duration`. -/
def maxDuration : Int := 2 ^ 63 - 1

/-- Smallest `time.Duration`. -/
def minDuration : Int := -(2 ^ 63)

/-- Go `Time.IsZero`. -/
def Time.IsZero (t : Int) : Bool := decide (t = 0)

/-- Go `Time.Before`. -/
def Time.Before (t u : Int) : Bool := decide (t < u)

/-- Go `Time.Add`. -/
def Time.Add (t : Int) (d : Int) : Int := t + d

/-- Go `Time.Sub`: the difference, saturated to the range of `Duration`. -/
def Time.Sub (t u : Int) : Int :=
  if maxDuration < t - u then maxDuration
  else if t - u < minDuration then minDuration
  else t - u

/-! ## Callbacks -/

/-- The body of a user callback `func(now time.Time)` (for a ticker:
`func(now time.Time) bool`), as a tree of the calls it makes on the clock it
captured.  Each constructor is one call; the continuation receives what the
call returns.  `ret b` ends the callback (`b` is the ticker predicate's result
and is ignored for timers). -/
inductive Prog (U : Type) : Type where
  | ret (b : Bool) : Prog U
  | now (k : Int → Prog U) : Prog U
  | afterFunc (d : Int) (f : Int → Prog U) (k : Nat → Prog U) : Prog U
  | untilFunc (t : Int) (f : Int → Prog U) (k : Nat → Prog U) : Prog U
  | everyFunc (d : Int) (f : Int → Prog U) (k : Nat → Prog U) : Prog U
  | stop (h : Nat) (k : Bool → Prog U) : Prog U
  | reset (h : Nat) (d : Int) (k : Bool → Prog U) : Prog U
  | load (k : U → Prog U) : Prog U
  | store (u : U) (k : Prog U) : Prog U
  | cancel (c : Nat) (k : Prog U) : Prog U

/-! ## Tasks and the world -/

/-- The two closures the package stores in `Task.Action`: the one built by
`newSimTimer` and the one built by `newSimTicker`. -/
inductive Action (U : Type) : Type where
  | simTimer (action : Int → Prog U) : Action U
  | simTicker (period : Int) (action : Int → Prog U) : Action U

/-- Go `Task`. -/
structure Task (U : Type) where
  Deadline : Int
  Action : Action U
  indexInQueue : Int

/-- Go `Task.IsPending`. -/
def Task.IsPending {U : Type} (t : Task U) : Bool := decide (t.indexInQueue ≠ -1)

/-- Ghost record of one `Task.Run` call. -/
structure Firing where
  task : Nat
  deadline : Int
  now : Int
deriving DecidableEq, Repr

/-- Error of a `context.Context`. -/
inductive CtxErr where
  | Canceled : CtxErr
  | DeadlineExceeded : CtxErr
deriving DecidableEq, Repr

/-- A `Simulator` (`now`, `taskQueue`) together with the part of the program
state its methods and the callbacks touch: the task objects, the captured
variables, the contexts, and the ghost trace. -/
structure World (U : Type) where
  now : Int
  taskQueue : List Nat
  tasks : Nat → Task U
  nextId : Nat
  vars : U
  ctxErr : Nat → Option CtxErr
  fired : List Firing

variable {U : Type}

/-- Go `newTask`, as the value stored at a fresh pointer. -/
def newTask (deadline : Int) (run : Action U) : Task U :=
  { Deadline := deadline, Action := run, indexInQueue := -1 }

/-- Allocation of a task object (`&Task{...}`). -/
def World.alloc (w : World U) (t : Task U) : World U × Nat :=
  ({ w with tasks := Function.update w.tasks w.nextId t, nextId := w.nextId + 1 }, w.nextId)

/-- Go `NewSimulator`: current time `now`, empty queue. -/
def NewSimulator (now : Int) (vars : U) : World U :=
  { now := now
    taskQueue := []
    tasks := fun _ => newTask 0 (Action.simTimer fun _ => Prog.ret false)
    nextId := 0
    vars := vars
    ctxErr := fun _ => none
    fired := [] }

/-! ## The task queue (`task.go`) and `container/heap` -/

/-- Go `taskQueue.Less`. -/
def taskQueue.Less (w : World U) (i j : Nat) : Bool :=
  match w.taskQueue[i]?, w.taskQueue[j]? with
  | some a, some b => Time.Before (w.tasks a).Deadline (w.tasks b).Deadline
  | _, _ => false

/-- Go `taskQueue.Swap`: exchanges two slots and records the new slot in each
of the two tasks.  (An index out of range panics in Go; here it changes
nothing.) -/
def taskQueue.Swap (w : World U) (i j : Nat) : World U :=
  match w.taskQueue[i]?, w.taskQueue[j]? with
  | some a, some b =>
    let tasks1 := Function.update w.tasks b { w.tasks b with indexInQueue := (i : Int) }
    let tasks2 := Function.update tasks1 a { tasks1 a with indexInQueue := (j : Int) }
    { w with taskQueue := (w.taskQueue.set i b).set j a, tasks := tasks2 }
  | _, _ => w

/-- Go `taskQueue.Push`. -/
def taskQueue.Push (w : World U) (t : Nat) : World U :=
  { w with
    tasks := Function.update w.tasks t { w.tasks t with indexInQueue := (w.taskQueue.length : Int) }
    taskQueue := w.taskQueue ++ [t] }

/-- Go `taskQueue.Pop`: removes the last slot.  (Panics in Go on an empty
queue; here `none`.) -/
def taskQueue.Pop (w : World U) : World U × Option Nat :=
  match w.taskQueue.getLast? with
  | none => (w, none)
  | some t =>
    ({ w with
       tasks := Function.update w.tasks t { w.tasks t with indexInQueue := -1 }
       taskQueue := w.taskQueue.dropLast }, some t)

/-- Loop of `container/heap.up`; the loop index strictly decreases, so fuel
`j` is enough. -/
def heap.upLoop : Nat → World U → Nat → World U
  | 0, w, _ => w
  | fuel + 1, w, j =>
    let i := (j - 1) / 2
    if i = j ∨ taskQueue.Less w j i = false then w
    else heap.upLoop fuel (taskQueue.Swap w i j) i

/-- Go `container/heap.up`. -/
def heap.up (w : World U) (j : Nat) : World U := heap.upLoop j w j

/-- Loop of `container/heap.down`, returning the final index. -/
def heap.downLoop : Nat → World U → Nat → Nat → World U × Nat
  | 0, w, i, _ => (w, i)
  | fuel + 1, w, i, n =>
    let j1 := 2 * i + 1
    if n ≤ j1 then (w, i)
    else
      let j := if j1 + 1 < n ∧ taskQueue.Less w (j1 + 1) j1 = true then j1 + 1 else j1
      if taskQueue.Less w j i = false then (w, i)
      else heap.downLoop fuel (taskQueue.Swap w i j) j n

/-- Go `container/heap.down`; the result flag is `i > i0`. -/
def heap.down (w : World U) (i0 n : Nat) : World U × Bool :=
  let r := heap.downLoop n w i0 n
  (r.1, decide (i0 < r.2))

/-- Go `container/heap.Push`. -/
def heap.Push (w : World U) (t : Nat) : World U :=
  let w1 := taskQueue.Push w t
  heap.up w1 (w1.taskQueue.length - 1)

/-- Go `container/heap.Pop`. -/
def heap.Pop (w : World U) : World U × Option Nat :=
  let n := w.taskQueue.length - 1
  let w1 := taskQueue.Swap w 0 n
  let w2 := (heap.down w1 0 n).1
  taskQueue.Pop w2

/-- Go `container/heap.Remove`. -/
def heap.Remove (w : World U) (i : Nat) : World U × Option Nat :=
  let n := w.taskQueue.length - 1
  if n ≠ i then
    let w1 := taskQueue.Swap w i n
    let r := heap.down w1 i n
    let w2 := if r.2 = false then heap.up r.1 i else r.1
    taskQueue.Pop w2
  else taskQueue.Pop w

/-- Go `taskQueue.PushTask`. -/
def taskQueue.PushTask (w : World U) (t : Nat) : World U := heap.Push w t

/-- Go `taskQueue.PopTask`. -/
def taskQueue.PopTask (w : World U) : World U × Option Nat := heap.Pop w

/-- Go `taskQueue.PeekTask`. -/
def taskQueue.PeekTask (w : World U) : Option Nat := w.taskQueue[0]?

/-- Go `taskQueue.HasTasks`. -/
def taskQueue.HasTasks (w : World U) : Bool := decide (w.taskQueue.length ≠ 0)

/-- Go `taskQueue.HasExpiredTasks`. -/
def taskQueue.HasExpiredTasks (w : World U) (now : Int) : Bool :=
  match w.taskQueue[0]? with
  | none => false
  | some t => !Time.Before now (w.tasks t).Deadline

/-- Go `taskQueue.RemoveTask`. -/
def taskQueue.RemoveTask (w : World U) (t : Nat) : World U :=
  if (w.tasks t).IsPending then (heap.Remove w (w.tasks t).indexInQueue.toNat).1 else w

/-! ## The simulator's scheduling methods (`simulator.go`, `timer.go`, `ticker.go`) -/

/-- Go `Simulator.Now`. -/
def Now (w : World U) : Int := w.now

/-- Go `Simulator.setNow`. -/
def setNow (w : World U) (newNow : Int) : World U × Int × Int :=
  let leap := Time.Sub newNow w.now
  let w1 := if 0 < leap then { w with now := newNow } else w
  (w1, w1.now, leap)

/-- Go `Simulator.SetNow`. -/
def SetNow (w : World U) (now : Int) : World U × Int × Int := setNow w now

/-- Go `Simulator.Since`. -/
def Since (w : World U) (t : Int) : Int := Time.Sub w.now t

/-- Go `Simulator.Until`. -/
def Until (w : World U) (t : Int) : Int := Time.Sub t w.now

/-- Go `newSimTimer`: allocates the timer's task; the handle is the task pointer. -/
def newSimTimer (w : World U) (deadline : Int) (action : Int → Prog U) : World U × Nat :=
  w.alloc (newTask deadline (Action.simTimer action))

/-- Go `newSimTicker`. -/
def newSimTicker (w : World U) (startTime : Int) (period : Int)
    (action : Int → Prog U) : World U × Nat :=
  w.alloc (newTask startTime (Action.simTicker period action))

/-- Go `Simulator.AfterFunc`. -/
def AfterFunc (w : World U) (d : Int) (f : Int → Prog U) : World U × Nat :=
  let r := newSimTimer w (Time.Add w.now d) f
  (taskQueue.PushTask r.1 r.2, r.2)

/-- Go `Simulator.UntilFunc`. -/
def UntilFunc (w : World U) (t : Int) (f : Int → Prog U) : World U × Nat :=
  let r := newSimTimer w t f
  (taskQueue.PushTask r.1 r.2, r.2)

/-- Go `Simulator.EveryFunc`. -/
def EveryFunc (w : World U) (interval : Int) (f : Int → Prog U) : World U × Nat :=
  let r := newSimTicker w (Time.Add w.now interval) interval f
  (taskQueue.PushTask r.1 r.2, r.2)

/-- Go `Simulator.removeTask`. -/
def removeTask (w : World U) (task : Nat) : World U × Bool :=
  if (w.tasks task).IsPending = false then (w, false)
  else (taskQueue.RemoveTask w task, true)

/-- Go `Simulator.resetTask`. -/
def resetTask (w : World U) (task : Nat) (d : Int) : World U × Bool :=
  let isPending := (w.tasks task).IsPending
  let w1 := if isPending = true then taskQueue.RemoveTask w task else w
  let w2 := { w1 with
    tasks := Function.update w1.tasks task { w1.tasks task with Deadline := Time.Add w1.now d } }
  (taskQueue.PushTask w2 task, isPending)

/-- Go `simTimer.Stop`. -/
def simTimer.Stop (w : World U) (t : Nat) : World U × Bool := removeTask w t

/-- Go `simTimer.Reset`. -/
def simTimer.Reset (w : World U) (t : Nat) (d : Int) : World U × Bool := resetTask w t d

/-- Go `simTicker.Stop`. -/
def simTicker.Stop (w : World U) (t : Nat) : World U := (removeTask w t).1

/-- Go `simTicker.Reset`. -/
def simTicker.Reset (w : World U) (t : Nat) (d : Int) : World U := (resetTask w t d).1

/-- Go `context.CancelFunc`: the first cancellation sets the error. -/
def cancelCtx (w : World U) (c : Nat) : World U :=
  match w.ctxErr c with
  | some _ => w
  | none => { w with ctxErr := Function.update w.ctxErr c (some CtxErr.Canceled) }

/-- Execution of a callback body on the simulator it captured.  A handle is a
pointer to a task that exists, so `stop`/`reset` on an identifier that was never
allocated do nothing. -/
def Prog.run : Prog U → World U → World U × Bool
  | .ret b, w => (w, b)
  | .now k, w => (k (Now w)).run w
  | .afterFunc d f k, w => (k (AfterFunc w d f).2).run (AfterFunc w d f).1
  | .untilFunc t f k, w => (k (UntilFunc w t f).2).run (UntilFunc w t f).1
  | .everyFunc d f k, w => (k (EveryFunc w d f).2).run (EveryFunc w d f).1
  | .stop h k, w =>
    if h < w.nextId then (k (removeTask w h).2).run (removeTask w h).1 else (k false).run w
  | .reset h d k, w =>
    if h < w.nextId then (k (resetTask w h d).2).run (resetTask w h d).1 else (k false).run w
  | .load k, w => (k w.vars).run w
  | .store u k, w => k.run { w with vars := u }
  | .cancel c k, w => k.run (cancelCtx w c)

/-- Go `Task.Run`, i.e. the call of the closure in `Task.Action`: for a timer,
the user action; for a ticker, the predicate followed, when it returned true,
by `task.Deadline = task.Deadline.Add(period)` and the task itself as the
following task.  The first line is the ghost trace. -/
def Task.Run (w : World U) (t : Nat) (now : Int) : World U × Option Nat :=
  let w0 := { w with fired := w.fired ++ [{ task := t, deadline := (w.tasks t).Deadline, now := now }] }
  match (w.tasks t).Action with
  | .simTimer action => (((action now).run w0).1, none)
  | .simTicker period action =>
    let r := (action now).run w0
    if r.2 = false then (r.1, none)
    else
      ({ r.1 with
         tasks := Function.update r.1.tasks t
           { r.1.tasks t with Deadline := Time.Add (r.1.tasks t).Deadline period } }, some t)

/-! ## Advancing time (`simulator.go`) -/

/-- Result of `Approach`, `Advance` and `AdvanceIfBefore`. -/
structure Advanced (U : Type) where
  world : World U
  newNow : Int
  leap : Int
  hadTasks : Bool

/-- Go `Simulator.Approach`. -/
def Approach (w : World U) : Advanced U :=
  if taskQueue.HasTasks w = false then ⟨w, w.now, 0, false⟩
  else
    match taskQueue.PeekTask w with
    | none => ⟨w, w.now, 0, false⟩
    | some nextTask =>
      let r := setNow w (w.tasks nextTask).Deadline
      ⟨r.1, r.2.1, r.2.2, true⟩

/-- Go `Simulator.processNextTask` (its only caller passes `keepLock = false`). -/
def processNextTask (w : World U) : World U × Int × Int :=
  match taskQueue.PopTask w with
  | (_, none) => (w, w.now, 0)
  | (w1, some nextTask) =>
    let r := setNow w1 (w1.tasks nextTask).Deadline
    let ran := Task.Run r.1 nextTask r.2.1
    match ran.2 with
    | some followingTask => (taskQueue.PushTask ran.1 followingTask, r.2.1, r.2.2)
    | none => (ran.1, r.2.1, r.2.2)

/-- Go `Simulator.AdvanceIfBefore`. -/
def AdvanceIfBefore (w : World U) (before : Int) : Advanced U :=
  if taskQueue.HasTasks w = false then ⟨w, w.now, 0, false⟩
  else
    match taskQueue.PeekTask w with
    | none => ⟨w, w.now, 0, false⟩
    | some nextTask =>
      if Time.IsZero before = false ∧ Time.Before (w.tasks nextTask).Deadline before = false then
        ⟨w, w.now, 0, false⟩
      else
        let r := processNextTask w
        ⟨r.1, r.2.1, r.2.2, true⟩

/-- Go `Simulator.Advance`. -/
def Advance (w : World U) : Advanced U := AdvanceIfBefore w 0

/-- The loop of Go `Simulator.ProcessAllUntil`, with the running count.  One
unit of fuel is one evaluation of the loop condition `ctx.Err() == nil`;
`none` means the fuel ran out before the loop ended. -/
def ProcessAllUntilLoop : Nat → World U → Nat → Int → Nat → Option (World U × Nat × Option CtxErr)
  | 0, _, _, _, _ => none
  | fuel + 1, w, ctx, until_, tasksProcessed =>
    match w.ctxErr ctx with
    | some e => some (w, tasksProcessed, some e)
    | none =>
      let r := AdvanceIfBefore w until_
      if r.hadTasks = false then some (r.world, tasksProcessed, none)
      else ProcessAllUntilLoop fuel r.world ctx until_ (tasksProcessed + 1)

/-- Go `Simulator.ProcessAllUntil`. -/
def ProcessAllUntil (fuel : Nat) (w : World U) (ctx : Nat) (until_ : Int) :
    Option (World U × Nat × Option CtxErr) :=
  ProcessAllUntilLoop fuel w ctx until_ 0

/-- Go `Simulator.ProcessAll`. -/
def ProcessAll (fuel : Nat) (w : World U) (ctx : Nat) : Option (World U × Nat × Option CtxErr) :=
  ProcessAllUntil fuel w ctx 0

/-- Go `Simulator.HasExpiredTasks`. -/
def HasExpiredTasks (w : World U) (before : Int) : Bool := taskQueue.HasExpiredTasks w before

/-- Go `Simulator.PopAllTasks`: the queue's slice is returned and replaced by
an empty one. -/
def PopAllTasks (w : World U) : World U × List Nat :=
  ({ w with taskQueue := [] }, w.taskQueue)

/-! ## The buffering clock (`buffered.go`) -/

/-- One call received by the embedded live `Clock`.  `AfterFuncTask d t` is
`AfterFunc(d, f)` with `f` the closure built by `processTaskInLive` for the
task `t`. -/
inductive LiveCall (U : Type) : Type where
  | AfterFunc (d : Int) (f : Int → Prog U) : LiveCall U
  | EveryFunc (d : Int) (f : Int → Prog U) : LiveCall U
  | UntilFunc (t : Int) (f : Int → Prog U) : LiveCall U
  | AfterFuncTask (d : Int) (t : Nat) : LiveCall U

/-- Go `ClockWithBuffering`.  `Clock` is the embedded live clock, represented
by the calls it has received; `tasksBufferNil` says whether the pointer
`tasksBuffer` is nil; `world` holds the fields of the simulator `tasksBuffer`
points to, together with the task objects and the captured variables, which
outlive it. -/
structure ClockWithBuffering (U : Type) where
  Clock : List (LiveCall U)
  bufferingEnabled : Bool
  tasksBufferNil : Bool
  world : World U

/-- How a call that can panic ends. -/
inductive Ended (α : Type) : Type where
  | panicked : Ended α
  | returned (a : α) : Ended α

/-- The receiver after a call, and whether the call panicked.  A Go panic
leaves what was assigned before it. -/
structure Outcome (σ : Type) where
  state : σ
  panicked : Bool

/-- Go `NewClockWithBuffering`, on a program state `world`. -/
def NewClockWithBuffering (world : World U) : ClockWithBuffering U :=
  { Clock := [], bufferingEnabled := false, tasksBufferNil := true, world := world }

/-- Go `ClockWithBuffering.BeginTasksBuffering`: a new simulator replaces the
fields `now` and `taskQueue`. -/
def ClockWithBuffering.BeginTasksBuffering (c : ClockWithBuffering U) (timeStart : Int) :
    Outcome (ClockWithBuffering U) :=
  if c.bufferingEnabled = true then { state := c, panicked := true }
  else
    { state :=
        { c with
          bufferingEnabled := true
          tasksBufferNil := false
          world := { c.world with now := timeStart, taskQueue := [] } }
      panicked := false }

/-- Go `ClockWithBuffering.AfterFunc`, for a user callback. -/
def ClockWithBuffering.AfterFunc (c : ClockWithBuffering U) (d : Int) (f : Int → Prog U) :
    ClockWithBuffering U :=
  if c.bufferingEnabled = true then { c with world := (Chrono.AfterFunc c.world d f).1 }
  else { c with Clock := c.Clock ++ [LiveCall.AfterFunc d f] }

/-- Go `ClockWithBuffering.EveryFunc`. -/
def ClockWithBuffering.EveryFunc (c : ClockWithBuffering U) (d : Int) (f : Int → Prog U) :
    ClockWithBuffering U :=
  if c.bufferingEnabled = true then { c with world := (Chrono.EveryFunc c.world d f).1 }
  else { c with Clock := c.Clock ++ [LiveCall.EveryFunc d f] }

/-- The method `UntilFunc` of a `ClockWithBuffering`.  The type declares no
`UntilFunc` of its own, so the call is the promoted method of the embedded
`Clock`, whatever the buffering state. -/
def ClockWithBuffering.UntilFunc (c : ClockWithBuffering U) (t : Int) (f : Int → Prog U) :
    ClockWithBuffering U :=
  { c with Clock := c.Clock ++ [LiveCall.UntilFunc t f] }

/-- Go `ClockWithBuffering.tryDisableBuffering`; the result carries the flag
and the tasks handed over. -/
def ClockWithBuffering.tryDisableBuffering (c : ClockWithBuffering U) (liveTasksStart : Int) :
    Ended (ClockWithBuffering U × Bool × List Nat) :=
  if c.bufferingEnabled = false then Ended.panicked
  else if c.tasksBufferNil = true then Ended.panicked
  else if HasExpiredTasks c.world liveTasksStart = true then Ended.returned (c, false, [])
  else
    Ended.returned
      ({ c with
         world := (PopAllTasks c.world).1
         tasksBufferNil := true
         bufferingEnabled := false }, true, (PopAllTasks c.world).2)

/-- Go `ClockWithBuffering.processTaskInLive`: `c.AfterFunc(time.Until(t.Deadline), f)`
with `f` the hand-off closure, at real time `realNow`.  With buffering
disabled this is a call on the live clock.  The other branch, which would
buffer the hand-off closure itself, cannot be taken inside `EndTasksBuffering`
and is outside this model (`none`). -/
def ClockWithBuffering.processTaskInLive (c : ClockWithBuffering U) (realNow : Int) (t : Nat) :
    Option (ClockWithBuffering U) :=
  if c.bufferingEnabled = true then none
  else
    some { c with
      Clock := c.Clock ++ [LiveCall.AfterFuncTask (Time.Sub (c.world.tasks t).Deadline realNow) t] }

/-- The loop `for _, task := range liveTasks { c.processTaskInLive(task) }`,
from its iteration `k` on; `realNow k` is the real time read by `time.Until` in
iteration `k`. -/
def ClockWithBuffering.processTasksInLive (c : ClockWithBuffering U) (realNow : Nat → Int) :
    Nat → List Nat → Option (ClockWithBuffering U)
  | _, [] => some c
  | k, t :: ts =>
    match c.processTaskInLive (realNow k) t with
    | none => none
    | some c1 => c1.processTasksInLive realNow (k + 1) ts

/-- The first loop of Go `ClockWithBuffering.EndTasksBuffering`.  `fuel` bounds
the iterations and `inner` is the fuel of each `ProcessAllUntil`; `none` means
one of them ran out.  `liveTimeStart k` is the value of the `k`-th call of the
function `liveTimeStart`.  The result is the error returned, or the state and
the tasks to hand over.  Buffered callbacks are run by `Prog.run` on the
private simulator; in the source a callback holds the `ClockWithBuffering`,
whose `UntilFunc` and `Now` go to the live clock, so the model follows the
source for callbacks without these two calls (`Prog.BufOK`).  On a nil
`tasksBuffer`, `ProcessAllUntil` first tests
`ctx.Err()`, which does not touch the receiver, and returns the error of a
cancelled context; otherwise `AdvanceIfBefore` dereferences the nil pointer. -/
def ClockWithBuffering.EndTasksBufferingLoop :
    Nat → Nat → ClockWithBuffering U → Nat → (Nat → Int) → Nat →
      Option (Ended (ClockWithBuffering U × (CtxErr ⊕ List Nat)))
  | 0, _, _, _, _, _ => none
  | fuel + 1, inner, c, ctx, liveTimeStart, k =>
    if c.tasksBufferNil = true then
      match c.world.ctxErr ctx with
      | some err => some (Ended.returned (c, Sum.inl err))
      | none => some Ended.panicked
    else
      match ProcessAllUntil inner c.world ctx (liveTimeStart k) with
      | none => none
      | some (w1, _, some err) => some (Ended.returned ({ c with world := w1 }, Sum.inl err))
      | some (w1, _, none) =>
        match ClockWithBuffering.tryDisableBuffering { c with world := w1 } (liveTimeStart (k + 1)) with
        | Ended.panicked => some Ended.panicked
        | Ended.returned (c2, true, liveTasks) => some (Ended.returned (c2, Sum.inr liveTasks))
        | Ended.returned (c2, false, _) =>
          ClockWithBuffering.EndTasksBufferingLoop fuel inner c2 ctx liveTimeStart (k + 2)

/-- Go `ClockWithBuffering.EndTasksBuffering`; the value returned is the error
(`none` for nil).  `realNow i` is the real time at the `i`-th hand-off call. -/
def ClockWithBuffering.EndTasksBuffering (fuel inner : Nat) (c : ClockWithBuffering U) (ctx : Nat)
    (liveTimeStart : Nat → Int) (realNow : Nat → Int) :
    Option (Ended (ClockWithBuffering U × Option CtxErr)) :=
  match ClockWithBuffering.EndTasksBufferingLoop fuel inner c ctx liveTimeStart 0 with
  | none => none
  | some Ended.panicked => some Ended.panicked
  | some (Ended.returned (c1, Sum.inl err)) => some (Ended.returned (c1, some err))
  | some (Ended.returned (c1, Sum.inr liveTasks)) =>
    match c1.processTasksInLive realNow 0 liveTasks with
    | none => none
    | some c2 => some (Ended.returned (c2, none))

/-! ## The usage lock (`lock.go`) -/

/-- Go `NoLock`.  `rlocks` is a Go `int`, here of 64 bits. -/
structure NoLock where
  locked : Bool
  rlocks : Int
deriving DecidableEq, Repr

/-- Reduction of an integer to the range of a 64-bit `int` (two's complement),
as Go's `++` and `--` do. -/
def wrapInt (x : Int) : Int := (x + 2 ^ 63) % 2 ^ 64 - 2 ^ 63

/-- Go `NoLock.Lock`. -/
def NoLock.Lock (r : NoLock) : Outcome NoLock :=
  if r.locked = true then { state := r, panicked := true }
  else if r.rlocks ≠ 0 then { state := r, panicked := true }
  else { state := { r with locked := true }, panicked := false }

/-- Go `NoLock.Unlock`. -/
def NoLock.Unlock (r : NoLock) : Outcome NoLock :=
  if r.locked = false then { state := r, panicked := true }
  else { state := { r with locked := false }, panicked := false }

/-- Go `NoLock.RLock`. -/
def NoLock.RLock (r : NoLock) : Outcome NoLock :=
  if r.locked = true then { state := r, panicked := true }
  else { state := { r with rlocks := wrapInt (r.rlocks + 1) }, panicked := false }

/-- Go `NoLock.RUnlock`. -/
def NoLock.RUnlock (r : NoLock) : Outcome NoLock :=
  if r.rlocks ≤ 0 then { state := r, panicked := true }
  else { state := { r with rlocks := wrapInt (r.rlocks - 1) }, panicked := false }

/-- One call on a `NoLock`. -/
inductive LockOp where
  | Lock : LockOp
  | Unlock : LockOp
  | RLock : LockOp
  | RUnlock : LockOp
deriving DecidableEq, Repr

/-- The call a `LockOp` stands for. -/
def LockOp.exec : LockOp → NoLock → Outcome NoLock
  | .Lock, r => r.Lock
  | .Unlock, r => r.Unlock
  | .RLock, r => r.RLock
  | .RUnlock, r => r.RUnlock

/-- The state of a lock after a sequence of calls, panicking ones (recovered
by the caller) included. -/
def runLockOps : List LockOp → NoLock → NoLock
  | [], r => r
  | op :: ops, r => runLockOps ops (op.exec r).state

/-- The zero value `NoLock{}`. -/
def NoLock.zero : NoLock := { locked := false, rlocks := 0 }

/-! ## The simulator with a `NoLock` usage lock -/

/-- A `Simulator` built by `NewSimulatorWithOpts(now, &NoLock{})`: the state
of the simulator and of the program (`world`) and its usage lock.  `atRun` is
a ghost trace: the state of the lock at each call of `Task.Run`. -/
structure LockedSim (U : Type) where
  world : World U
  usageLock : NoLock
  atRun : List NoLock

/-- Sequencing of calls that can panic: a panic ends the run. -/
def Ended.bind {α β : Type} : Ended α → (α → Ended β) → Ended β
  | Ended.panicked, _ => Ended.panicked
  | Ended.returned a, f => f a

/-- The call `s.usageLock.Lock()`. -/
def LockedSim.Lock (s : LockedSim U) : Ended (LockedSim U) :=
  if (s.usageLock.Lock).panicked = true then Ended.panicked
  else Ended.returned { s with usageLock := (s.usageLock.Lock).state }

/-- The call `s.usageLock.Unlock()`. -/
def LockedSim.Unlock (s : LockedSim U) : Ended (LockedSim U) :=
  if (s.usageLock.Unlock).panicked = true then Ended.panicked
  else Ended.returned { s with usageLock := (s.usageLock.Unlock).state }

/-- The call `s.usageLock.RLock()`. -/
def LockedSim.RLock (s : LockedSim U) : Ended (LockedSim U) :=
  if (s.usageLock.RLock).panicked = true then Ended.panicked
  else Ended.returned { s with usageLock := (s.usageLock.RLock).state }

/-- The call `s.usageLock.RUnlock()`. -/
def LockedSim.RUnlock (s : LockedSim U) : Ended (LockedSim U) :=
  if (s.usageLock.RUnlock).panicked = true then Ended.panicked
  else Ended.returned { s with usageLock := (s.usageLock.RUnlock).state }

/-- Go `Simulator.Now`, with its lock calls. -/
def LockedSim.Now (s : LockedSim U) : Ended (LockedSim U × Int) :=
  s.RLock.bind fun s1 =>
    s1.RUnlock.bind fun s2 => Ended.returned (s2, Chrono.Now s1.world)

/-- Go `Simulator.AfterFunc`, with its lock calls. -/
def LockedSim.AfterFunc (s : LockedSim U) (d : Int) (f : Int → Prog U) :
    Ended (LockedSim U × Nat) :=
  s.Lock.bind fun s1 =>
    (LockedSim.Unlock { s1 with world := (Chrono.AfterFunc s1.world d f).1 }).bind fun s2 =>
      Ended.returned (s2, (Chrono.AfterFunc s1.world d f).2)

/-- Go `Simulator.UntilFunc`, with its lock calls. -/
def LockedSim.UntilFunc (s : LockedSim U) (t : Int) (f : Int → Prog U) :
    Ended (LockedSim U × Nat) :=
  s.Lock.bind fun s1 =>
    (LockedSim.Unlock { s1 with world := (Chrono.UntilFunc s1.world t f).1 }).bind fun s2 =>
      Ended.returned (s2, (Chrono.UntilFunc s1.world t f).2)

/-- Go `Simulator.EveryFunc`, with its lock calls. -/
def LockedSim.EveryFunc (s : LockedSim U) (interval : Int) (f : Int → Prog U) :
    Ended (LockedSim U × Nat) :=
  s.Lock.bind fun s1 =>
    (LockedSim.Unlock { s1 with world := (Chrono.EveryFunc s1.world interval f).1 }).bind fun s2 =>
      Ended.returned (s2, (Chrono.EveryFunc s1.world interval f).2)

/-- Go `Simulator.removeTask`, with its lock calls. -/
def LockedSim.removeTask (s : LockedSim U) (task : Nat) : Ended (LockedSim U × Bool) :=
  s.Lock.bind fun s1 =>
    (LockedSim.Unlock { s1 with world := (Chrono.removeTask s1.world task).1 }).bind fun s2 =>
      Ended.returned (s2, (Chrono.removeTask s1.world task).2)

/-- Go `Simulator.resetTask`, with its lock calls. -/
def LockedSim.resetTask (s : LockedSim U) (task : Nat) (d : Int) : Ended (LockedSim U × Bool) :=
  s.Lock.bind fun s1 =>
    (LockedSim.Unlock { s1 with world := (Chrono.resetTask s1.world task d).1 }).bind fun s2 =>
      Ended.returned (s2, (Chrono.resetTask s1.world task d).2)

/-- Execution of a callback body on the simulator with the usage lock: as
`Prog.run`, each call on the clock or on a handle taking and releasing the
lock as the method does. -/
def Prog.runLocked : Prog U → LockedSim U → Ended (LockedSim U × Bool)
  | .ret b, s => Ended.returned (s, b)
  | .now k, s =>
    match s.Now with
    | Ended.panicked => Ended.panicked
    | Ended.returned r => (k r.2).runLocked r.1
  | .afterFunc d f k, s =>
    match s.AfterFunc d f with
    | Ended.panicked => Ended.panicked
    | Ended.returned r => (k r.2).runLocked r.1
  | .untilFunc t f k, s =>
    match s.UntilFunc t f with
    | Ended.panicked => Ended.panicked
    | Ended.returned r => (k r.2).runLocked r.1
  | .everyFunc d f k, s =>
    match s.EveryFunc d f with
    | Ended.panicked => Ended.panicked
    | Ended.returned r => (k r.2).runLocked r.1
  | .stop h k, s =>
    if h < s.world.nextId then
      match s.removeTask h with
      | Ended.panicked => Ended.panicked
      | Ended.returned r => (k r.2).runLocked r.1
    else (k false).runLocked s
  | .reset h d k, s =>
    if h < s.world.nextId then
      match s.resetTask h d with
      | Ended.panicked => Ended.panicked
      | Ended.returned r => (k r.2).runLocked r.1
    else (k false).runLocked s
  | .load k, s => (k s.world.vars).runLocked s
  | .store u k, s => k.runLocked { s with world := { s.world with vars := u } }
  | .cancel c k, s => k.runLocked { s with world := cancelCtx s.world c }

/-- Go `Task.Run` on the simulator with the usage lock.  The first two lines
are the ghost traces. -/
def LockedSim.Run (s : LockedSim U) (t : Nat) (now : Int) : Ended (LockedSim U × Option Nat) :=
  let s0 : LockedSim U :=
    { world := { s.world with
        fired := s.world.fired ++
          [{ task := t, deadline := (s.world.tasks t).Deadline, now := now }] }
      usageLock := s.usageLock
      atRun := s.atRun ++ [s.usageLock] }
  match (s.world.tasks t).Action with
  | .simTimer action =>
    ((action now).runLocked s0).bind fun r => Ended.returned (r.1, none)
  | .simTicker period action =>
    ((action now).runLocked s0).bind fun r =>
      if r.2 = false then Ended.returned (r.1, none)
      else
        Ended.returned
          ({ r.1 with
             world := { r.1.world with
               tasks := Function.update r.1.world.tasks t
                 { r.1.world.tasks t with
                   Deadline := Time.Add (r.1.world.tasks t).Deadline period } } }, some t)

/-- Go `Simulator.processNextTask`, with its lock calls; it is entered with
the lock held.  (`PopTask` on an empty queue panics.) -/
def LockedSim.processNextTask (s : LockedSim U) ( keepLock : Bool) :
    Ended (LockedSim U × Int × Int) :=
  match taskQueue.PopTask s.world with
  | (_, none) => Ended.panicked
  | (w1, some nextTask) =>
    (LockedSim.Unlock { s with world := (setNow w1 (w1.tasks nextTask).Deadline).1 }).bind fun s1 =>
      (s1.Run nextTask (setNow w1 (w1.tasks nextTask).Deadline).2.1).bind fun ran =>
        match ran.2 with
        | some followingTask =>
          ran.1.Lock.bind fun s2 =>
            if keepLock = false then
              (LockedSim.Unlock
                { s2 with world := taskQueue.PushTask s2.world followingTask }).bind fun s3 =>
                Ended.returned (s3, (setNow w1 (w1.tasks nextTask).Deadline).2)
            else
              Ended.returned
                ({ s2 with world := taskQueue.PushTask s2.world followingTask },
                  (setNow w1 (w1.tasks nextTask).Deadline).2)
        | none =>
          if keepLock = true then
            ran.1.Lock.bind fun s2 =>
              Ended.returned (s2, (setNow w1 (w1.tasks nextTask).Deadline).2)
          else Ended.returned (ran.1, (setNow w1 (w1.tasks nextTask).Deadline).2)

/-- Go `Simulator.AdvanceIfBefore`, with its lock calls. -/
def LockedSim.AdvanceIfBefore (s : LockedSim U) (before : Int) :
    Ended (LockedSim U × Int × Int × Bool) :=
  s.Lock.bind fun s1 =>
    if taskQueue.HasTasks s1.world = false then
      s1.Unlock.bind fun s2 => Ended.returned (s2, s1.world.now, 0, false)
    else
      match taskQueue.PeekTask s1.world with
      | none => Ended.panicked
      | some nextTask =>
        if Time.IsZero before = false ∧
            Time.Before (s1.world.tasks nextTask).Deadline before = false then
          s1.Unlock.bind fun s2 => Ended.returned (s2, s1.world.now, 0, false)
        else
          (s1.processNextTask false).bind fun r => Ended.returned (r.1, r.2.1, r.2.2, true)

/-- Go `Simulator.Advance`, with its lock calls. -/
def LockedSim.Advance (s : LockedSim U) : Ended (LockedSim U × Int × Int × Bool) :=
  s.AdvanceIfBefore 0

/-- A simulator just built with a `NoLock`, on the program state `w`. -/
def LockedSim.new (w : World U) : LockedSim U :=
  { world := w, usageLock := NoLock.zero, atRun := [] }

/-! ## Sequences of calls -/

/-- One call on the simulator's public surface (the methods of `Simulator` and
of the timer and ticker handles).  `ProcessAll` and `ProcessAllUntil` carry the
fuel they are run with. -/
inductive Op (U : Type) : Type where
  | SetNow (t : Int) : Op U
  | Approach : Op U
  | Advance : Op U
  | AdvanceIfBefore (before : Int) : Op U
  | ProcessAll (fuel : Nat) (ctx : Nat) : Op U
  | ProcessAllUntil (fuel : Nat) (ctx : Nat) (until_ : Int) : Op U
  | AfterFunc (d : Int) (f : Int → Prog U) : Op U
  | UntilFunc (t : Int) (f : Int → Prog U) : Op U
  | EveryFunc (interval : Int) (f : Int → Prog U) : Op U
  | Stop (h : Nat) : Op U
  | Reset (h : Nat) (d : Int) : Op U
  | Cancel (ctx : Nat) : Op U

/-- The state after one call; `none` when the call does not return within its
fuel. -/
def Op.exec : Op U → World U → Option (World U)
  | .SetNow t, w => some (Chrono.SetNow w t).1
  | .Approach, w => some (Chrono.Approach w).world
  | .Advance, w => some (Chrono.Advance w).world
  | .AdvanceIfBefore b, w => some (Chrono.AdvanceIfBefore w b).world
  | .ProcessAll fuel ctx, w => (Chrono.ProcessAll fuel w ctx).map fun r => r.1
  | .ProcessAllUntil fuel ctx u, w => (Chrono.ProcessAllUntil fuel w ctx u).map fun r => r.1
  | .AfterFunc d f, w => some (Chrono.AfterFunc w d f).1
  | .UntilFunc t f, w => some (Chrono.UntilFunc w t f).1
  | .EveryFunc d f, w => some (Chrono.EveryFunc w d f).1
  | .Stop h, w => some (if h < w.nextId then (removeTask w h).1 else w)
  | .Reset h d, w => some (if h < w.nextId then (resetTask w h d).1 else w)
  | .Cancel c, w => some (cancelCtx w c)

/-- The values of `Now()` observed after each call of a sequence, in order; the
sequence stops at a call that does not return. -/
def nowsAfter : List (Op U) → World U → List Int
  | [], _ => []
  | op :: ops, w =>
    match op.exec w with
    | none => []
    | some w1 => Now w1 :: nowsAfter ops w1

/-- A request for a one-shot task: a call of `AfterFunc` or of `UntilFunc`. -/
inductive Sched (U : Type) : Type where
  | AfterFunc (d : Int) (f : Int → Prog U) : Sched U
  | UntilFunc (t : Int) (f : Int → Prog U) : Sched U

/-- The call a request stands for. -/
def Sched.call : Sched U → World U → World U
  | .AfterFunc d f, w => (Chrono.AfterFunc w d f).1
  | .UntilFunc t f, w => (Chrono.UntilFunc w t f).1

/-- The deadline a request made at time `now` asks for. -/
def Sched.deadline (now : Int) : Sched U → Int
  | .AfterFunc d _ => Time.Add now d
  | .UntilFunc t _ => t

/-- The action of a request. -/
def Sched.action : Sched U → Int → Prog U
  | .AfterFunc _ f => f
  | .UntilFunc _ f => f

/-- The requests made one after the other. -/
def scheduleAll : List (Sched U) → World U → World U
  | [], w => w
  | r :: rs, w => scheduleAll rs (r.call w)

/-- Deadline of the `i`-th request of a list made at time `now`. -/
def deadlineOf (now : Int) (reqs : List (Sched U)) (i : Nat) : Int :=
  match reqs[i]? with
  | some r => r.deadline now
  | none => 0

/-- `Advance` called again and again until it reports `hadTasks = false`; the
result is the final state and the number of calls that reported `true`.  One
unit of fuel is one call. -/
def drain : Nat → World U → Option (World U × Nat)
  | 0, _ => none
  | fuel + 1, w =>
    if (Advance w).hadTasks = false then some ((Advance w).world, 0)
    else (drain fuel (Advance w).world).map fun x => (x.1, x.2 + 1)

/-- Three one-shot requests, out of deadline order, used as a concrete input. -/
def demoReqs : List (Sched Unit) :=
  [Sched.AfterFunc 30 (fun _ => Prog.ret false), Sched.UntilFunc 10 (fun _ => Prog.ret false),
   Sched.AfterFunc 20 (fun _ => Prog.ret false)]

/-- The state after a sequence of calls; `none` when one of them does not
return within its fuel. -/
def runOps : List (Op U) → World U → Option (World U)
  | [], w => some w
  | op :: ops, w =>
    match op.exec w with
    | none => none
    | some w1 => runOps ops w1

/-- A simulator at time 0 with two pending timers (tasks 0 and 1, deadlines 10
and 5), used as a concrete input. -/
def demoTimers : World Unit :=
  (AfterFunc (AfterFunc (NewSimulator 0 ()) 10 (fun _ => Prog.ret false)).1 5
    (fun _ => Prog.ret false)).1

/-- `Advance` called `k` times in a row. -/
def advances : Nat → World U → World U
  | 0, w => w
  | k + 1, w => advances k (Advance w).world

/-- A simulator at time 0 with one pending timer, due at 10, whose action
calls `AfterFunc(5, ...)` on the same simulator: a concrete input. -/
def demoReentrant : World Unit :=
  (AfterFunc (NewSimulator 0 ()) 10
    (fun _ => Prog.afterFunc 5 (fun _ => Prog.ret false) fun _ => Prog.ret false)).1

/-! ## Specification vocabulary -/

/-- The state in which `processNextTask` calls `Run`: the root is popped and
the current time is raised to its deadline. -/
def beforeRun (w : World U) (root : Nat) : World U :=
  { (taskQueue.PopTask w).1 with now := max w.now (w.tasks root).Deadline }


/-- A callback body that makes no call on the clock or on a handle: it only
reads the time and reads and writes the captured variables. -/
def Prog.Quiet : Prog U → Prop
  | .ret _ => True
  | .now k => ∀ t, (k t).Quiet
  | .load k => ∀ u, (k u).Quiet
  | .store _ k => k.Quiet
  | .afterFunc _ _ _ => False
  | .untilFunc _ _ _ => False
  | .everyFunc _ _ _ => False
  | .stop _ _ => False
  | .reset _ _ _ => False
  | .cancel _ _ => False


/-- What the queue operations leave alone: everything except the queue itself
and the `indexInQueue` fields. -/
def QueueStep (w w1 : World U) : Prop :=
  w1.now = w.now ∧ w1.nextId = w.nextId ∧ w1.vars = w.vars ∧ w1.ctxErr = w.ctxErr ∧
  w1.fired = w.fired ∧
  ∀ t, (w1.tasks t).Deadline = (w.tasks t).Deadline ∧ (w1.tasks t).Action = (w.tasks t).Action

/-- Deadline of the task in slot `i` of the queue (0 for a slot out of range). -/
def World.key (w : World U) (i : Nat) : Int :=
  match w.taskQueue[i]? with
  | some t => (w.tasks t).Deadline
  | none => 0

/-- The min-heap property on deadlines among the first `n` slots: no child has
a deadline before its parent's. -/
def HeapOrdUpTo (w : World U) (n : Nat) : Prop :=
  ∀ p c, c < n → (c = 2 * p + 1 ∨ c = 2 * p + 2) → w.key p ≤ w.key c

/-- The min-heap property of the whole queue. -/
def HeapOrd (w : World U) : Prop := HeapOrdUpTo w w.taskQueue.length

/-- Loop invariant of `heap.up` at slot `j` within the first `n` slots: the
heap property holds for every pair except possibly `j` against its parent, and
the parent of `j` is not after the children of `j`. -/
def UpInv (w : World U) (j n : Nat) : Prop :=
  (∀ p c, c < n → (c = 2 * p + 1 ∨ c = 2 * p + 2) → c ≠ j → w.key p ≤ w.key c) ∧
  (∀ p c, c < n → (j = 2 * p + 1 ∨ j = 2 * p + 2) →
      (c = 2 * j + 1 ∨ c = 2 * j + 2) → w.key p ≤ w.key c)

/-- Loop invariant of `heap.down` at slot `i` within the first `n` slots: the
heap property holds for every pair whose parent is not `i`, and the parent of
`i` is not after the children of `i`. -/
def DownInv (w : World U) (i n : Nat) : Prop :=
  (∀ p c, c < n → (c = 2 * p + 1 ∨ c = 2 * p + 2) → p ≠ i → w.key p ≤ w.key c) ∧
  (∀ p c, c < n → (i = 2 * p + 1 ∨ i = 2 * p + 2) → (c = 2 * i + 1 ∨ c = 2 * i + 2) →
      w.key p ≤ w.key c)

/-- State reached from a new simulator by the requests `L` made at time `now0`:
the queue is a heap holding exactly the tasks `0 .. L.length - 1`, and task `i`
carries the deadline and the action of the `i`-th request. -/
def Scheduled (w : World U) (now0 : Int) (L : List (Sched U)) : Prop :=
  HeapOrd w ∧ w.taskQueue.Perm (List.range L.length) ∧ w.nextId = L.length ∧ w.now = now0 ∧
  w.fired = [] ∧
  ∀ i r, L[i]? = some r →
    (w.tasks i).Deadline = r.deadline now0 ∧ (w.tasks i).Action = Action.simTimer r.action

/-- The callback body never calls `Reset` on the handle `h`, and neither does
any callback it schedules, and so on. -/
def Prog.NoReset (h : Nat) : Prog U → Prop
  | .ret _ => True
  | .now k => ∀ t, (k t).NoReset h
  | .afterFunc _ f k => (∀ now, (f now).NoReset h) ∧ ∀ t, (k t).NoReset h
  | .untilFunc _ f k => (∀ now, (f now).NoReset h) ∧ ∀ t, (k t).NoReset h
  | .everyFunc _ f k => (∀ now, (f now).NoReset h) ∧ ∀ t, (k t).NoReset h
  | .stop _ k => ∀ b, (k b).NoReset h
  | .reset h1 _ k => h1 ≠ h ∧ ∀ b, (k b).NoReset h
  | .load k => ∀ u, (k u).NoReset h
  | .store _ k => k.NoReset h
  | .cancel _ k => k.NoReset h

/-- The user callback inside a task's closure never resets `h`. -/
def Action.NoReset (h : Nat) : Action U → Prop
  | .simTimer f => ∀ now, (f now).NoReset h
  | .simTicker _ f => ∀ now, (f now).NoReset h

/-- The call is not `Reset` on `h` and passes no callback that resets `h`. -/
def Op.NoReset (h : Nat) : Op U → Prop
  | .AfterFunc _ f => ∀ now, (f now).NoReset h
  | .UntilFunc _ f => ∀ now, (f now).NoReset h
  | .EveryFunc _ f => ∀ now, (f now).NoReset h
  | .Reset h1 _ => h1 ≠ h
  | _ => True

/-- Number of `Run` calls made so far on task `h`. -/
def runsOf (w : World U) (h : Nat) : Nat := w.fired.countP fun e => decide (e.task = h)

/-- The task `h` exists, is not in the queue, is marked not pending, no stored
callback resets it, and it has been run `c` times. -/
def Stopped (h c : Nat) (w : World U) : Prop :=
  h < w.nextId ∧ h ∉ w.taskQueue ∧ (w.tasks h).indexInQueue = -1 ∧
  (∀ t, (w.tasks t).Action.NoReset h) ∧ runsOf w h = c

/-- The task's `indexInQueue` is a slot of the queue that holds the task. -/
def IdxAt (w : World U) (h : Nat) : Prop :=
  ∃ i : Nat, (w.tasks h).indexInQueue = (i : Int) ∧ w.taskQueue[i]? = some h

/-- The data-model invariant for one task: either it is not pending
(`indexInQueue = -1`) and not in the queue, or it is in the queue exactly once,
in the slot `indexInQueue` records. -/
def Linked (w : World U) (h : Nat) : Prop :=
  ((w.tasks h).indexInQueue = -1 ∧ h ∉ w.taskQueue) ∨
  (IdxAt w h ∧ w.taskQueue.count h = 1)

/-- A ticker predicate that makes no call on the clock, counts its invocations
in the captured variables (`cnt`), and returns true on its first `N`
invocations and false on invocation `N + 1`. -/
def TickerPred (f : Int → Prog U) (cnt : U → Nat) (N : Nat) : Prop :=
  ∀ (now : Int) (w : World U), ∃ u,
    (f now).run w = ({ w with vars := u }, decide (cnt w.vars < N)) ∧ cnt u = cnt w.vars + 1

/-- A one-shot action that makes no call on the clock and leaves the
invocation counter `cnt` alone. -/
def Bystander (g : Int → Prog U) (cnt : U → Nat) : Prop :=
  ∀ (now : Int) (w : World U), ∃ u,
    ((g now).run w).1 = { w with vars := u } ∧ cnt u = cnt w.vars

/-- Invariant of a run in which the ticker task `h` (period `p`, predicate `f`)
fires among `k` pending bystander timers, after `c` invocations of the
predicate: while `c ≤ N` the ticker is queued exactly once, afterwards it is
neither queued nor marked pending. -/
def TickInv (h : Nat) (p : Int) (f : Int → Prog U) (cnt : U → Nat) (N ctx c0 : Nat)
    (w : World U) (k c : Nat) : Prop :=
  cnt w.vars = c ∧ w.ctxErr ctx = none ∧ (w.tasks h).Action = Action.simTicker p f ∧
  (∀ t ∈ w.taskQueue, t ≠ h → ∃ g, (w.tasks t).Action = Action.simTimer g ∧ Bystander g cnt) ∧
  w.taskQueue.length = k + (if c ≤ N then 1 else 0) ∧
  w.taskQueue.count h = (if c ≤ N then 1 else 0) ∧
  runsOf w h = c0 + c ∧ c ≤ N + 1 ∧ (c = N + 1 → (w.tasks h).indexInQueue = -1) ∧
  h < w.nextId

/-- A ticker predicate that counts its invocations in a variable and returns
true on the first two: a concrete input. -/
def demoPred : Int → Prog Nat :=
  fun _ => Prog.load fun u => Prog.store (u + 1) (Prog.ret (decide (u < 2)))

/-- The data-model invariant of the queue: every task is either not pending and
not queued, or queued exactly once in the slot it records. -/
def AllLinked (w : World U) : Prop := ∀ h, Linked w h

/-- The invariants of the simulator's queue: it is a min-heap on deadlines,
every task is linked, and every queued pointer points to an allocated task. -/
def GoodQueue (w : World U) : Prop :=
  HeapOrd w ∧ AllLinked w ∧ ∀ t ∈ w.taskQueue, t < w.nextId

/-- The body itself makes no `Reset` call (callbacks it schedules may). -/
def Prog.ResetFree : Prog U → Prop
  | .ret _ => True
  | .now k => ∀ t, (k t).ResetFree
  | .afterFunc _ _ k => ∀ t, (k t).ResetFree
  | .untilFunc _ _ k => ∀ t, (k t).ResetFree
  | .everyFunc _ _ k => ∀ t, (k t).ResetFree
  | .stop _ k => ∀ b, (k b).ResetFree
  | .reset _ _ _ => False
  | .load k => ∀ u, (k u).ResetFree
  | .store _ k => k.ResetFree
  | .cancel _ k => k.ResetFree

/-- Every ticker predicate passed to `EveryFunc` by the body, or by a callback
it schedules, and so on, makes no `Reset` call while it runs. -/
def Prog.TickSafe : Prog U → Prop
  | .ret _ => True
  | .now k => ∀ t, (k t).TickSafe
  | .afterFunc _ f k => (∀ now, (f now).TickSafe) ∧ ∀ t, (k t).TickSafe
  | .untilFunc _ f k => (∀ now, (f now).TickSafe) ∧ ∀ t, (k t).TickSafe
  | .everyFunc _ f k =>
    (∀ now, (f now).TickSafe) ∧ (∀ now, (f now).ResetFree) ∧ ∀ t, (k t).TickSafe
  | .stop _ k => ∀ b, (k b).TickSafe
  | .reset _ _ k => ∀ b, (k b).TickSafe
  | .load k => ∀ u, (k u).TickSafe
  | .store _ k => k.TickSafe
  | .cancel _ k => k.TickSafe

/-- The callback in a task's closure is `TickSafe`, and a ticker's predicate
makes no `Reset` call while it runs. -/
def Action.TickSafe : Action U → Prop
  | .simTimer f => ∀ now, (f now).TickSafe
  | .simTicker _ f => (∀ now, (f now).TickSafe) ∧ ∀ now, (f now).ResetFree

/-- A state whose queue is good and whose stored callbacks are `TickSafe`. -/
def SafeWorld (w : World U) : Prop :=
  GoodQueue w ∧ ∀ t, (w.tasks t).Action.TickSafe

/-- A callback body written for a buffering clock that uses only what
buffering supports and only forward in time: it reads and writes captured
variables, calls `AfterFunc` with non-negative durations and `EveryFunc` with
positive intervals, and the callbacks it passes are of the same kind.  (It
calls neither `Stop` nor `Reset`, which the package documents as unsupported
in buffering mode, nor `UntilFunc` and `Now`, which a `ClockWithBuffering`
forwards to the live clock.) -/
def Prog.BufOK : Prog U → Prop
  | .ret _ => True
  | .load k => ∀ u, (k u).BufOK
  | .store _ k => k.BufOK
  | .afterFunc d f k => 0 ≤ d ∧ (∀ now, (f now).BufOK) ∧ ∀ t, (k t).BufOK
  | .everyFunc d f k => 0 < d ∧ (∀ now, (f now).BufOK) ∧ ∀ t, (k t).BufOK
  | .now _ => False
  | .untilFunc _ _ _ => False
  | .stop _ _ => False
  | .reset _ _ _ => False
  | .cancel _ _ => False

/-- The callback of a task is `BufOK`, and a ticker's period is positive. -/
def Action.BufOK : Action U → Prop
  | .simTimer f => ∀ now, (f now).BufOK
  | .simTicker p f => 0 < p ∧ ∀ now, (f now).BufOK

/-- Invariant of draining a buffer, for the firings `es` made so far, the
queue `Q0` and the allocation mark `n0` at the start: the queue is good, no
pending deadline is before the current time, the firings are in
non-decreasing deadline order and none is after the current time, a queued
task is due later than any firing of it, no firing occurs twice, and every
task that was queued at the start or created since is queued or has fired. -/
structure BufInv (Q0 : List Nat) (n0 : Nat) (w : World U) (es : List Firing) : Prop where
  good : GoodQueue w
  acts : ∀ t, (w.tasks t).Action.BufOK
  due : ∀ t ∈ w.taskQueue, w.now ≤ (w.tasks t).Deadline
  past : ∀ e ∈ es, e.deadline ≤ w.now
  sorted : (es.map fun e => e.deadline).Sorted fun a b => a ≤ b
  alloc : ∀ e ∈ es, e.task < w.nextId
  later : ∀ e ∈ es, e.task ∈ w.taskQueue → e.deadline < (w.tasks e.task).Deadline
  nodup : (es.map fun e => (e.task, e.deadline)).Nodup
  kept : ∀ t, (t ∈ Q0 ∨ n0 ≤ t) → t < w.nextId → t ∈ w.taskQueue ∨ ∃ e ∈ es, e.task = t

/-- A buffering clock started at time 100 on which two timers were buffered,
due at 110 and at 2100: a concrete input. -/
def demoBuffered : ClockWithBuffering Unit :=
  { Clock := []
    bufferingEnabled := true
    tasksBufferNil := false
    world := (AfterFunc (AfterFunc (NewSimulator 100 ()) 10 (fun _ => Prog.ret false)).1 2000
      (fun _ => Prog.ret false)).1 }

/-- A buffering clock started at time 100 with one buffered timer, due at 110,
whose action schedules a further timer with the duration -5: a concrete
input. -/
def demoBackdated : ClockWithBuffering Unit :=
  { Clock := []
    bufferingEnabled := true
    tasksBufferNil := false
    world := (AfterFunc (NewSimulator 100 ()) 10
      (fun _ => Prog.afterFunc (-5) (fun _ => Prog.ret false) fun _ => Prog.ret false)).1 }

/-- A buffering clock started at time 100 with one buffered timer due at 1000,
whose action schedules nothing: a concrete input. -/
def demoDueAtStart : ClockWithBuffering Unit :=
  { Clock := []
    bufferingEnabled := true
    tasksBufferNil := false
    world := (AfterFunc (NewSimulator 100 ()) 900 (fun _ => Prog.ret false)).1 }

/-- A simulator at time 100 with one pending timer scheduled by
`UntilFunc` for the time 50: a concrete input. -/
def demoPast : World Unit :=
  (UntilFunc (NewSimulator 100 ()) 50 (fun _ => Prog.ret false)).1

/-- A simulator at time 0 with one pending timer, due at 10: a concrete
input. -/
def demoOneTimer : World Unit :=
  (AfterFunc (NewSimulator 0 ()) 10 (fun _ => Prog.ret false)).1

/-- A simulator at time 0 with a ticker of period 10 (task 0) whose predicate
calls `Reset(5)` on the ticker itself and returns true, and a timer due at 20
(task 1): a concrete input. -/
def demoSelfReset : World Unit :=
  (AfterFunc
    (EveryFunc (NewSimulator 0 ()) 10 (fun _ => Prog.reset 0 5 fun _ => Prog.ret true)).1
    20 (fun _ => Prog.ret false)).1

/-- Every contained task's `indexInQueue` equals its slot. -/
def SlotIndexed (w : World U) : Prop :=
  ∀ (i t : Nat), w.taskQueue[i]? = some t → (w.tasks t).indexInQueue = (i : Int)

/-- The firings of task `h` in a trace. -/
def firingsOf (h : Nat) (es : List Firing) : List Firing :=
  es.filter fun e => decide (e.task = h)

/-- Firings of the task `h` on schedule: `k` firings, the first at `D`, each
`p` after the one before, each invoked at the time it is due. -/
def onSchedule (h : Nat) (D p : Int) (k : Nat) : List Firing :=
  (List.range k).map fun (i : Nat) =>
    { task := h, deadline := D + (i : Int) * p, now := D + (i : Int) * p }

/-- A simulator at time 0 with one ticker of period 10 whose predicate always
returns true: a concrete input. -/
def demoTicker : World Unit :=
  (EveryFunc (NewSimulator 0 ()) 10 (fun _ => Prog.ret true)).1


/-- A ticker predicate that counts its invocations in a variable; on its first
invocation it calls `Reset(5)` on the ticker of task 0 and returns true, on
every later invocation it returns false: a concrete input. -/
def demoResetOncePred : Int → Prog Nat :=
  fun _ => Prog.load fun u => Prog.store (u + 1)
    (if u = 0 then Prog.reset 0 5 (fun _ => Prog.ret true) else Prog.ret false)

/-- A simulator at time 0 with one ticker of period 10 (task 0) whose predicate
is `demoResetOncePred`: a concrete input. -/
def demoResetOnce : World Nat :=
  (EveryFunc (NewSimulator 0 0) 10 demoResetOncePred).1

/-- A simulator at time 0 with a ticker of period 12 whose predicate always
returns true (task 0) and a ticker of period 10 whose predicate calls
`Reset(5)` on that second ticker itself and returns true (task 1): a concrete
input. -/
def demoTwoTickers : World Unit :=
  (EveryFunc (EveryFunc (NewSimulator 0 ()) 12 (fun _ => Prog.ret true)).1 10
    (fun _ => Prog.reset 1 5 fun _ => Prog.ret true)).1

/-! # Theorems -/

/-! ## Time arithmetic -/

theorem Time.Sub_pos_iff (t u : Int) : 0 < Time.Sub t u ↔ u < t := by
  unfold Time.Sub maxDuration minDuration
  split_ifs <;> constructor <;> intro h <;> omega

theorem Time.Sub_eq_clamp (t u : Int) :
    Time.Sub t u = max minDuration (min maxDuration (t - u)) := by
  unfold Time.Sub maxDuration minDuration
  split_ifs <;> omega

theorem setNow_now (w : World U) (t : Int) : (setNow w t).1.now = max w.now t := by
  unfold setNow
  by_cases h : 0 < Time.Sub t w.now
  · have := (Time.Sub_pos_iff t w.now).1 h
    simp only [h, if_true]; omega
  · have : ¬ w.now < t := fun h2 => h ((Time.Sub_pos_iff t w.now).2 h2)
    simp only [h, if_false]; omega

theorem setNow_fst (w : World U) (t : Int) :
    (setNow w t).1 = { w with now := max w.now t } := by
  unfold setNow
  by_cases h : 0 < Time.Sub t w.now
  · have := (Time.Sub_pos_iff t w.now).1 h
    simp only [h, if_true]
    congr 1; omega
  · have : ¬ w.now < t := fun h2 => h ((Time.Sub_pos_iff t w.now).2 h2)
    simp only [h, if_false]
    cases w; simp only [World.mk.injEq, and_true, true_and]
    simp only at this; omega

theorem setNow_snd (w : World U) (t : Int) :
    (setNow w t).2 = (max w.now t, Time.Sub t w.now) := by
  have h := setNow_now w t
  unfold setNow at h ⊢
  simp only at h ⊢
  rw [h]

/-! ## Frame properties of the queue operations -/

theorem QueueStep.refl (w : World U) : QueueStep w w :=
  ⟨rfl, rfl, rfl, rfl, rfl, fun _ => ⟨rfl, rfl⟩⟩

theorem QueueStep.trans {w w1 w2 : World U} (h1 : QueueStep w w1) (h2 : QueueStep w1 w2) :
    QueueStep w w2 := by
  obtain ⟨a1, a2, a3, a4, a5, a6⟩ := h1
  obtain ⟨b1, b2, b3, b4, b5, b6⟩ := h2
  refine ⟨b1.trans a1, b2.trans a2, b3.trans a3, b4.trans a4, b5.trans a5, fun t => ?_⟩
  exact ⟨(b6 t).1.trans (a6 t).1, (b6 t).2.trans (a6 t).2⟩

theorem update_index_Deadline (f : Nat → Task U) (x : Nat) (v : Int) (t : Nat) :
    (Function.update f x { f x with indexInQueue := v } t).Deadline = (f t).Deadline := by
  simp only [Function.update_apply]
  split_ifs with h
  · subst h; rfl
  · rfl

theorem update_index_Action (f : Nat → Task U) (x : Nat) (v : Int) (t : Nat) :
    (Function.update f x { f x with indexInQueue := v } t).Action = (f t).Action := by
  simp only [Function.update_apply]
  split_ifs with h
  · subst h; rfl
  · rfl

theorem Swap_step (w : World U) (i j : Nat) : QueueStep w (taskQueue.Swap w i j) := by
  unfold taskQueue.Swap
  split
  · refine ⟨rfl, rfl, rfl, rfl, rfl, fun t => ?_⟩
    refine ⟨?_, ?_⟩ <;>
      (simp only [Function.update_apply]
       split_ifs <;> simp_all)
  · exact QueueStep.refl w

theorem Push_step (w : World U) (t : Nat) : QueueStep w (taskQueue.Push w t) := by
  refine ⟨rfl, rfl, rfl, rfl, rfl, fun x => ?_⟩
  simp only [taskQueue.Push, Function.update_apply]
  split_ifs with h
  · subst h; exact ⟨rfl, rfl⟩
  · exact ⟨rfl, rfl⟩

theorem Pop_step (w : World U) : QueueStep w (taskQueue.Pop w).1 := by
  unfold taskQueue.Pop
  split
  · exact QueueStep.refl w
  · refine ⟨rfl, rfl, rfl, rfl, rfl, fun x => ?_⟩
    simp only [Function.update_apply]
    split_ifs with h
    · subst h; exact ⟨rfl, rfl⟩
    · exact ⟨rfl, rfl⟩

theorem upLoop_step (fuel : Nat) (w : World U) (j : Nat) : QueueStep w (heap.upLoop fuel w j) := by
  induction fuel generalizing w j with
  | zero => exact QueueStep.refl w
  | succ n ih =>
    unfold heap.upLoop
    simp only
    split_ifs
    · exact QueueStep.refl w
    · exact (Swap_step w _ _).trans (ih _ _)

theorem downLoop_step (fuel : Nat) (w : World U) (i n : Nat) :
    QueueStep w (heap.downLoop fuel w i n).1 := by
  induction fuel generalizing w i with
  | zero => exact QueueStep.refl w
  | succ m ih =>
    unfold heap.downLoop
    simp only
    split_ifs
    all_goals first | exact QueueStep.refl w | exact (Swap_step w _ _).trans (ih _ _)

theorem heapPush_step (w : World U) (t : Nat) : QueueStep w (heap.Push w t) :=
  (Push_step w t).trans (upLoop_step _ _ _)

theorem heapPop_step (w : World U) : QueueStep w (heap.Pop w).1 :=
  ((Swap_step w _ _).trans (downLoop_step _ _ _ _)).trans (Pop_step _)

theorem heapRemove_step (w : World U) (i : Nat) : QueueStep w (heap.Remove w i).1 := by
  unfold heap.Remove
  simp only
  split_ifs
  · exact (((Swap_step w _ _).trans (downLoop_step _ _ _ _)).trans (upLoop_step _ _ _)).trans
      (Pop_step _)
  · exact ((Swap_step w _ _).trans (downLoop_step _ _ _ _)).trans (Pop_step _)
  · exact Pop_step w

theorem PushTask_step (w : World U) (t : Nat) : QueueStep w (taskQueue.PushTask w t) :=
  heapPush_step w t

theorem PopTask_step (w : World U) : QueueStep w (taskQueue.PopTask w).1 :=
  heapPop_step w

theorem RemoveTask_step (w : World U) (t : Nat) : QueueStep w (taskQueue.RemoveTask w t) := by
  unfold taskQueue.RemoveTask
  split_ifs
  · exact heapRemove_step w _
  · exact QueueStep.refl w

/-! ## Slots and keys under the queue operations -/

theorem key_of_get (w : World U) (i t : Nat) (h : w.taskQueue[i]? = some t) :
    w.key i = (w.tasks t).Deadline := by
  simp only [World.key, h]

theorem key_congr (w w1 : World U) (hs : QueueStep w w1) (x y : Nat)
    (h : w1.taskQueue[x]? = w.taskQueue[y]?) : w1.key x = w.key y := by
  unfold World.key
  rw [h]
  split
  · exact (hs.2.2.2.2.2 _).1
  · rfl

theorem Less_iff (w : World U) (i j : Nat) :
    taskQueue.Less w i j = true ↔
      i < w.taskQueue.length ∧ j < w.taskQueue.length ∧ w.key i < w.key j := by
  unfold taskQueue.Less World.key
  by_cases hi : i < w.taskQueue.length
  · by_cases hj : j < w.taskQueue.length
    · simp [List.getElem?_eq_getElem hi, List.getElem?_eq_getElem hj, Time.Before, hi, hj]
    · simp [List.getElem?_eq_none (not_lt.1 hj), hj]
  · simp [List.getElem?_eq_none (not_lt.1 hi), hi]

theorem Swap_out_of_range (w : World U) (i j : Nat)
    (h : ¬ (i < w.taskQueue.length ∧ j < w.taskQueue.length)) : taskQueue.Swap w i j = w := by
  unfold taskQueue.Swap
  by_cases hi : i < w.taskQueue.length
  · have hj : ¬ j < w.taskQueue.length := fun hj => h ⟨hi, hj⟩
    simp [List.getElem?_eq_none (not_lt.1 hj)]
  · simp [List.getElem?_eq_none (not_lt.1 hi)]

theorem Swap_length (w : World U) (i j : Nat) :
    (taskQueue.Swap w i j).taskQueue.length = w.taskQueue.length := by
  unfold taskQueue.Swap
  split
  · simp
  · rfl

theorem Swap_get (w : World U) (i j x : Nat) (hi : i < w.taskQueue.length)
    (hj : j < w.taskQueue.length) :
    (taskQueue.Swap w i j).taskQueue[x]? =
      if x = j then w.taskQueue[i]? else if x = i then w.taskQueue[j]? else w.taskQueue[x]? := by
  unfold taskQueue.Swap
  simp only [List.getElem?_eq_getElem hi, List.getElem?_eq_getElem hj, List.getElem?_set,
    List.length_set]
  by_cases h1 : x = j
  · subst h1; simp [hj]
  · by_cases h2 : x = i
    · subst h2; simp [hi, Ne.symm h1, h1]
    · simp [h1, h2, Ne.symm h1, Ne.symm h2]

theorem Swap_key (w : World U) (i j x : Nat) (hi : i < w.taskQueue.length)
    (hj : j < w.taskQueue.length) :
    (taskQueue.Swap w i j).key x =
      if x = j then w.key i else if x = i then w.key j else w.key x := by
  have hs := Swap_step w i j
  have hg := Swap_get w i j x hi hj
  by_cases h1 : x = j
  · rw [if_pos h1] at hg ⊢
    exact key_congr w _ hs x i hg
  · rw [if_neg h1] at hg ⊢
    by_cases h2 : x = i
    · rw [if_pos h2] at hg ⊢
      exact key_congr w _ hs x j hg
    · rw [if_neg h2] at hg ⊢
      exact key_congr w _ hs x x hg

theorem Swap_perm (w : World U) (i j : Nat) :
    (taskQueue.Swap w i j).taskQueue.Perm w.taskQueue := by
  by_cases h : i < w.taskQueue.length ∧ j < w.taskQueue.length
  · obtain ⟨hi, hj⟩ := h
    rw [List.perm_iff_count]
    intro x
    have hq : (taskQueue.Swap w i j).taskQueue
        = (w.taskQueue.set i w.taskQueue[j]).set j w.taskQueue[i] := by
      unfold taskQueue.Swap
      simp only [List.getElem?_eq_getElem hi, List.getElem?_eq_getElem hj]
    rw [hq, List.count_set _ _ _ _ (by simpa using hj), List.count_set _ _ _ _ hi]
    have hci : w.taskQueue[i] = x → 1 ≤ List.count x w.taskQueue := fun e =>
      List.count_pos_iff.2 (e ▸ List.getElem_mem _)
    have hcj : w.taskQueue[j] = x → 1 ≤ List.count x w.taskQueue := fun e =>
      List.count_pos_iff.2 (e ▸ List.getElem_mem _)
    simp only [List.getElem_set, beq_iff_eq]
    by_cases hij : i = j
    · subst hij
      simp only [if_true]
      split_ifs <;> omega
    · simp only [hij, if_false]
      split_ifs <;> omega
  · rw [Swap_out_of_range w i j h]

/-! ## `heap.up` and `heap.down` restore the heap property -/

theorem upLoop_length (fuel : Nat) (w : World U) (j : Nat) :
    (heap.upLoop fuel w j).taskQueue.length = w.taskQueue.length := by
  induction fuel generalizing w j with
  | zero => rfl
  | succ n ih =>
    unfold heap.upLoop
    simp only
    split_ifs
    · rfl
    · rw [ih, Swap_length]

theorem upLoop_perm (fuel : Nat) (w : World U) (j : Nat) :
    (heap.upLoop fuel w j).taskQueue.Perm w.taskQueue := by
  induction fuel generalizing w j with
  | zero => exact List.Perm.refl _
  | succ n ih =>
    unfold heap.upLoop
    simp only
    split_ifs
    · exact List.Perm.refl _
    · exact (ih _ _).trans (Swap_perm w _ _)

theorem downLoop_length (fuel : Nat) (w : World U) (i n : Nat) :
    (heap.downLoop fuel w i n).1.taskQueue.length = w.taskQueue.length := by
  induction fuel generalizing w i with
  | zero => rfl
  | succ m ih =>
    unfold heap.downLoop
    simp only
    split_ifs
    all_goals first | rfl | rw [ih, Swap_length]

theorem downLoop_perm (fuel : Nat) (w : World U) (i n : Nat) :
    (heap.downLoop fuel w i n).1.taskQueue.Perm w.taskQueue := by
  induction fuel generalizing w i with
  | zero => exact List.Perm.refl _
  | succ m ih =>
    unfold heap.downLoop
    simp only
    split_ifs
    all_goals first | exact List.Perm.refl _ | exact (ih _ _).trans (Swap_perm w _ _)

theorem upLoop_heap_upto (fuel : Nat) (w : World U) (j n : Nat) (hf : j ≤ fuel)
    (hjn : j < n) (hn : n ≤ w.taskQueue.length) (hinv : UpInv w j n) :
    HeapOrdUpTo (heap.upLoop fuel w j) n := by
  have hj : j < w.taskQueue.length := by omega
  induction fuel generalizing w j with
  | zero =>
    obtain ⟨hA, _⟩ := hinv
    intro p c hc hpc
    exact hA p c hc hpc (by omega)
  | succ n ih =>
    obtain ⟨hA, hB⟩ := hinv
    unfold heap.upLoop
    simp only
    split_ifs with hbrk
    · intro p c hc hpc
      by_cases hcj : c = j
      · rcases hbrk with h0 | hless
        · omega
        · have hp : p = (j - 1) / 2 := by omega
          have hnl : ¬ (taskQueue.Less w j ((j - 1) / 2) = true) := by simp [hless]
          rw [Less_iff] at hnl
          have hi : (j - 1) / 2 < w.taskQueue.length := by omega
          have : ¬ w.key j < w.key ((j - 1) / 2) := fun h => hnl ⟨hj, hi, h⟩
          rw [hcj, hp]
          omega
      · exact hA p c hc hpc hcj
    · have hne : (j - 1) / 2 ≠ j := fun h => hbrk (Or.inl h)
      have hless : taskQueue.Less w j ((j - 1) / 2) = true := by
        cases h : taskQueue.Less w j ((j - 1) / 2)
        · exact absurd (Or.inr h) hbrk
        · rfl
      rw [Less_iff] at hless
      obtain ⟨_, hi, hlt⟩ := hless
      have hkey := fun x => Swap_key w ((j - 1) / 2) j x hi hj
      apply ih
      · omega
      · omega
      · rw [Swap_length]; exact hn
      · constructor
        · intro p c hc hpc hci
          rw [hkey p, hkey c]
          by_cases hcj : c = j
          · have hp : p = (j - 1) / 2 := by omega
            rw [if_pos hcj, if_neg (by omega), if_pos hp]
            omega
          · rw [if_neg hcj, if_neg hci]
            by_cases hpj : p = j
            · rw [if_pos hpj]
              exact hB ((j - 1) / 2) c hc (by omega) (by omega)
            · rw [if_neg hpj]
              by_cases hpi : p = (j - 1) / 2
              · rw [if_pos hpi]
                have := hA ((j - 1) / 2) c hc (by omega) hcj
                omega
              · rw [if_neg hpi]
                exact hA p c hc hpc hcj
        · intro p c hc hpi hic
          rw [hkey p, hkey c]
          rw [if_neg (by omega), if_neg (by omega)]
          have h1 := hA p ((j - 1) / 2) (by omega) hpi (by omega)
          by_cases hcj : c = j
          · rw [if_pos hcj]; exact h1
          · rw [if_neg hcj, if_neg (by omega)]
            have h2 := hA ((j - 1) / 2) c hc hic hcj
            omega
      · rw [Swap_length]; exact hi

theorem upLoop_heap (fuel : Nat) (w : World U) (j : Nat) (hf : j ≤ fuel)
    (hj : j < w.taskQueue.length) (hinv : UpInv w j w.taskQueue.length) :
    HeapOrd (heap.upLoop fuel w j) := by
  unfold HeapOrd
  rw [upLoop_length]
  exact upLoop_heap_upto fuel w j _ hf hj (le_refl _) hinv

theorem downLoop_get_ge (fuel : Nat) (w : World U) (i n x : Nat) (hn : n ≤ w.taskQueue.length)
    (hi : i < n) (hx : n ≤ x) :
    (heap.downLoop fuel w i n).1.taskQueue[x]? = w.taskQueue[x]? := by
  induction fuel generalizing w i with
  | zero => rfl
  | succ m ih =>
    unfold heap.downLoop
    simp only
    split_ifs with h1 h2 h3 h4
    · rfl
    · rfl
    · rw [ih _ _ (by rw [Swap_length]; exact hn) (by omega),
        Swap_get w _ _ x (by omega) (by omega), if_neg (by omega), if_neg (by omega)]
    · rfl
    · rw [ih _ _ (by rw [Swap_length]; exact hn) (by omega),
        Swap_get w _ _ x (by omega) (by omega), if_neg (by omega), if_neg (by omega)]

theorem downLoop_heap (fuel : Nat) (w : World U) (i n : Nat) (hf : n ≤ fuel + i)
    (hn : n ≤ w.taskQueue.length) (hinv : DownInv w i n) :
    HeapOrdUpTo (heap.downLoop fuel w i n).1 n := by
  induction fuel generalizing w i with
  | zero =>
    obtain ⟨hA, _⟩ := hinv
    intro p c hc hpc
    exact hA p c hc hpc (by omega)
  | succ m ih =>
    obtain ⟨hA, hB⟩ := hinv
    unfold heap.downLoop
    simp only
    by_cases h1 : n ≤ 2 * i + 1
    · rw [if_pos h1]
      intro p c hc hpc
      exact hA p c hc hpc (by omega)
    · rw [if_neg h1]
      -- the chosen child `j` has the least key among the children of `i` below `n`
      have hmin : ∀ j, j = (if 2 * i + 1 + 1 < n ∧ taskQueue.Less w (2 * i + 1 + 1) (2 * i + 1) = true
            then 2 * i + 1 + 1 else 2 * i + 1) →
          (j = 2 * i + 1 ∨ j = 2 * i + 2) ∧ j < n ∧
          ∀ c, c < n → (c = 2 * i + 1 ∨ c = 2 * i + 2) → w.key j ≤ w.key c := by
        intro j hj
        split_ifs at hj with hsel
        · obtain ⟨hlt, hless⟩ := hsel
          rw [Less_iff] at hless
          refine ⟨by omega, by omega, fun c _ hc => ?_⟩
          rcases hc with hc | hc
          · rw [hj, hc]; exact le_of_lt hless.2.2
          · rw [hj, hc]
        · refine ⟨by omega, by omega, fun c hcn hc => ?_⟩
          rcases hc with hc | hc
          · rw [hj, hc]
          · have hnl : ¬ (taskQueue.Less w (2 * i + 1 + 1) (2 * i + 1) = true) :=
              fun h => hsel ⟨by omega, h⟩
            rw [Less_iff] at hnl
            have : ¬ w.key (2 * i + 1 + 1) < w.key (2 * i + 1) :=
              fun h => hnl ⟨by omega, by omega, h⟩
            rw [hj, hc]
            have e : 2 * i + 2 = 2 * i + 1 + 1 := rfl
            rw [e]
            omega
      generalize hjdef : (if 2 * i + 1 + 1 < n ∧ taskQueue.Less w (2 * i + 1 + 1) (2 * i + 1) = true
            then 2 * i + 1 + 1 else 2 * i + 1) = j at hmin ⊢
      obtain ⟨hch, hjn, hjmin⟩ := hmin j rfl
      by_cases h2 : taskQueue.Less w j i = false
      · rw [if_pos h2]
        have hnl : ¬ (taskQueue.Less w j i = true) := by simp [h2]
        rw [Less_iff] at hnl
        have hij : w.key i ≤ w.key j := by
          have : ¬ w.key j < w.key i := fun h => hnl ⟨by omega, by omega, h⟩
          omega
        show HeapOrdUpTo w n
        intro p c hc hpc
        by_cases hp : p = i
        · have := hjmin c hc (by omega)
          rw [hp]
          omega
        · exact hA p c hc hpc hp
      · rw [if_neg h2]
        have hless : taskQueue.Less w j i = true := by
          cases h : taskQueue.Less w j i
          · exact absurd h h2
          · rfl
        rw [Less_iff] at hless
        obtain ⟨hjl, hil, hlt⟩ := hless
        have hkey := fun x => Swap_key w i j x hil hjl
        apply ih
        · omega
        · rw [Swap_length]; exact hn
        · constructor
          · intro p c hc hpc hpj
            rw [hkey p, hkey c, if_neg hpj]
            by_cases hpi : p = i
            · rw [if_pos hpi]
              by_cases hcj : c = j
              · rw [if_pos hcj]; omega
              · rw [if_neg hcj, if_neg (by omega)]
                exact hjmin c hc (by omega)
            · rw [if_neg hpi, if_neg (by omega)]
              by_cases hci : c = i
              · rw [if_pos hci]
                exact hB p j hjn (by omega) (by omega)
              · rw [if_neg hci]
                exact hA p c hc hpc hpi
          · intro p c hc hpj hjc
            rw [hkey p, hkey c]
            rw [if_neg (by omega), if_pos (by omega), if_neg (by omega), if_neg (by omega)]
            exact hA j c hc hjc (by omega)

/-! ## `PushTask` and `PopTask` -/

theorem Push_key_lt (w : World U) (t i : Nat) (hi : i < w.taskQueue.length) :
    (taskQueue.Push w t).key i = w.key i := by
  apply key_congr w _ (Push_step w t) i i
  simp only [taskQueue.Push]
  rw [List.getElem?_append_left hi]

theorem PushTask_length (w : World U) (t : Nat) :
    (taskQueue.PushTask w t).taskQueue.length = w.taskQueue.length + 1 := by
  unfold taskQueue.PushTask heap.Push heap.up
  simp only [upLoop_length]
  simp [taskQueue.Push]

theorem PushTask_perm (w : World U) (t : Nat) :
    (taskQueue.PushTask w t).taskQueue.Perm (t :: w.taskQueue) := by
  unfold taskQueue.PushTask heap.Push heap.up
  exact (upLoop_perm _ _ _).trans (List.perm_append_singleton t w.taskQueue)

theorem PushTask_heap (w : World U) (t : Nat) (h : HeapOrd w) :
    HeapOrd (taskQueue.PushTask w t) := by
  unfold taskQueue.PushTask heap.Push heap.up
  have hlen : (taskQueue.Push w t).taskQueue.length = w.taskQueue.length + 1 := by
    simp [taskQueue.Push]
  simp only [hlen, Nat.add_sub_cancel]
  apply upLoop_heap _ _ _ (le_refl _) (by omega)
  constructor
  · intro p c hc hpc hne
    rw [hlen] at hc
    rw [Push_key_lt w t p (by omega), Push_key_lt w t c (by omega)]
    exact h p c (by omega) hpc
  · intro p c hc _ hcc
    omega

theorem Pop_spec (w : World U) (n : Nat) (hn : w.taskQueue.length = n + 1) :
    ∃ t, w.taskQueue[n]? = some t ∧ (taskQueue.Pop w).2 = some t ∧
      (taskQueue.Pop w).1.taskQueue = w.taskQueue.dropLast ∧
      (taskQueue.Pop w).1.taskQueue ++ [t] = w.taskQueue := by
  have hl : w.taskQueue.getLast? = w.taskQueue[n]? := by
    rw [List.getLast?_eq_getElem?, hn, Nat.add_sub_cancel]
  have hlt : n < w.taskQueue.length := by omega
  refine ⟨w.taskQueue[n], List.getElem?_eq_getElem hlt, ?_, ?_, ?_⟩
  · unfold taskQueue.Pop
    rw [hl, List.getElem?_eq_getElem hlt]
  · unfold taskQueue.Pop
    rw [hl, List.getElem?_eq_getElem hlt]
  · unfold taskQueue.Pop
    rw [hl, List.getElem?_eq_getElem hlt]
    exact List.dropLast_append_getLast? _ (by rw [hl, List.getElem?_eq_getElem hlt]; rfl)

theorem PopTask_spec (w : World U) (hne : w.taskQueue ≠ []) :
    ∃ root, w.taskQueue[0]? = some root ∧ (taskQueue.PopTask w).2 = some root ∧
      (root :: (taskQueue.PopTask w).1.taskQueue).Perm w.taskQueue ∧
      (taskQueue.PopTask w).1.taskQueue.length + 1 = w.taskQueue.length ∧
      (HeapOrd w → HeapOrd (taskQueue.PopTask w).1) := by
  obtain ⟨n, hn⟩ : ∃ n, w.taskQueue.length = n + 1 :=
    ⟨w.taskQueue.length - 1, by
      have := List.length_pos.2 hne
      omega⟩
  have h0 : 0 < w.taskQueue.length := by omega
  have hnl : n < w.taskQueue.length := by omega
  unfold taskQueue.PopTask heap.Pop heap.down
  simp only [hn, Nat.add_sub_cancel]
  set w1 := taskQueue.Swap w 0 n with hw1
  set w2 := (heap.downLoop n w1 0 n).1 with hw2
  have hlen1 : w1.taskQueue.length = n + 1 := by rw [hw1, Swap_length, hn]
  have hlen2 : w2.taskQueue.length = n + 1 := by rw [hw2, downLoop_length, hlen1]
  obtain ⟨t, ht, hres, hq, happ⟩ := Pop_spec w2 n hlen2
  have hslot : w2.taskQueue[n]? = w.taskQueue[0]? := by
    by_cases hz : n = 0
    · subst hz
      rw [hw2]
      show (heap.downLoop 0 w1 0 0).1.taskQueue[0]? = _
      show w1.taskQueue[0]? = _
      rw [hw1, Swap_get w 0 0 0 h0 h0, if_pos rfl]
    · rw [hw2, downLoop_get_ge n w1 0 n n (by omega) (by omega) (le_refl _), hw1,
        Swap_get w 0 n n h0 hnl, if_pos rfl]
  refine ⟨t, by rw [← hslot]; exact ht, hres, ?_, ?_, ?_⟩
  · have hp2 : w2.taskQueue.Perm w.taskQueue :=
      (downLoop_perm _ _ _ _).trans (Swap_perm w 0 n)
    rw [← happ] at hp2
    exact ((List.perm_append_singleton t _).symm).trans hp2
  · rw [hq, List.length_dropLast, hlen2]; rfl
  · intro hh
    have hdown : HeapOrdUpTo w2 n := by
      apply downLoop_heap n w1 0 n (by omega) (by omega)
      constructor
      · intro p c hc hpc hp
        rw [hw1, Swap_key w 0 n p h0 hnl, Swap_key w 0 n c h0 hnl,
          if_neg (by omega), if_neg hp, if_neg (by omega), if_neg (by omega)]
        exact hh p c (by omega) hpc
      · intro p c _ hp0 _
        omega
    intro p c hc hpc
    have hl3 : (taskQueue.Pop w2).1.taskQueue.length = n := by
      rw [hq, List.length_dropLast, hlen2]; rfl
    rw [hl3] at hc
    have hk : ∀ x, x < n → (taskQueue.Pop w2).1.key x = w2.key x := by
      intro x hx
      apply key_congr w2 _ (Pop_step w2) x x
      rw [hq, List.getElem?_dropLast, if_pos (by omega)]
    rw [hk p (by omega), hk c hc]
    exact hdown p c hc hpc

theorem heap_root_le (w : World U) (h : HeapOrd w) (c : Nat) (hc : c < w.taskQueue.length) :
    w.key 0 ≤ w.key c := by
  induction c using Nat.strong_induction_on with
  | _ c ih =>
    by_cases h0 : c = 0
    · rw [h0]
    · have hp := ih ((c - 1) / 2) (by omega) (by omega)
      have := h ((c - 1) / 2) c hc (by omega)
      omega

theorem heap_root_min (w : World U) (h : HeapOrd w) (root t : Nat)
    (hroot : w.taskQueue[0]? = some root) (ht : t ∈ w.taskQueue) :
    (w.tasks root).Deadline ≤ (w.tasks t).Deadline := by
  obtain ⟨c, hc, hget⟩ := List.getElem_of_mem ht
  have := heap_root_le w h c hc
  rw [key_of_get w 0 root hroot, key_of_get w c t (by rw [List.getElem?_eq_getElem hc, hget])] at this
  exact this

theorem HeapOrd_congr (w w1 : World U) (hq : w1.taskQueue = w.taskQueue)
    (hd : ∀ t, (w1.tasks t).Deadline = (w.tasks t).Deadline) (h : HeapOrd w) : HeapOrd w1 := by
  have hk : ∀ i, w1.key i = w.key i := by
    intro i
    unfold World.key
    rw [hq]
    split
    · exact hd _
    · rfl
  intro p c hc hpc
  rw [hk, hk]
  rw [hq] at hc
  exact h p c hc hpc

/-! ## One step of the simulator -/

theorem PopTask_some (w : World U) (hne : w.taskQueue ≠ []) (root : Nat)
    (hroot : w.taskQueue[0]? = some root) :
    taskQueue.PopTask w = ((taskQueue.PopTask w).1, some root) := by
  obtain ⟨r, hr, hres, _⟩ := PopTask_spec w hne
  rw [hroot] at hr
  cases hr
  exact Prod.ext rfl hres

theorem processNextTask_eq (w : World U) (hne : w.taskQueue ≠ []) (root : Nat)
    (hroot : w.taskQueue[0]? = some root) :
    processNextTask w =
      (match (Task.Run (beforeRun w root) root (max w.now (w.tasks root).Deadline)).2 with
        | some followingTask =>
          taskQueue.PushTask
            (Task.Run (beforeRun w root) root (max w.now (w.tasks root).Deadline)).1 followingTask
        | none => (Task.Run (beforeRun w root) root (max w.now (w.tasks root).Deadline)).1,
       max w.now (w.tasks root).Deadline, Time.Sub (w.tasks root).Deadline w.now) := by
  have hs := PopTask_step w
  have hd : ((taskQueue.PopTask w).1.tasks root).Deadline = (w.tasks root).Deadline :=
    (hs.2.2.2.2.2 root).1
  have hnow : (taskQueue.PopTask w).1.now = w.now := hs.1
  unfold processNextTask
  rw [PopTask_some w hne root hroot]
  simp only [setNow_fst, setNow_snd, hd, hnow, beforeRun]
  split <;> rfl

theorem AdvanceIfBefore_fires (w : World U) (b : Int) (root : Nat)
    (hroot : w.taskQueue[0]? = some root) (hb : b = 0 ∨ (w.tasks root).Deadline < b) :
    AdvanceIfBefore w b =
      ⟨(processNextTask w).1, (processNextTask w).2.1, (processNextTask w).2.2, true⟩ := by
  have hne : w.taskQueue.length ≠ 0 := by
    intro h
    rw [List.length_eq_zero] at h
    rw [h] at hroot
    simp at hroot
  unfold AdvanceIfBefore
  simp only [taskQueue.HasTasks, taskQueue.PeekTask, hroot, Time.IsZero, Time.Before]
  rw [if_neg (by simp [hne])]
  rw [if_neg]
  simp only [decide_eq_false_iff_not, not_and, not_not, not_lt]
  intro h0
  rcases hb with h | h
  · exact absurd h h0
  · omega

theorem AdvanceIfBefore_idle (w : World U) (b : Int)
    (h : w.taskQueue = [] ∨
      ∃ root, w.taskQueue[0]? = some root ∧ b ≠ 0 ∧ ¬ (w.tasks root).Deadline < b) :
    AdvanceIfBefore w b = ⟨w, w.now, 0, false⟩ := by
  unfold AdvanceIfBefore
  rcases h with h | ⟨root, hroot, hb0, hnb⟩
  · simp [taskQueue.HasTasks, h]
  · simp only [taskQueue.PeekTask, hroot, Time.IsZero, Time.Before]
    split_ifs with h1 h2
    · rfl
    · rfl
    · exfalso
      apply h2
      simp [hb0, hnb]

/-! ## Draining a queue of quiet one-shot tasks -/

theorem mem_of_getElem?_eq_some {l : List Nat} {i a : Nat} (h : l[i]? = some a) : a ∈ l := by
  obtain ⟨hi, rfl⟩ := List.getElem?_eq_some.1 h
  exact List.getElem_mem _

theorem Prog.Quiet.run_eq (p : Prog U) (h : p.Quiet) (w : World U) :
    (p.run w).1 = { w with vars := (p.run w).1.vars } := by
  induction p generalizing w with
  | ret b => rfl
  | now k ih => exact ih _ (h _) w
  | load k ih => exact ih _ (h _) w
  | store u k ih => exact ih h _
  | afterFunc d f k _ _ => exact absurd h (by simp [Prog.Quiet])
  | untilFunc t f k _ _ => exact absurd h (by simp [Prog.Quiet])
  | everyFunc d f k _ _ => exact absurd h (by simp [Prog.Quiet])
  | stop t k _ => exact absurd h (by simp [Prog.Quiet])
  | reset t d k _ => exact absurd h (by simp [Prog.Quiet])
  | cancel c k _ => exact absurd h (by simp [Prog.Quiet])

theorem Advance_quiet_timer (w : World U) (root : Nat) (hroot : w.taskQueue[0]? = some root)
    (f : Int → Prog U) (hact : (w.tasks root).Action = Action.simTimer f)
    (hq : ∀ now, (f now).Quiet) :
    (Advance w).hadTasks = true ∧
    ∃ u, (Advance w).world =
      { (taskQueue.PopTask w).1 with
        now := max w.now (w.tasks root).Deadline
        fired := w.fired ++
          [{ task := root, deadline := (w.tasks root).Deadline,
             now := max w.now (w.tasks root).Deadline }]
        vars := u } := by
  have hne : w.taskQueue ≠ [] := by
    intro h
    rw [h] at hroot
    simp at hroot
  have hs := PopTask_step w
  unfold Advance
  rw [AdvanceIfBefore_fires w 0 root hroot (Or.inl rfl), processNextTask_eq w hne root hroot]
  refine ⟨rfl, ?_⟩
  have hact1 : ((beforeRun w root).tasks root).Action = Action.simTimer f := by
    show ((taskQueue.PopTask w).1.tasks root).Action = _
    rw [(hs.2.2.2.2.2 root).2, hact]
  have hd1 : ((beforeRun w root).tasks root).Deadline = (w.tasks root).Deadline :=
    (hs.2.2.2.2.2 root).1
  unfold Task.Run
  simp only [hact1, hd1]
  generalize hw0 : ({ beforeRun w root with
      fired := (beforeRun w root).fired ++
        [{ task := root, deadline := (w.tasks root).Deadline,
           now := max w.now (w.tasks root).Deadline }] } : World U) = w0
  have hr := Prog.Quiet.run_eq (f (max w.now (w.tasks root).Deadline)) (hq _) w0
  refine ⟨((f (max w.now (w.tasks root).Deadline)).run w0).1.vars, ?_⟩
  rw [hr, ← hw0]
  simp only [beforeRun, hs.2.2.2.2.1]

theorem drain_sorted (n : Nat) (w : World U) (hlen : w.taskQueue.length = n) (hh : HeapOrd w)
    (hq : ∀ t ∈ w.taskQueue, ∃ f, (w.tasks t).Action = Action.simTimer f ∧ ∀ now, (f now).Quiet)
    (hnd : (w.taskQueue.map fun t => (w.tasks t).Deadline).Nodup)
    (fuel : Nat) (hf : n < fuel) :
    ∃ w1 es, drain fuel w = some (w1, n) ∧ w1.fired = w.fired ++ es ∧
      (es.map fun e => e.task).Perm w.taskQueue ∧
      (∀ e ∈ es, e.deadline = (w.tasks e.task).Deadline) ∧
      (es.map fun e => e.deadline).Sorted (fun a b => a < b) ∧
      w1.taskQueue = [] := by
  induction n generalizing w fuel with
  | zero =>
    obtain ⟨m, rfl⟩ : ∃ m, fuel = m + 1 := ⟨fuel - 1, by omega⟩
    have hnil : w.taskQueue = [] := List.length_eq_zero.1 hlen
    refine ⟨w, [], ?_, by simp, by simp [hnil], by simp, by simp, hnil⟩
    unfold drain Advance
    rw [AdvanceIfBefore_idle w 0 (Or.inl hnil)]
    rfl
  | succ n ih =>
    obtain ⟨m, rfl⟩ : ∃ m, fuel = m + 1 := ⟨fuel - 1, by omega⟩
    have hne : w.taskQueue ≠ [] := by
      intro h
      rw [h] at hlen
      simp at hlen
    obtain ⟨root, hroot, _, hperm, hlen1, hheap⟩ := PopTask_spec w hne
    have hs := PopTask_step w
    have hrootmem : root ∈ w.taskQueue := mem_of_getElem?_eq_some hroot
    obtain ⟨f, hact, hquiet⟩ := hq root hrootmem
    obtain ⟨hhad, u, hworld⟩ := Advance_quiet_timer w root hroot f hact hquiet
    have hq2 : (Advance w).world.taskQueue = (taskQueue.PopTask w).1.taskQueue := by
      rw [hworld]
    have ht2 : (Advance w).world.tasks = (taskQueue.PopTask w).1.tasks := by
      rw [hworld]
    have hf2 : (Advance w).world.fired = w.fired ++
          [{ task := root, deadline := (w.tasks root).Deadline,
             now := max w.now (w.tasks root).Deadline }] := by
      rw [hworld]
    have hdl : ∀ t, ((Advance w).world.tasks t).Deadline = (w.tasks t).Deadline := by
      intro t
      rw [ht2]
      exact (hs.2.2.2.2.2 t).1
    have hac : ∀ t, ((Advance w).world.tasks t).Action = (w.tasks t).Action := by
      intro t
      rw [ht2]
      exact (hs.2.2.2.2.2 t).2
    have hsub : ∀ t ∈ (taskQueue.PopTask w).1.taskQueue, t ∈ w.taskQueue := fun t ht =>
      hperm.mem_iff.1 (List.mem_cons_of_mem _ ht)
    have hnd2 : ((root :: (taskQueue.PopTask w).1.taskQueue).map
        fun t => (w.tasks t).Deadline).Nodup := (hperm.map _).nodup_iff.2 hnd
    rw [List.map_cons, List.nodup_cons] at hnd2
    obtain ⟨w1, es, hdrain, hfired, hp, hdead, hsorted, hempty⟩ :=
      ih (Advance w).world (by rw [hq2]; omega)
        (HeapOrd_congr _ _ hq2 (fun t => by rw [ht2]) (hheap hh))
        (by
          intro t ht
          rw [hq2] at ht
          rw [hac t]
          exact hq t (hsub t ht))
        (by
          rw [hq2]
          have : (fun t => ((Advance w).world.tasks t).Deadline)
              = fun t => (w.tasks t).Deadline := funext hdl
          rw [this]
          exact hnd2.2)
        m (by omega)
    refine ⟨w1, (⟨root, (w.tasks root).Deadline, max w.now (w.tasks root).Deadline⟩ : Firing) :: es,
      ?_, ?_, ?_, ?_, ?_, hempty⟩
    · unfold drain
      rw [if_neg (by simp [hhad]), hdrain]
      rfl
    · rw [hfired, hf2]
      simp
    · rw [List.map_cons]
      rw [hq2] at hp
      exact (List.Perm.cons root hp).trans hperm
    · intro e he
      rcases List.mem_cons.1 he with h | h
      · rw [h]
      · rw [hdead e h, hdl]
    · rw [List.map_cons, List.sorted_cons]
      refine ⟨?_, hsorted⟩
      intro d hd
      obtain ⟨e, he, rfl⟩ := List.mem_map.1 hd
      have hmem1 : e.task ∈ (taskQueue.PopTask w).1.taskQueue := by
        rw [← hq2]
        exact hp.mem_iff.1 (List.mem_map_of_mem _ he)
      have hle := heap_root_min w hh root e.task hroot (hsub _ hmem1)
      have hne2 : (w.tasks root).Deadline ≠ (w.tasks e.task).Deadline := by
        intro heq
        apply hnd2.1
        rw [heq]
        exact List.mem_map_of_mem (fun t => (w.tasks t).Deadline) hmem1
      show (w.tasks root).Deadline < e.deadline
      rw [hdead e he, hdl]
      omega

/-! ## Scheduling a list of one-shot tasks -/

theorem HeapOrd_congr_mem (w w1 : World U) (hq : w1.taskQueue = w.taskQueue)
    (hd : ∀ t ∈ w.taskQueue, (w1.tasks t).Deadline = (w.tasks t).Deadline) (h : HeapOrd w) :
    HeapOrd w1 := by
  have hk : ∀ i, w1.key i = w.key i := by
    intro i
    unfold World.key
    rw [hq]
    cases hget : w.taskQueue[i]? with
    | none => rfl
    | some t => exact hd t (mem_of_getElem?_eq_some hget)
  intro p c hc hpc
  rw [hk, hk]
  rw [hq] at hc
  exact h p c hc hpc

theorem Scheduled_new (now0 : Int) (u : U) : Scheduled (NewSimulator now0 u) now0 [] := by
  refine ⟨?_, List.Perm.refl _, rfl, rfl, rfl, ?_⟩
  · intro p c hc _
    simp [NewSimulator] at hc
  · intro i r h
    simp at h

theorem Scheduled_push (w : World U) (now0 : Int) (L : List (Sched U)) (r : Sched U)
    (h : Scheduled w now0 L) :
    Scheduled
      (taskQueue.PushTask (w.alloc (newTask (r.deadline now0) (Action.simTimer r.action))).1
        w.nextId) now0 (L ++ [r]) := by
  obtain ⟨hh, hp, hn, hnow, hf, ht⟩ := h
  set wa := (w.alloc (newTask (r.deadline now0) (Action.simTimer r.action))).1 with hwa
  have hs := PushTask_step wa w.nextId
  have hmem : ∀ t ∈ w.taskQueue, t ≠ w.nextId := by
    intro t htq
    have := hp.mem_iff.1 htq
    rw [List.mem_range] at this
    omega
  have hha : HeapOrd wa := by
    apply HeapOrd_congr_mem w wa rfl _ hh
    intro t htq
    show (Function.update w.tasks w.nextId _ t).Deadline = _
    rw [Function.update_noteq (hmem t htq)]
  refine ⟨PushTask_heap wa _ hha, ?_, ?_, ?_, ?_, ?_⟩
  · rw [List.length_append, List.length_singleton, List.range_succ]
    refine (PushTask_perm wa _).trans ?_
    rw [hn]
    exact (List.Perm.cons _ hp).trans (List.perm_append_singleton _ _).symm
  · rw [hs.2.1, List.length_append, List.length_singleton, ← hn]
    rfl
  · rw [hs.1]; exact hnow
  · rw [hs.2.2.2.2.1]; exact hf
  · intro i r1 hi
    rw [(hs.2.2.2.2.2 i).1, (hs.2.2.2.2.2 i).2]
    by_cases hlt : i < L.length
    · rw [List.getElem?_append_left hlt] at hi
      have hne : i ≠ w.nextId := by omega
      show (Function.update w.tasks w.nextId _ i).Deadline = _ ∧
        (Function.update w.tasks w.nextId _ i).Action = _
      rw [Function.update_noteq hne]
      exact ht i r1 hi
    · have hlen := (List.getElem?_eq_some.1 hi).1
      rw [List.length_append, List.length_singleton] at hlen
      have hil : i = L.length := by omega
      rw [hil, List.getElem?_concat_length] at hi
      cases hi
      have hie : i = w.nextId := by omega
      show (Function.update w.tasks w.nextId _ i).Deadline = _ ∧
        (Function.update w.tasks w.nextId _ i).Action = _
      rw [hie, Function.update_same]
      exact ⟨rfl, rfl⟩

theorem Scheduled_call (w : World U) (now0 : Int) (L : List (Sched U)) (r : Sched U)
    (h : Scheduled w now0 L) : Scheduled (r.call w) now0 (L ++ [r]) := by
  have hnow : w.now = now0 := h.2.2.2.1
  have := Scheduled_push w now0 L r h
  subst hnow
  cases r with
  | AfterFunc d f => exact this
  | UntilFunc t f => exact this

theorem Scheduled_all (rs : List (Sched U)) (w : World U) (now0 : Int) (L : List (Sched U))
    (h : Scheduled w now0 L) : Scheduled (scheduleAll rs w) now0 (L ++ rs) := by
  induction rs generalizing w L with
  | nil => simpa [scheduleAll] using h
  | cons r rs ih =>
    have := ih (r.call w) (L ++ [r]) (Scheduled_call w now0 L r h)
    simpa [scheduleAll] using this

theorem range_map_deadlineOf (now0 : Int) (reqs : List (Sched U)) :
    (List.range reqs.length).map (deadlineOf now0 reqs) = reqs.map (Sched.deadline now0) := by
  apply List.ext_getElem?
  intro i
  by_cases hi : i < reqs.length
  · simp [deadlineOf, List.getElem?_eq_getElem hi, hi]
  · simp [List.getElem?_eq_none (not_lt.1 hi), hi]
    omega

/-! ## What a callback can change -/

/-- Induction over the calls of a callback body: a property of the state that
every call the body can make preserves is preserved by running the body. -/
theorem Prog.run_preserves (P : World U → Prop)
    (hAfter : ∀ w d f, P w → P (AfterFunc w d f).1)
    (hUntil : ∀ w t f, P w → P (UntilFunc w t f).1)
    (hEvery : ∀ w d f, P w → P (EveryFunc w d f).1)
    (hStop : ∀ w h, h < w.nextId → P w → P (removeTask w h).1)
    (hReset : ∀ w h d, h < w.nextId → P w → P (resetTask w h d).1)
    (hStore : ∀ (w : World U) u, P w → P { w with vars := u })
    (hCancel : ∀ w c, P w → P (cancelCtx w c))
    (p : Prog U) (w : World U) (hw : P w) : P (p.run w).1 := by
  induction p generalizing w with
  | ret b => exact hw
  | now k ih => exact ih _ w hw
  | afterFunc d f k _ ih => exact ih _ _ (hAfter w d f hw)
  | untilFunc t f k _ ih => exact ih _ _ (hUntil w t f hw)
  | everyFunc d f k _ ih => exact ih _ _ (hEvery w d f hw)
  | stop h k ih =>
    unfold Prog.run
    split_ifs with hlt
    · exact ih _ _ (hStop w h hlt hw)
    · exact ih _ w hw
  | reset h d k ih =>
    unfold Prog.run
    split_ifs with hlt
    · exact ih _ _ (hReset w h d hlt hw)
    · exact ih _ w hw
  | load k ih => exact ih _ w hw
  | store u k ih => exact ih _ (hStore w u hw)
  | cancel c k ih => exact ih _ (hCancel w c hw)

theorem removeTask_step (w : World U) (t : Nat) : QueueStep w (removeTask w t).1 := by
  unfold removeTask
  split_ifs
  · exact QueueStep.refl w
  · exact RemoveTask_step w t

theorem resetTask_fired (w : World U) (t : Nat) (d : Int) : (resetTask w t d).1.fired = w.fired := by
  unfold resetTask
  simp only
  rw [(PushTask_step _ _).2.2.2.2.1]
  split_ifs
  · exact (RemoveTask_step w t).2.2.2.2.1
  · rfl

theorem cancelCtx_fired (w : World U) (c : Nat) : (cancelCtx w c).fired = w.fired := by
  unfold cancelCtx
  split <;> rfl

theorem Prog.run_fired (p : Prog U) (w : World U) : (p.run w).1.fired = w.fired := by
  apply Prog.run_preserves (fun w1 => w1.fired = w.fired) _ _ _ _ _ _ _ p w rfl
  · intro w1 d f h; exact ((PushTask_step _ _).2.2.2.2.1).trans h
  · intro w1 t f h; exact ((PushTask_step _ _).2.2.2.2.1).trans h
  · intro w1 d f h; exact ((PushTask_step _ _).2.2.2.2.1).trans h
  · intro w1 t _ h; exact ((removeTask_step w1 t).2.2.2.2.1).trans h
  · intro w1 t d _ h; exact (resetTask_fired w1 t d).trans h
  · intro w1 u h; exact h
  · intro w1 c h; exact (cancelCtx_fired w1 c).trans h

theorem Task.Run_fired (w : World U) (t : Nat) (now : Int) :
    (Task.Run w t now).1.fired =
      w.fired ++ [{ task := t, deadline := (w.tasks t).Deadline, now := now }] := by
  unfold Task.Run
  simp only
  split
  · exact Prog.run_fired _ _
  · split_ifs
    · exact Prog.run_fired _ _
    · exact Prog.run_fired _ _

theorem processNextTask_fired (w : World U) (root : Nat) (hroot : w.taskQueue[0]? = some root) :
    (processNextTask w).1.fired =
      w.fired ++ [{ task := root, deadline := (w.tasks root).Deadline,
                    now := max w.now (w.tasks root).Deadline }] := by
  have hne : w.taskQueue ≠ [] := by
    intro h
    rw [h] at hroot
    simp at hroot
  have hs := PopTask_step w
  have hrun := Task.Run_fired (beforeRun w root) root (max w.now (w.tasks root).Deadline)
  have hd : ((beforeRun w root).tasks root).Deadline = (w.tasks root).Deadline :=
    (hs.2.2.2.2.2 root).1
  have hf : (beforeRun w root).fired = w.fired := hs.2.2.2.2.1
  rw [hd, hf] at hrun
  rw [processNextTask_eq w hne root hroot]
  simp only
  split
  · rw [(PushTask_step _ _).2.2.2.2.1]
    exact hrun
  · exact hrun

/-! ## Tasks outside the queue are not touched; nothing enters the queue unasked -/

theorem Swap_untouched (w : World U) (i j x : Nat) (hx : x ∉ w.taskQueue) :
    (taskQueue.Swap w i j).tasks x = w.tasks x := by
  unfold taskQueue.Swap
  split
  · rename_i a b ha hb
    have hxa : x ≠ a := fun h => hx (h ▸ mem_of_getElem?_eq_some ha)
    have hxb : x ≠ b := fun h => hx (h ▸ mem_of_getElem?_eq_some hb)
    simp only [Function.update_noteq hxa, Function.update_noteq hxb]
  · rfl

theorem upLoop_untouched (fuel : Nat) (w : World U) (j x : Nat) (hx : x ∉ w.taskQueue) :
    (heap.upLoop fuel w j).tasks x = w.tasks x := by
  induction fuel generalizing w j with
  | zero => rfl
  | succ n ih =>
    unfold heap.upLoop
    simp only
    split_ifs
    · rfl
    · rw [ih _ _ (fun h => hx ((Swap_perm w _ _).mem_iff.1 h)), Swap_untouched w _ _ x hx]

theorem downLoop_untouched (fuel : Nat) (w : World U) (i n x : Nat) (hx : x ∉ w.taskQueue) :
    (heap.downLoop fuel w i n).1.tasks x = w.tasks x := by
  induction fuel generalizing w i with
  | zero => rfl
  | succ m ih =>
    unfold heap.downLoop
    simp only
    split_ifs
    all_goals first
      | rfl
      | rw [ih _ _ (fun h => hx ((Swap_perm w _ _).mem_iff.1 h)), Swap_untouched w _ _ x hx]

theorem Pop_untouched (w : World U) (x : Nat) (hx : x ∉ w.taskQueue) :
    (taskQueue.Pop w).1.tasks x = w.tasks x := by
  unfold taskQueue.Pop
  split
  · rfl
  · rename_i t ht
    have hxt : x ≠ t := fun h => hx (h ▸ List.mem_of_mem_getLast? ht)
    simp only [Function.update_noteq hxt]

theorem Pop_subset (w : World U) (x : Nat) (hx : x ∈ (taskQueue.Pop w).1.taskQueue) :
    x ∈ w.taskQueue := by
  unfold taskQueue.Pop at hx
  split at hx
  · exact hx
  · exact List.mem_of_mem_dropLast hx

theorem heapPush_untouched (w : World U) (t x : Nat) (hx : x ∉ w.taskQueue) (hxt : x ≠ t) :
    (heap.Push w t).tasks x = w.tasks x := by
  unfold heap.Push heap.up
  simp only
  rw [upLoop_untouched]
  · simp only [taskQueue.Push, Function.update_noteq hxt]
  · simp only [taskQueue.Push, List.mem_append, List.mem_singleton, not_or]
    exact ⟨hx, hxt⟩

theorem heapPop_untouched (w : World U) (x : Nat) (hx : x ∉ w.taskQueue) :
    (heap.Pop w).1.tasks x = w.tasks x := by
  unfold heap.Pop heap.down
  simp only
  have h1 : x ∉ (taskQueue.Swap w 0 (w.taskQueue.length - 1)).taskQueue :=
    fun h => hx ((Swap_perm w _ _).mem_iff.1 h)
  have h2 : x ∉ (heap.downLoop (w.taskQueue.length - 1)
      (taskQueue.Swap w 0 (w.taskQueue.length - 1)) 0 (w.taskQueue.length - 1)).1.taskQueue :=
    fun h => h1 ((downLoop_perm _ _ _ _).mem_iff.1 h)
  rw [Pop_untouched _ x h2, downLoop_untouched _ _ _ _ x h1, Swap_untouched w _ _ x hx]

theorem heapPop_subset (w : World U) (x : Nat) (hx : x ∈ (heap.Pop w).1.taskQueue) :
    x ∈ w.taskQueue := by
  unfold heap.Pop heap.down at hx
  simp only at hx
  exact (Swap_perm w _ _).mem_iff.1 ((downLoop_perm _ _ _ _).mem_iff.1 (Pop_subset _ x hx))

theorem heapRemove_untouched (w : World U) (i x : Nat) (hx : x ∉ w.taskQueue) :
    (heap.Remove w i).1.tasks x = w.tasks x := by
  unfold heap.Remove heap.down heap.up
  simp only
  have h1 : x ∉ (taskQueue.Swap w i (w.taskQueue.length - 1)).taskQueue :=
    fun h => hx ((Swap_perm w _ _).mem_iff.1 h)
  have h2 : x ∉ (heap.downLoop (w.taskQueue.length - 1)
      (taskQueue.Swap w i (w.taskQueue.length - 1)) i (w.taskQueue.length - 1)).1.taskQueue :=
    fun h => h1 ((downLoop_perm _ _ _ _).mem_iff.1 h)
  split_ifs
  · rw [Pop_untouched _ x (fun h => h2 ((upLoop_perm _ _ _).mem_iff.1 h)),
      upLoop_untouched _ _ _ x h2, downLoop_untouched _ _ _ _ x h1, Swap_untouched w _ _ x hx]
  · rw [Pop_untouched _ x h2, downLoop_untouched _ _ _ _ x h1, Swap_untouched w _ _ x hx]
  · exact Pop_untouched w x hx

theorem heapRemove_subset (w : World U) (i x : Nat) (hx : x ∈ (heap.Remove w i).1.taskQueue) :
    x ∈ w.taskQueue := by
  unfold heap.Remove heap.down heap.up at hx
  simp only at hx
  split_ifs at hx
  · exact (Swap_perm w _ _).mem_iff.1 ((downLoop_perm _ _ _ _).mem_iff.1
      ((upLoop_perm _ _ _).mem_iff.1 (Pop_subset _ x hx)))
  · exact (Swap_perm w _ _).mem_iff.1 ((downLoop_perm _ _ _ _).mem_iff.1 (Pop_subset _ x hx))
  · exact Pop_subset w x hx

theorem RemoveTask_untouched (w : World U) (t x : Nat) (hx : x ∉ w.taskQueue) :
    (taskQueue.RemoveTask w t).tasks x = w.tasks x := by
  unfold taskQueue.RemoveTask
  split_ifs
  · exact heapRemove_untouched w _ x hx
  · rfl

theorem RemoveTask_subset (w : World U) (t x : Nat) (hx : x ∈ (taskQueue.RemoveTask w t).taskQueue) :
    x ∈ w.taskQueue := by
  unfold taskQueue.RemoveTask at hx
  split_ifs at hx
  · exact heapRemove_subset w _ x hx
  · exact hx

/-! ## `heap.Remove` removes the task in the given slot -/

theorem Swap_get_other (w : World U) (i j x : Nat) (hxi : x ≠ i) (hxj : x ≠ j) :
    (taskQueue.Swap w i j).taskQueue[x]? = w.taskQueue[x]? := by
  by_cases hr : i < w.taskQueue.length ∧ j < w.taskQueue.length
  · rw [Swap_get w i j x hr.1 hr.2, if_neg hxj, if_neg hxi]
  · rw [Swap_out_of_range w i j hr]

theorem upLoop_get_gt (fuel : Nat) (w : World U) (j x : Nat) (hx : j < x) :
    (heap.upLoop fuel w j).taskQueue[x]? = w.taskQueue[x]? := by
  induction fuel generalizing w j with
  | zero => rfl
  | succ n ih =>
    unfold heap.upLoop
    simp only
    split_ifs
    · rfl
    · rw [ih _ _ (by omega), Swap_get_other w _ _ x (by omega) (by omega)]

theorem Pop_index (w : World U) (t : Nat) (h : (taskQueue.Pop w).2 = some t) :
    ((taskQueue.Pop w).1.tasks t).indexInQueue = -1 := by
  unfold taskQueue.Pop at h ⊢
  split at h
  · simp at h
  · rename_i t1 ht1
    simp only [Option.some.injEq] at h
    subst h
    simp only [ht1, Function.update_same]

theorem heapRemove_spec (w : World U) (i h : Nat) (hslot : w.taskQueue[i]? = some h) :
    (heap.Remove w i).2 = some h ∧
    ((heap.Remove w i).1.taskQueue ++ [h]).Perm w.taskQueue ∧
    ((heap.Remove w i).1.tasks h).indexInQueue = -1 := by
  have hi : i < w.taskQueue.length := (List.getElem?_eq_some.1 hslot).1
  obtain ⟨n, hn⟩ : ∃ n, w.taskQueue.length = n + 1 := ⟨w.taskQueue.length - 1, by omega⟩
  unfold heap.Remove heap.down heap.up
  simp only [hn, Nat.add_sub_cancel]
  by_cases hni : n = i
  · rw [if_neg (by simpa using hni)]
    obtain ⟨t, ht, hres, _, happ⟩ := Pop_spec w n hn
    rw [hni, hslot] at ht
    cases ht
    exact ⟨hres, by rw [happ], Pop_index w h hres⟩
  · rw [if_pos hni]
    have hnl : n < w.taskQueue.length := by omega
    set w1 := taskQueue.Swap w i n with hw1
    set w2 := (heap.downLoop n w1 i n).1 with hw2
    have hlen1 : w1.taskQueue.length = n + 1 := by rw [hw1, Swap_length, hn]
    have hlen2 : w2.taskQueue.length = n + 1 := by rw [hw2, downLoop_length, hlen1]
    have hs1 : w1.taskQueue[n]? = some h := by
      rw [hw1, Swap_get w i n n hi hnl, if_pos rfl, hslot]
    have hs2 : w2.taskQueue[n]? = some h := by
      rw [hw2, downLoop_get_ge n w1 i n n (by omega) (by omega) (le_refl _), hs1]
    have hp2 : w2.taskQueue.Perm w.taskQueue :=
      (downLoop_perm _ _ _ _).trans (Swap_perm w i n)
    split_ifs
    · set w3 := heap.upLoop i w2 i with hw3
      have hlen3 : w3.taskQueue.length = n + 1 := by rw [hw3, upLoop_length, hlen2]
      have hs3 : w3.taskQueue[n]? = some h := by
        rw [hw3, upLoop_get_gt i w2 i n (by omega), hs2]
      obtain ⟨t, ht, hres, _, happ⟩ := Pop_spec w3 n hlen3
      rw [hs3] at ht
      cases ht
      refine ⟨hres, ?_, Pop_index w3 h hres⟩
      rw [happ]
      exact (upLoop_perm _ _ _).trans hp2
    · obtain ⟨t, ht, hres, _, happ⟩ := Pop_spec w2 n hlen2
      rw [hs2] at ht
      cases ht
      refine ⟨hres, ?_, Pop_index w2 h hres⟩
      rw [happ]
      exact hp2

/-! ## A stopped task stays out of the queue -/

theorem Stopped_queue_step (h c : Nat) (w w1 : World U) (hs : QueueStep w w1)
    (hsub : ∀ x ∈ w1.taskQueue, x ∈ w.taskQueue)
    (hun : ∀ x, x ∉ w.taskQueue → w1.tasks x = w.tasks x) (hw : Stopped h c w) :
    Stopped h c w1 := by
  obtain ⟨h1, h2, h3, h4, h5⟩ := hw
  refine ⟨by rw [hs.2.1]; exact h1, fun hm => h2 (hsub h hm), by rw [hun h h2]; exact h3, ?_, ?_⟩
  · intro t
    rw [(hs.2.2.2.2.2 t).2]
    exact h4 t
  · unfold runsOf
    rw [hs.2.2.2.2.1]
    exact h5

theorem Stopped_push (h c : Nat) (w : World U) (t : Nat) (hne : t ≠ h) (hw : Stopped h c w) :
    Stopped h c (taskQueue.PushTask w t) := by
  have hs := PushTask_step w t
  obtain ⟨h1, h2, h3, h4, h5⟩ := hw
  refine ⟨by rw [hs.2.1]; exact h1, ?_, ?_, ?_, ?_⟩
  · intro hm
    rcases List.mem_cons.1 ((PushTask_perm w t).mem_iff.1 hm) with e | e
    · exact hne e.symm
    · exact h2 e
  · show ((heap.Push w t).tasks h).indexInQueue = -1
    rw [heapPush_untouched w t h h2 (Ne.symm hne)]
    exact h3
  · intro x
    rw [(hs.2.2.2.2.2 x).2]
    exact h4 x
  · unfold runsOf
    rw [hs.2.2.2.2.1]
    exact h5

theorem Stopped_alloc_push (h c : Nat) (w : World U) (t : Task U) (ht : t.Action.NoReset h)
    (hw : Stopped h c w) : Stopped h c (taskQueue.PushTask (w.alloc t).1 w.nextId) := by
  have hlt : h < w.nextId := hw.1
  apply Stopped_push h c _ _ (by omega)
  obtain ⟨h1, h2, h3, h4, h5⟩ := hw
  refine ⟨by show h < w.nextId + 1; omega, h2, ?_, ?_, h5⟩
  · show (Function.update w.tasks w.nextId t h).indexInQueue = -1
    rw [Function.update_noteq (by omega)]
    exact h3
  · intro x
    show (Function.update w.tasks w.nextId t x).Action.NoReset h
    by_cases hx : x = w.nextId
    · rw [hx, Function.update_same]; exact ht
    · rw [Function.update_noteq hx]; exact h4 x

theorem Stopped_removeTask (h c : Nat) (w : World U) (t : Nat) (hw : Stopped h c w) :
    Stopped h c (removeTask w t).1 := by
  unfold removeTask
  split_ifs
  · exact hw
  · exact Stopped_queue_step h c w _ (RemoveTask_step w t) (RemoveTask_subset w t)
      (RemoveTask_untouched w t) hw

theorem Stopped_resetTask (h c : Nat) (w : World U) (t : Nat) (d : Int) (hne : t ≠ h)
    (hw : Stopped h c w) : Stopped h c (resetTask w t d).1 := by
  unfold resetTask
  simp only
  apply Stopped_push h c _ _ hne
  have hw1 : Stopped h c (if (w.tasks t).IsPending = true then taskQueue.RemoveTask w t else w) := by
    split_ifs
    · exact Stopped_queue_step h c w _ (RemoveTask_step w t) (RemoveTask_subset w t)
        (RemoveTask_untouched w t) hw
    · exact hw
  generalize (if (w.tasks t).IsPending = true then taskQueue.RemoveTask w t else w) = w1 at hw1
  obtain ⟨h1, h2, h3, h4, h5⟩ := hw1
  refine ⟨h1, h2, ?_, ?_, h5⟩
  · show (Function.update w1.tasks t _ h).indexInQueue = -1
    rw [Function.update_noteq (Ne.symm hne)]
    exact h3
  · intro x
    show (Function.update w1.tasks t _ x).Action.NoReset h
    by_cases hx : x = t
    · rw [hx, Function.update_same]; exact h4 t
    · rw [Function.update_noteq hx]; exact h4 x

theorem Stopped_cancel (h c : Nat) (w : World U) (ctx : Nat) (hw : Stopped h c w) :
    Stopped h c (cancelCtx w ctx) := by
  unfold cancelCtx
  split
  · exact hw
  · exact hw

theorem Stopped_run (h c : Nat) (p : Prog U) (hp : p.NoReset h) (w : World U)
    (hw : Stopped h c w) : Stopped h c (p.run w).1 := by
  induction p generalizing w with
  | ret b => exact hw
  | now k ih => exact ih _ (hp _) w hw
  | afterFunc d f k _ ih =>
    exact ih _ (hp.2 _) _ (Stopped_alloc_push h c w _ hp.1 hw)
  | untilFunc t f k _ ih =>
    exact ih _ (hp.2 _) _ (Stopped_alloc_push h c w _ hp.1 hw)
  | everyFunc d f k _ ih =>
    exact ih _ (hp.2 _) _ (Stopped_alloc_push h c w _ hp.1 hw)
  | stop t k ih =>
    unfold Prog.run
    split_ifs
    · exact ih _ (hp _) _ (Stopped_removeTask h c w t hw)
    · exact ih _ (hp _) w hw
  | reset t d k ih =>
    unfold Prog.run
    split_ifs
    · exact ih _ (hp.2 _) _ (Stopped_resetTask h c w t d hp.1 hw)
    · exact ih _ (hp.2 _) w hw
  | load k ih => exact ih _ (hp _) w hw
  | store u k ih => exact ih hp _ hw
  | cancel ctx k ih => exact ih hp _ (Stopped_cancel h c w ctx hw)

theorem runsOf_append_other (fired : List Firing) (e : Firing) (h : Nat) (hne : e.task ≠ h) :
    (fired ++ [e]).countP (fun e => decide (e.task = h))
      = fired.countP (fun e => decide (e.task = h)) := by
  rw [List.countP_append]
  simp [List.countP_cons, hne]

theorem Stopped_Run (h c : Nat) (w : World U) (t : Nat) (now : Int) (hne : t ≠ h)
    (hw : Stopped h c w) :
    Stopped h c (Task.Run w t now).1 ∧
      ((Task.Run w t now).2 = none ∨ (Task.Run w t now).2 = some t) := by
  obtain ⟨h1, h2, h3, h4, h5⟩ := hw
  have hw0 : Stopped h c
      { w with fired := w.fired ++ [{ task := t, deadline := (w.tasks t).Deadline, now := now }] } := by
    refine ⟨h1, h2, h3, h4, ?_⟩
    unfold runsOf
    rw [runsOf_append_other _ _ h hne]
    exact h5
  have hact := h4 t
  unfold Task.Run
  simp only
  split
  · rename_i action heq
    rw [heq] at hact
    exact ⟨Stopped_run h c _ (hact now) _ hw0, Or.inl rfl⟩
  · rename_i period action heq
    rw [heq] at hact
    have hr := Stopped_run h c _ (hact now) _ hw0
    split_ifs
    · exact ⟨hr, Or.inl rfl⟩
    · refine ⟨?_, Or.inr rfl⟩
      obtain ⟨g1, g2, g3, g4, g5⟩ := hr
      refine ⟨g1, g2, ?_, ?_, g5⟩
      · simp only [Function.update_noteq (Ne.symm hne)]
        exact g3
      · intro x
        simp only
        by_cases hx : x = t
        · rw [hx, Function.update_same]; exact g4 t
        · rw [Function.update_noteq hx]; exact g4 x

theorem Stopped_setNow (h c : Nat) (w : World U) (t : Int) (hw : Stopped h c w) :
    Stopped h c (setNow w t).1 := by
  rw [setNow_fst]
  exact hw

theorem Stopped_processNextTask (h c : Nat) (w : World U) (root : Nat)
    (hroot : w.taskQueue[0]? = some root) (hw : Stopped h c w) :
    Stopped h c (processNextTask w).1 := by
  have hne : w.taskQueue ≠ [] := by
    intro e
    rw [e] at hroot
    simp at hroot
  have hrh : root ≠ h := fun e => hw.2.1 (e ▸ mem_of_getElem?_eq_some hroot)
  have hpop : Stopped h c (taskQueue.PopTask w).1 :=
    Stopped_queue_step h c w _ (PopTask_step w) (heapPop_subset w) (heapPop_untouched w) hw
  have hbr : Stopped h c (beforeRun w root) := hpop
  obtain ⟨hrun, hfol⟩ :=
    Stopped_Run h c (beforeRun w root) root (max w.now (w.tasks root).Deadline) hrh hbr
  rw [processNextTask_eq w hne root hroot]
  simp only
  rcases hfol with e | e
  · rw [e]; exact hrun
  · rw [e]; exact Stopped_push h c _ root hrh hrun

theorem AdvanceIfBefore_cases (w : World U) (b : Int) :
    AdvanceIfBefore w b = ⟨w, w.now, 0, false⟩ ∨
    ∃ root, w.taskQueue[0]? = some root ∧ (b = 0 ∨ (w.tasks root).Deadline < b) ∧
      AdvanceIfBefore w b =
        ⟨(processNextTask w).1, (processNextTask w).2.1, (processNextTask w).2.2, true⟩ := by
  cases hq : w.taskQueue with
  | nil => exact Or.inl (AdvanceIfBefore_idle w b (Or.inl hq))
  | cons r rest =>
    have hroot : w.taskQueue[0]? = some r := by rw [hq]; simp
    by_cases hb : b = 0 ∨ (w.tasks r).Deadline < b
    · exact Or.inr ⟨r, hq ▸ hroot, hb, AdvanceIfBefore_fires w b r hroot hb⟩
    · exact Or.inl (AdvanceIfBefore_idle w b
        (Or.inr ⟨r, hroot, fun e => hb (Or.inl e), fun e => hb (Or.inr e)⟩))

theorem Stopped_AdvanceIfBefore (h c : Nat) (w : World U) (b : Int) (hw : Stopped h c w) :
    Stopped h c (AdvanceIfBefore w b).world := by
  rcases AdvanceIfBefore_cases w b with e | ⟨root, hroot, _, e⟩
  · rw [e]; exact hw
  · rw [e]; exact Stopped_processNextTask h c w root hroot hw

theorem Stopped_Approach (h c : Nat) (w : World U) (hw : Stopped h c w) :
    Stopped h c (Approach w).world := by
  unfold Approach
  split_ifs
  · exact hw
  · split
    · exact hw
    · exact Stopped_setNow h c w _ hw

theorem Stopped_ProcessAllUntilLoop (h c : Nat) (fuel : Nat) (w : World U) (ctx : Nat) (u : Int)
    (n : Nat) (r : World U × Nat × Option CtxErr)
    (hr : ProcessAllUntilLoop fuel w ctx u n = some r) (hw : Stopped h c w) :
    Stopped h c r.1 := by
  induction fuel generalizing w n with
  | zero => simp [ProcessAllUntilLoop] at hr
  | succ m ih =>
    unfold ProcessAllUntilLoop at hr
    split at hr
    · cases hr; exact hw
    · simp only at hr
      split_ifs at hr
      · cases hr; exact Stopped_AdvanceIfBefore h c w u hw
      · exact ih _ _ hr (Stopped_AdvanceIfBefore h c w u hw)

theorem Stopped_exec (h c : Nat) (op : Op U) (hop : op.NoReset h) (w w1 : World U)
    (he : op.exec w = some w1) (hw : Stopped h c w) : Stopped h c w1 := by
  cases op with
  | SetNow t => cases he; exact Stopped_setNow h c w t hw
  | Approach => cases he; exact Stopped_Approach h c w hw
  | Advance => cases he; exact Stopped_AdvanceIfBefore h c w 0 hw
  | AdvanceIfBefore b => cases he; exact Stopped_AdvanceIfBefore h c w b hw
  | ProcessAll fuel ctx =>
    simp only [Op.exec, Chrono.ProcessAll, Chrono.ProcessAllUntil, Option.map_eq_some'] at he
    obtain ⟨r, hr, rfl⟩ := he
    exact Stopped_ProcessAllUntilLoop h c _ _ _ _ _ _ hr hw
  | ProcessAllUntil fuel ctx u =>
    simp only [Op.exec, Chrono.ProcessAllUntil, Option.map_eq_some'] at he
    obtain ⟨r, hr, rfl⟩ := he
    exact Stopped_ProcessAllUntilLoop h c _ _ _ _ _ _ hr hw
  | AfterFunc d f => cases he; exact Stopped_alloc_push h c w _ hop hw
  | UntilFunc t f => cases he; exact Stopped_alloc_push h c w _ hop hw
  | EveryFunc d f => cases he; exact Stopped_alloc_push h c w _ hop hw
  | Stop t =>
    cases he
    split_ifs
    · exact Stopped_removeTask h c w t hw
    · exact hw
  | Reset t d =>
    cases he
    split_ifs
    · exact Stopped_resetTask h c w t d hop hw
    · exact hw
  | Cancel ctx => cases he; exact Stopped_cancel h c w ctx hw

theorem Stopped_runOps (h c : Nat) (ops : List (Op U)) (hops : ∀ op ∈ ops, op.NoReset h)
    (w w1 : World U) (he : runOps ops w = some w1) (hw : Stopped h c w) : Stopped h c w1 := by
  induction ops generalizing w with
  | nil => cases he; exact hw
  | cons op ops ih =>
    unfold runOps at he
    cases hop : op.exec w with
    | none => rw [hop] at he; cases he
    | some w2 =>
      rw [hop] at he
      exact ih (fun o ho => hops o (List.mem_cons_of_mem _ ho)) w2 he
        (Stopped_exec h c op (hops op (List.mem_cons_self _ _)) w w2 hop hw)

/-! ## The current time never moves backwards -/

theorem AfterFunc_now (w : World U) (d : Int) (f : Int → Prog U) :
    (AfterFunc w d f).1.now = w.now :=
  (PushTask_step _ _).1

theorem UntilFunc_now (w : World U) (t : Int) (f : Int → Prog U) :
    (UntilFunc w t f).1.now = w.now :=
  (PushTask_step _ _).1

theorem EveryFunc_now (w : World U) (d : Int) (f : Int → Prog U) :
    (EveryFunc w d f).1.now = w.now :=
  (PushTask_step _ _).1

theorem removeTask_now (w : World U) (t : Nat) : (removeTask w t).1.now = w.now := by
  unfold removeTask
  split_ifs
  · rfl
  · exact (RemoveTask_step w t).1

theorem resetTask_now (w : World U) (t : Nat) (d : Int) : (resetTask w t d).1.now = w.now := by
  unfold resetTask
  simp only
  rw [(PushTask_step _ _).1]
  split_ifs
  · exact (RemoveTask_step w t).1
  · rfl

theorem cancelCtx_now (w : World U) (c : Nat) : (cancelCtx w c).now = w.now := by
  unfold cancelCtx
  split <;> rfl

theorem Prog.run_now (p : Prog U) (w : World U) : (p.run w).1.now = w.now := by
  induction p generalizing w with
  | ret b => rfl
  | now k ih => exact ih _ w
  | afterFunc d f k _ ih => exact (ih _ _).trans (AfterFunc_now w d f)
  | untilFunc t f k _ ih => exact (ih _ _).trans (UntilFunc_now w t f)
  | everyFunc d f k _ ih => exact (ih _ _).trans (EveryFunc_now w d f)
  | stop h k ih =>
    unfold Prog.run
    split_ifs
    · exact (ih _ _).trans (removeTask_now w h)
    · exact ih _ w
  | reset h d k ih =>
    unfold Prog.run
    split_ifs
    · exact (ih _ _).trans (resetTask_now w h d)
    · exact ih _ w
  | load k ih => exact ih _ w
  | store u k ih => exact ih _
  | cancel c k ih => exact (ih _).trans (cancelCtx_now w c)

theorem Task.Run_now (w : World U) (t : Nat) (now : Int) : (Task.Run w t now).1.now = w.now := by
  unfold Task.Run
  simp only
  split
  · exact Prog.run_now _ _
  · split_ifs
    · exact Prog.run_now _ _
    · exact Prog.run_now _ _

theorem processNextTask_now_le (w : World U) : w.now ≤ (processNextTask w).1.now := by
  unfold processNextTask
  split
  · exact le_refl _
  · rename_i w1 nextTask heq
    have h1 : w1.now = w.now := by
      have := (PopTask_step w).1
      rw [heq] at this
      exact this
    have h2 : (setNow w1 (w1.tasks nextTask).Deadline).1.now = max w.now (w1.tasks nextTask).Deadline := by
      rw [setNow_now, h1]
    simp only
    split
    · rw [(PushTask_step _ _).1, Task.Run_now, h2]
      exact le_max_left _ _
    · rw [Task.Run_now, h2]
      exact le_max_left _ _

theorem AdvanceIfBefore_now_le (w : World U) (b : Int) : w.now ≤ (AdvanceIfBefore w b).world.now := by
  unfold AdvanceIfBefore
  split_ifs
  · exact le_refl _
  · split
    · exact le_refl _
    · split_ifs
      · exact le_refl _
      · exact processNextTask_now_le w

theorem Approach_now_le (w : World U) : w.now ≤ (Approach w).world.now := by
  unfold Approach
  split_ifs
  · exact le_refl _
  · split
    · exact le_refl _
    · simp only [setNow_now]
      exact le_max_left _ _

theorem ProcessAllUntilLoop_now_le (fuel : Nat) (w : World U) (ctx : Nat) (u : Int) (n : Nat)
    (r : World U × Nat × Option CtxErr) (h : ProcessAllUntilLoop fuel w ctx u n = some r) :
    w.now ≤ r.1.now := by
  induction fuel generalizing w n with
  | zero => simp [ProcessAllUntilLoop] at h
  | succ m ih =>
    unfold ProcessAllUntilLoop at h
    split at h
    · cases h; exact le_refl _
    · simp only at h
      split_ifs at h
      · cases h; exact AdvanceIfBefore_now_le w u
      · exact le_trans (AdvanceIfBefore_now_le w u) (ih _ _ h)

theorem Op.exec_now_le (op : Op U) (w w1 : World U) (h : op.exec w = some w1) :
    w.now ≤ w1.now := by
  cases op with
  | SetNow t =>
    cases h
    show w.now ≤ (setNow w t).1.now
    rw [setNow_now]; exact le_max_left _ _
  | Approach => cases h; exact Approach_now_le w
  | Advance => cases h; exact AdvanceIfBefore_now_le w 0
  | AdvanceIfBefore b => cases h; exact AdvanceIfBefore_now_le w b
  | ProcessAll fuel ctx =>
    simp only [Op.exec, Chrono.ProcessAll, Chrono.ProcessAllUntil, Option.map_eq_some'] at h
    obtain ⟨r, hr, rfl⟩ := h
    exact ProcessAllUntilLoop_now_le _ _ _ _ _ _ hr
  | ProcessAllUntil fuel ctx u =>
    simp only [Op.exec, Chrono.ProcessAllUntil, Option.map_eq_some'] at h
    obtain ⟨r, hr, rfl⟩ := h
    exact ProcessAllUntilLoop_now_le _ _ _ _ _ _ hr
  | AfterFunc d f => cases h; exact le_of_eq (AfterFunc_now w d f).symm
  | UntilFunc t f => cases h; exact le_of_eq (UntilFunc_now w t f).symm
  | EveryFunc d f => cases h; exact le_of_eq (EveryFunc_now w d f).symm
  | Stop t =>
    cases h
    split_ifs
    · exact le_of_eq (removeTask_now w t).symm
    · exact le_refl _
  | Reset t d =>
    cases h
    split_ifs
    · exact le_of_eq (resetTask_now w t d).symm
    · exact le_refl _
  | Cancel c => cases h; exact le_of_eq (cancelCtx_now w c).symm

/-! ## C2: no time regression -/

/-- C2: along every sequence of calls to `SetNow`, `Approach`, `Advance`,
`AdvanceIfBefore`, `ProcessAll`, `ProcessAllUntil`, the scheduling methods
(with any duration or deadline, also one before the current time), `Stop`,
`Reset` and context cancellation, from every state, with arbitrary callbacks,
the values of `Now()` after each call form a non-decreasing chain that starts
at the value of `Now()` before the first call. -/
theorem C2_now_never_regresses (ops : List (Op U)) (w : World U) :
    List.Chain (fun a b : Int => a ≤ b) (Now w) (nowsAfter ops w) := by
  induction ops generalizing w with
  | nil => exact List.Chain.nil
  | cons op ops ih =>
    unfold nowsAfter
    cases hop : op.exec w with
    | none => exact List.Chain.nil
    | some w1 => exact List.Chain.cons (Op.exec_now_le op w w1 hop) (ih w1)

/-! ## C3: `SetNow` -/

/-- C3, as stated, fails: with current time 10, `SetNow(3)` returns the elapsed
value -7 (not zero, although 3 is not after 10); and from the zero time,
`SetNow(2^63 + 5)` returns the largest duration, not `2^63 + 5`. -/
theorem C3_SetNow_elapsed_counterexample :
    (SetNow (NewSimulator 10 ()) 3).2.2 = -7 ∧
    ¬ ((SetNow (NewSimulator 10 ()) 3).2.2 = if (10 : Int) < 3 then 3 - 10 else 0) ∧
    (SetNow (NewSimulator 0 ()) (2 ^ 63 + 5)).2.2 = 2 ^ 63 - 1 ∧
    ¬ ((SetNow (NewSimulator 0 ()) (2 ^ 63 + 5)).2.2
        = if (0 : Int) < 2 ^ 63 + 5 then 2 ^ 63 + 5 - 0 else 0) := by
  refine ⟨by decide, by decide, by decide, by decide⟩

/-- C3 (amended): `SetNow(t)` at current time `c` changes nothing but the
current time, leaves it at `max(c, t)`, and returns `(max(c, t), e)` where the
elapsed value `e` is `t.Sub(c)`: the difference `t - c` clamped to the range of
`time.Duration`.  So `e` is positive exactly when `t` is after `c`, and it is
negative, not zero, when `t` is before `c`. -/
theorem C3_SetNow_amended (w : World U) (t : Int) :
    (SetNow w t).1 = { w with now := max w.now t } ∧
    (SetNow w t).2.1 = max w.now t ∧
    (SetNow w t).2.2 = max minDuration (min maxDuration (t - w.now)) ∧
    (0 < (SetNow w t).2.2 ↔ w.now < t) ∧
    ((SetNow w t).2.2 < 0 ↔ t < w.now) := by
  unfold SetNow
  rw [setNow_fst, setNow_snd]
  refine ⟨rfl, rfl, Time.Sub_eq_clamp t w.now, Time.Sub_pos_iff t w.now, ?_⟩
  show Time.Sub t w.now < 0 ↔ t < w.now
  unfold Time.Sub maxDuration minDuration
  split_ifs <;> constructor <;> intro h <;> omega

/-! ## C1: one-shot tasks fire in deadline order -/

theorem sorted_lt_of_sorted_le_nodup (key : Nat → Int) (l : List Nat)
    (hs : l.Sorted fun a b => key a ≤ key b) (hn : (l.map key).Nodup) :
    l.Sorted fun a b => key a < key b := by
  have h2 : l.Pairwise fun a b => key a ≠ key b := List.pairwise_map.1 hn
  exact (List.Pairwise.and hs h2).imp fun h => lt_of_le_of_ne h.1 h.2

/-- C1: for every finite list of one-shot tasks with pairwise distinct
deadlines, scheduled on a new simulator with `AfterFunc`/`UntilFunc` (task `i`
is the `i`-th request) and with actions that only touch captured variables,
calling `Advance` until it reports `hadTasks = false` ends after exactly one
successful call per task (any fuel above the number of tasks suffices), leaves
the queue empty, and the `Run` calls are the tasks sorted by deadline
ascending: each task is run exactly once, with the deadline it was scheduled
for. -/
theorem C1_drain_in_deadline_order (now0 : Int) (u : U) (reqs : List (Sched U))
    (hd : (reqs.map (Sched.deadline now0)).Nodup)
    (hq : ∀ r ∈ reqs, ∀ now, (r.action now).Quiet)
    (fuel : Nat) (hf : reqs.length < fuel) :
    ∃ w1, drain fuel (scheduleAll reqs (NewSimulator now0 u)) = some (w1, reqs.length) ∧
      w1.fired.map (fun e => e.task) =
        List.insertionSort (fun a b => deadlineOf now0 reqs a ≤ deadlineOf now0 reqs b)
          (List.range reqs.length) ∧
      (∀ e ∈ w1.fired, e.deadline = deadlineOf now0 reqs e.task) ∧
      (∀ i r, reqs[i]? = some r →
        ((scheduleAll reqs (NewSimulator now0 u)).tasks i).Action = Action.simTimer r.action) ∧
      w1.taskQueue = [] := by
  have hsch := Scheduled_all reqs (NewSimulator now0 u) now0 [] (Scheduled_new now0 u)
  rw [List.nil_append] at hsch
  obtain ⟨hh, hp, _, _, hfired0, htasks⟩ := hsch
  set w := scheduleAll reqs (NewSimulator now0 u) with hw
  have hkey : ∀ t ∈ w.taskQueue, (w.tasks t).Deadline = deadlineOf now0 reqs t := by
    intro t ht
    have hlt : t < reqs.length := List.mem_range.1 (hp.mem_iff.1 ht)
    rw [(htasks t reqs[t] (List.getElem?_eq_getElem hlt)).1]
    simp [deadlineOf, List.getElem?_eq_getElem hlt]
  have hnd : (w.taskQueue.map fun t => (w.tasks t).Deadline).Nodup := by
    have e : (w.taskQueue.map fun t => (w.tasks t).Deadline)
        = w.taskQueue.map (deadlineOf now0 reqs) := List.map_congr_left hkey
    rw [e, (hp.map _).nodup_iff, range_map_deadlineOf]
    exact hd
  have hquiet : ∀ t ∈ w.taskQueue,
      ∃ f, (w.tasks t).Action = Action.simTimer f ∧ ∀ now, (f now).Quiet := by
    intro t ht
    have hlt : t < reqs.length := List.mem_range.1 (hp.mem_iff.1 ht)
    exact ⟨_, (htasks t reqs[t] (List.getElem?_eq_getElem hlt)).2,
      hq _ (List.getElem_mem _)⟩
  have hlen : w.taskQueue.length = reqs.length := by
    rw [hp.length_eq, List.length_range]
  obtain ⟨w1, es, hdrain, hfired, hperm, hdead, hsorted, hempty⟩ :=
    drain_sorted reqs.length w hlen hh hquiet hnd fuel hf
  rw [hfired0, List.nil_append] at hfired
  have hmemq : ∀ e ∈ es, e.task ∈ w.taskQueue := fun e he =>
    hperm.mem_iff.1 (List.mem_map_of_mem _ he)
  have hdead2 : ∀ e ∈ es, e.deadline = deadlineOf now0 reqs e.task := fun e he => by
    rw [hdead e he, hkey _ (hmemq e he)]
  refine ⟨w1, hdrain, ?_, ?_, fun i r hi => (htasks i r hi).2, hempty⟩
  · rw [hfired]
    haveI : IsAntisymm Nat fun a b => deadlineOf now0 reqs a < deadlineOf now0 reqs b :=
      ⟨fun a b h1 h2 => absurd h1 (not_lt_of_gt h2)⟩
    haveI : IsTotal Nat fun a b => deadlineOf now0 reqs a ≤ deadlineOf now0 reqs b :=
      ⟨fun a b => le_total _ _⟩
    haveI : IsTrans Nat fun a b => deadlineOf now0 reqs a ≤ deadlineOf now0 reqs b :=
      ⟨fun a b c h1 h2 => le_trans h1 h2⟩
    apply List.eq_of_perm_of_sorted (r := fun a b => deadlineOf now0 reqs a < deadlineOf now0 reqs b)
    · exact (hperm.trans hp).trans (List.perm_insertionSort _ _).symm
    · have h1 : es.Pairwise fun a b => a.deadline < b.deadline := List.pairwise_map.1 hsorted
      have h2 : es.Pairwise fun a b =>
          deadlineOf now0 reqs a.task < deadlineOf now0 reqs b.task := by
        refine h1.imp_of_mem ?_
        intro a b ha hb hab
        rw [← hdead2 a ha, ← hdead2 b hb]
        exact hab
      exact List.pairwise_map.2 h2
    · apply sorted_lt_of_sorted_le_nodup
      · exact List.sorted_insertionSort _ _
      · rw [((List.perm_insertionSort _ _).map _).nodup_iff, range_map_deadlineOf]
        exact hd
  · intro e he
    rw [hfired] at he
    exact hdead2 e he

/-- Witness for C1: three tasks scheduled out of order, drained with fuel 4. -/
theorem C1_drain_in_deadline_order_witness :
    (demoReqs.map (Sched.deadline 0)).Nodup ∧
    ∃ w1, drain 4 (scheduleAll demoReqs (NewSimulator 0 ())) = some (w1, demoReqs.length) ∧
      w1.fired.map (fun e => e.task) =
        List.insertionSort (fun a b => deadlineOf 0 demoReqs a ≤ deadlineOf 0 demoReqs b)
          (List.range demoReqs.length) ∧
      (∀ e ∈ w1.fired, e.deadline = deadlineOf 0 demoReqs e.task) ∧
      (∀ i r, demoReqs[i]? = some r →
        ((scheduleAll demoReqs (NewSimulator 0 ())).tasks i).Action = Action.simTimer r.action) ∧
      w1.taskQueue = [] :=
  ⟨by decide,
   C1_drain_in_deadline_order 0 () demoReqs (by decide)
    (by
      intro r hr now
      simp only [demoReqs, List.mem_cons, List.mem_singleton, List.not_mem_nil, or_false] at hr
      rcases hr with rfl | rfl | rfl <;> exact trivial)
    4 (by decide)⟩

/-! ## `AdvanceIfBefore` on a heap-ordered queue -/

/-- On a queue that is a min-heap on deadlines, for every bound `b`,
`AdvanceIfBefore(b)` returns `hadTasks = true` exactly when the queue is not
empty and `b` is the zero time or some pending deadline (hence the earliest)
is strictly before `b`.  In that case it pops exactly one task, the root,
whose deadline is the earliest in the queue, raises the current time to that
deadline, and makes exactly one `Run` call, on that task.  In every other case
it returns `(now, 0, false)` and the state is unchanged. -/
theorem AdvanceIfBefore_on_heap (w : World U) (b : Int) (hh : HeapOrd w) :
    ((AdvanceIfBefore w b).hadTasks = true ↔
      w.taskQueue ≠ [] ∧ (b = 0 ∨ ∃ t ∈ w.taskQueue, (w.tasks t).Deadline < b)) ∧
    ((AdvanceIfBefore w b).hadTasks = true →
      ∃ root, w.taskQueue[0]? = some root ∧
        (∀ t ∈ w.taskQueue, (w.tasks root).Deadline ≤ (w.tasks t).Deadline) ∧
        (taskQueue.PopTask w).2 = some root ∧
        (root :: (taskQueue.PopTask w).1.taskQueue).Perm w.taskQueue ∧
        (AdvanceIfBefore w b).world.fired =
          w.fired ++ [{ task := root, deadline := (w.tasks root).Deadline,
                        now := max w.now (w.tasks root).Deadline }] ∧
        (AdvanceIfBefore w b).world.now = max w.now (w.tasks root).Deadline ∧
        (AdvanceIfBefore w b).newNow = max w.now (w.tasks root).Deadline ∧
        (AdvanceIfBefore w b).leap = Time.Sub (w.tasks root).Deadline w.now) ∧
    ((AdvanceIfBefore w b).hadTasks = false → AdvanceIfBefore w b = ⟨w, w.now, 0, false⟩) := by
  cases hq : w.taskQueue with
  | nil =>
    have hidle := AdvanceIfBefore_idle w b (Or.inl hq)
    rw [hidle]
    refine ⟨?_, ?_, fun _ => rfl⟩
    · simp
    · intro h; simp at h
  | cons r rest =>
    have hroot : w.taskQueue[0]? = some r := by rw [hq]; simp
    have hne : w.taskQueue ≠ [] := by rw [hq]; simp
    have hmin := fun t ht => heap_root_min w hh r t hroot ht
    rw [← hq]
    by_cases hb : b = 0 ∨ (w.tasks r).Deadline < b
    · have hfire := AdvanceIfBefore_fires w b r hroot hb
      obtain ⟨root, hr0, hres, hperm, _, _⟩ := PopTask_spec w hne
      rw [hroot] at hr0
      cases hr0
      rw [hfire]
      refine ⟨?_, ?_, ?_⟩
      · simp only [true_iff]
        refine ⟨hne, ?_⟩
        rcases hb with h | h
        · exact Or.inl h
        · exact Or.inr ⟨r, mem_of_getElem?_eq_some hroot, h⟩
      · intro _
        refine ⟨r, hroot, hmin, hres, hperm, processNextTask_fired w r hroot, ?_, ?_, ?_⟩
        · show (processNextTask w).1.now = _
          rw [processNextTask_eq w hne r hroot]
          simp only
          split
          · rw [(PushTask_step _ _).1, Task.Run_now]; rfl
          · rw [Task.Run_now]; rfl
        · show (processNextTask w).2.1 = _
          rw [processNextTask_eq w hne r hroot]
        · show (processNextTask w).2.2 = _
          rw [processNextTask_eq w hne r hroot]
      · intro h; simp at h
    · have hb0 : b ≠ 0 := fun h => hb (Or.inl h)
      have hnb : ¬ (w.tasks r).Deadline < b := fun h => hb (Or.inr h)
      have hidle := AdvanceIfBefore_idle w b (Or.inr ⟨r, hroot, hb0, hnb⟩)
      rw [hidle]
      refine ⟨?_, ?_, fun _ => rfl⟩
      · simp only [Bool.false_eq_true, false_iff, not_and, not_or, not_exists]
        intro _
        refine ⟨hb0, ?_⟩
        intro t ht hlt
        have := hmin t ht
        omega
      · intro h; simp at h

/-- A concrete instance: the three queued tasks of `demoReqs` and the bound 15. -/
theorem AdvanceIfBefore_on_heap_witness :
    HeapOrd (scheduleAll demoReqs (NewSimulator 0 ())) ∧
    (AdvanceIfBefore (scheduleAll demoReqs (NewSimulator 0 ())) 15).hadTasks = true ∧
    (AdvanceIfBefore (scheduleAll demoReqs (NewSimulator 0 ())) 5).hadTasks = false :=
  ⟨(Scheduled_all demoReqs _ 0 [] (Scheduled_new 0 ())).1,
   ((AdvanceIfBefore_on_heap (scheduleAll demoReqs (NewSimulator 0 ())) 15
      (Scheduled_all demoReqs _ 0 [] (Scheduled_new 0 ())).1).1).2
     ⟨by decide, Or.inr ⟨1, by decide, by decide⟩⟩,
   by decide⟩

/-! ## C5: `Stop` -/

/-- C5: let `h` be a handle whose task is pending, that is, queued exactly
once, in the slot its `indexInQueue` records.  Then `Stop()` returns true and
removes exactly that task from the queue.  From then on, after any sequence of
calls (advancing, `ProcessAll`, scheduling, `Stop`, `Reset` of other handles,
with arbitrary callbacks) in which nothing resets `h`, the task is still not
in the queue, a further `Stop()` returns false and leaves the state unchanged,
and the number of `Run` calls on the task has not changed: its action is never
executed. -/
theorem C5_Stop (w : World U) (h i : Nat) (halloc : h < w.nextId)
    (hidx : (w.tasks h).indexInQueue = (i : Int)) (hslot : w.taskQueue[i]? = some h)
    (hcount : w.taskQueue.count h = 1) :
    (simTimer.Stop w h).2 = true ∧
    h ∉ (simTimer.Stop w h).1.taskQueue ∧
    (h :: (simTimer.Stop w h).1.taskQueue).Perm w.taskQueue ∧
    ∀ (ops : List (Op U)) (w2 : World U),
      (∀ t, (w.tasks t).Action.NoReset h) → (∀ op ∈ ops, op.NoReset h) →
      runOps ops (simTimer.Stop w h).1 = some w2 →
        simTimer.Stop w2 h = (w2, false) ∧ h ∉ w2.taskQueue ∧ runsOf w2 h = runsOf w h := by
  have hpend : (w.tasks h).IsPending = true := by
    simp only [Task.IsPending, hidx, decide_eq_true_eq]
    omega
  have hstop : simTimer.Stop w h = ((heap.Remove w i).1, true) := by
    unfold simTimer.Stop removeTask taskQueue.RemoveTask
    simp only [hpend, hidx, Int.toNat_ofNat]
    rfl
  obtain ⟨_, hperm, hindex⟩ := heapRemove_spec w i h hslot
  have hperm2 : (h :: (heap.Remove w i).1.taskQueue).Perm w.taskQueue :=
    (List.perm_append_singleton h _).symm.trans hperm
  have hnot : h ∉ (heap.Remove w i).1.taskQueue := by
    have hc := hperm2.count_eq h
    rw [List.count_cons_self, hcount] at hc
    intro hm
    have := List.count_pos_iff.2 hm
    omega
  rw [hstop]
  refine ⟨rfl, hnot, hperm2, ?_⟩
  intro ops w2 hact hops hrun
  have hs := heapRemove_step w i
  have hst : Stopped h (runsOf w h) (heap.Remove w i).1 := by
    refine ⟨by rw [hs.2.1]; exact halloc, hnot, hindex, ?_, ?_⟩
    · intro t
      rw [(hs.2.2.2.2.2 t).2]
      exact hact t
    · unfold runsOf
      rw [hs.2.2.2.2.1]
  obtain ⟨_, g2, g3, _, g5⟩ := Stopped_runOps h _ ops hops _ w2 hrun hst
  refine ⟨?_, g2, g5⟩
  unfold simTimer.Stop removeTask
  simp [Task.IsPending, g3]

/-- Witness for C5: the first of the two timers of `demoTimers`, which sits in
slot 1 of the queue. -/
theorem C5_Stop_witness :
    (0 < demoTimers.nextId ∧ (demoTimers.tasks 0).indexInQueue = ((1 : Nat) : Int) ∧
      demoTimers.taskQueue[1]? = some 0 ∧ demoTimers.taskQueue.count 0 = 1) ∧
    (simTimer.Stop demoTimers 0).2 = true ∧
    0 ∉ (simTimer.Stop demoTimers 0).1.taskQueue :=
  ⟨⟨by decide, by decide, by decide, by decide⟩,
   (C5_Stop demoTimers 0 1 (by decide) (by decide) (by decide) (by decide)).1,
   (C5_Stop demoTimers 0 1 (by decide) (by decide) (by decide) (by decide)).2.1⟩

/-! ## The slot recorded in a task follows the task -/

theorem Swap_IdxAt (w : World U) (i j h : Nat) (hw : IdxAt w h) :
    IdxAt (taskQueue.Swap w i j) h := by
  by_cases hr : i < w.taskQueue.length ∧ j < w.taskQueue.length
  · obtain ⟨hi, hj⟩ := hr
    obtain ⟨k, hk, hslot⟩ := hw
    have hget := fun x => Swap_get w i j x hi hj
    have htasks : (taskQueue.Swap w i j).tasks =
        Function.update
          (Function.update w.tasks w.taskQueue[j]
            { w.tasks w.taskQueue[j] with indexInQueue := (i : Int) })
          w.taskQueue[i]
          { (Function.update w.tasks w.taskQueue[j]
              { w.tasks w.taskQueue[j] with indexInQueue := (i : Int) }) w.taskQueue[i] with
            indexInQueue := (j : Int) } := by
      unfold taskQueue.Swap
      simp only [List.getElem?_eq_getElem hi, List.getElem?_eq_getElem hj]
    by_cases ha : h = w.taskQueue[i]
    · refine ⟨j, ?_, ?_⟩
      · rw [htasks, ha, Function.update_same]
      · rw [hget j, if_pos rfl, List.getElem?_eq_getElem hi, ha]
    · by_cases hb : h = w.taskQueue[j]
      · have hij : i ≠ j := by
          intro e
          apply ha
          rw [hb]
          simp only [e]
        refine ⟨i, ?_, ?_⟩
        · rw [htasks, Function.update_noteq ha, hb, Function.update_same]
        · rw [hget i, if_neg hij, if_pos rfl, List.getElem?_eq_getElem hj, hb]
      · have hki : k ≠ i := by
          intro e
          apply ha
          rw [e, List.getElem?_eq_getElem hi] at hslot
          exact (Option.some.inj hslot).symm
        have hkj : k ≠ j := by
          intro e
          apply hb
          rw [e, List.getElem?_eq_getElem hj] at hslot
          exact (Option.some.inj hslot).symm
        refine ⟨k, ?_, ?_⟩
        · rw [htasks, Function.update_noteq ha, Function.update_noteq hb]
          exact hk
        · rw [hget k, if_neg hkj, if_neg hki]
          exact hslot
  · rw [Swap_out_of_range w i j hr]
    exact hw

theorem upLoop_IdxAt (fuel : Nat) (w : World U) (j h : Nat) (hw : IdxAt w h) :
    IdxAt (heap.upLoop fuel w j) h := by
  induction fuel generalizing w j with
  | zero => exact hw
  | succ n ih =>
    unfold heap.upLoop
    simp only
    split_ifs
    · exact hw
    · exact ih _ _ (Swap_IdxAt w _ _ h hw)

theorem PushTask_IdxAt (w : World U) (h : Nat) : IdxAt (taskQueue.PushTask w h) h := by
  unfold taskQueue.PushTask heap.Push heap.up
  apply upLoop_IdxAt
  refine ⟨w.taskQueue.length, ?_, ?_⟩
  · simp only [taskQueue.Push, Function.update_same]
  · simp only [taskQueue.Push, List.getElem?_concat_length]

/-! ## C6: `Reset` -/

/-- C6: let `h` be a handle whose task satisfies the data-model invariant
(either not pending and not queued, as after firing or `Stop`, or queued once
in the slot it records), at current time `c`.  Then `Reset(d)` returns whether
the task was pending, which is the same as whether it was in the queue; and
afterwards the task is in the queue exactly once, in the slot it records, marked
pending, with deadline `c + d`; the other tasks in the queue are the same, and
the current time is unchanged. -/
theorem C6_Reset (w : World U) (h : Nat) (d : Int) (hl : Linked w h) :
    (simTimer.Reset w h d).2 = (w.tasks h).IsPending ∧
    ((simTimer.Reset w h d).2 = true ↔ h ∈ w.taskQueue) ∧
    ((simTimer.Reset w h d).1.tasks h).Deadline = w.now + d ∧
    (simTimer.Reset w h d).1.taskQueue.count h = 1 ∧
    ((simTimer.Reset w h d).1.tasks h).IsPending = true ∧
    IdxAt (simTimer.Reset w h d).1 h ∧
    (simTimer.Reset w h d).1.taskQueue.Perm (h :: w.taskQueue.erase h) ∧
    (simTimer.Reset w h d).1.now = w.now := by
  -- the state after the conditional removal
  have hrem : ∃ w1, (if (w.tasks h).IsPending = true then taskQueue.RemoveTask w h else w) = w1 ∧
      QueueStep w w1 ∧ h ∉ w1.taskQueue ∧ w1.taskQueue.Perm (w.taskQueue.erase h) ∧
      ((w.tasks h).IsPending = true ↔ h ∈ w.taskQueue) := by
    rcases hl with ⟨hidx, hnot⟩ | ⟨⟨i, hidx, hslot⟩, hcount⟩
    · have hp : (w.tasks h).IsPending = false := by simp [Task.IsPending, hidx]
      refine ⟨w, by simp [hp], QueueStep.refl w, hnot, ?_, ?_⟩
      · rw [List.erase_of_not_mem hnot]
      · simp [hp, hnot]
    · have hp : (w.tasks h).IsPending = true := by
        simp only [Task.IsPending, hidx, decide_eq_true_eq]
        omega
      have hmem : h ∈ w.taskQueue := mem_of_getElem?_eq_some hslot
      obtain ⟨_, hperm, _⟩ := heapRemove_spec w i h hslot
      have hperm2 : (h :: (heap.Remove w i).1.taskQueue).Perm w.taskQueue :=
        (List.perm_append_singleton h _).symm.trans hperm
      refine ⟨(heap.Remove w i).1, ?_, heapRemove_step w i, ?_, ?_, ?_⟩
      · unfold taskQueue.RemoveTask
        simp only [hp, hidx, Int.toNat_ofNat, if_true]
      · have hc := hperm2.count_eq h
        rw [List.count_cons_self, hcount] at hc
        intro hm
        have := List.count_pos_iff.2 hm
        omega
      · have := hperm2.erase h
        rw [List.erase_cons_head] at this
        exact this
      · simp [hp, hmem]
  obtain ⟨w1, hw1, hs1, hnot1, hperm1, hiff⟩ := hrem
  refine ⟨rfl, hiff, ?_⟩
  unfold simTimer.Reset resetTask
  simp only [hw1]
  set w2 : World U := { w1 with
    tasks := Function.update w1.tasks h { w1.tasks h with Deadline := Time.Add w1.now d } } with hw2
  have hs2 := PushTask_step w2 h
  have hperm2 : (taskQueue.PushTask w2 h).taskQueue.Perm (h :: w1.taskQueue) := PushTask_perm w2 h
  have hidx2 := PushTask_IdxAt w2 h
  refine ⟨?_, ?_, ?_, hidx2, hperm2.trans (List.Perm.cons h hperm1), ?_⟩
  · rw [(hs2.2.2.2.2.2 h).1]
    simp only [hw2, Function.update_same, Time.Add, hs1.1]
  · rw [hperm2.count_eq h, List.count_cons_self, List.count_eq_zero_of_not_mem hnot1]
  · obtain ⟨i, hi, _⟩ := hidx2
    simp only [Task.IsPending, hi, decide_eq_true_eq]
    omega
  · rw [hs2.1]
    exact hs1.1

/-- Witness for C6: resetting the pending first timer of `demoTimers`. -/
theorem C6_Reset_witness :
    Linked demoTimers 0 ∧ (simTimer.Reset demoTimers 0 7).2 = true ∧
    ((simTimer.Reset demoTimers 0 7).1.tasks 0).Deadline = 7 :=
  ⟨Or.inr ⟨⟨1, by decide, by decide⟩, by decide⟩,
   ((C6_Reset demoTimers 0 7 (Or.inr ⟨⟨1, by decide, by decide⟩, by decide⟩)).2.1).2 (by decide),
   (C6_Reset demoTimers 0 7 (Or.inr ⟨⟨1, by decide, by decide⟩, by decide⟩)).2.2.1⟩

/-! ## A ticker among bystander timers -/

theorem PopTask_index (w : World U) (root : Nat) (h : (taskQueue.PopTask w).2 = some root) :
    ((taskQueue.PopTask w).1.tasks root).indexInQueue = -1 :=
  Pop_index _ root h

theorem Advance_bystander (w : World U) (root : Nat) (hroot : w.taskQueue[0]? = some root)
    (g : Int → Prog U) (cnt : U → Nat) (hact : (w.tasks root).Action = Action.simTimer g)
    (hg : Bystander g cnt) :
    (Advance w).hadTasks = true ∧
    ∃ u, cnt u = cnt w.vars ∧ (Advance w).world =
      { (taskQueue.PopTask w).1 with
        now := max w.now (w.tasks root).Deadline
        fired := w.fired ++
          [{ task := root, deadline := (w.tasks root).Deadline,
             now := max w.now (w.tasks root).Deadline }]
        vars := u } := by
  have hne : w.taskQueue ≠ [] := by
    intro h
    rw [h] at hroot
    simp at hroot
  have hs := PopTask_step w
  unfold Advance
  rw [AdvanceIfBefore_fires w 0 root hroot (Or.inl rfl), processNextTask_eq w hne root hroot]
  refine ⟨rfl, ?_⟩
  have hact1 : ((beforeRun w root).tasks root).Action = Action.simTimer g := by
    show ((taskQueue.PopTask w).1.tasks root).Action = _
    rw [(hs.2.2.2.2.2 root).2, hact]
  have hd1 : ((beforeRun w root).tasks root).Deadline = (w.tasks root).Deadline :=
    (hs.2.2.2.2.2 root).1
  unfold Task.Run
  simp only [hact1, hd1]
  generalize hw0 : ({ beforeRun w root with
      fired := (beforeRun w root).fired ++
        [{ task := root, deadline := (w.tasks root).Deadline,
           now := max w.now (w.tasks root).Deadline }] } : World U) = w0
  obtain ⟨u, hr, hc⟩ := hg (max w.now (w.tasks root).Deadline) w0
  refine ⟨u, ?_, ?_⟩
  · rw [hc, ← hw0]
    exact congrArg cnt hs.2.2.1
  · rw [hr, ← hw0]
    simp only [beforeRun, hs.2.2.2.2.1]

theorem Advance_ticker (w : World U) (h : Nat) (hroot : w.taskQueue[0]? = some h)
    (p : Int) (f : Int → Prog U) (cnt : U → Nat) (N : Nat)
    (hact : (w.tasks h).Action = Action.simTicker p f) (hf : TickerPred f cnt N) :
    (Advance w).hadTasks = true ∧
    ∃ u, cnt u = cnt w.vars + 1 ∧ (Advance w).world =
      (if cnt w.vars < N then
        taskQueue.PushTask
          { (taskQueue.PopTask w).1 with
            now := max w.now (w.tasks h).Deadline
            fired := w.fired ++
              [{ task := h, deadline := (w.tasks h).Deadline,
                 now := max w.now (w.tasks h).Deadline }]
            vars := u
            tasks := Function.update (taskQueue.PopTask w).1.tasks h
              { (taskQueue.PopTask w).1.tasks h with
                Deadline := Time.Add (w.tasks h).Deadline p } } h
      else
        { (taskQueue.PopTask w).1 with
          now := max w.now (w.tasks h).Deadline
          fired := w.fired ++
            [{ task := h, deadline := (w.tasks h).Deadline,
               now := max w.now (w.tasks h).Deadline }]
          vars := u }) := by
  have hne : w.taskQueue ≠ [] := by
    intro e
    rw [e] at hroot
    simp at hroot
  have hs := PopTask_step w
  unfold Advance
  rw [AdvanceIfBefore_fires w 0 h hroot (Or.inl rfl), processNextTask_eq w hne h hroot]
  refine ⟨rfl, ?_⟩
  have hact1 : ((beforeRun w h).tasks h).Action = Action.simTicker p f := by
    show ((taskQueue.PopTask w).1.tasks h).Action = _
    rw [(hs.2.2.2.2.2 h).2, hact]
  have hd1 : ((beforeRun w h).tasks h).Deadline = (w.tasks h).Deadline :=
    (hs.2.2.2.2.2 h).1
  unfold Task.Run
  simp only [hact1, hd1]
  generalize hw0 : ({ beforeRun w h with
      fired := (beforeRun w h).fired ++
        [{ task := h, deadline := (w.tasks h).Deadline,
           now := max w.now (w.tasks h).Deadline }] } : World U) = w0
  obtain ⟨u, hr, hc⟩ := hf (max w.now (w.tasks h).Deadline) w0
  have hv0 : w0.vars = w.vars := by rw [← hw0]; exact hs.2.2.1
  refine ⟨u, by rw [hc, hv0], ?_⟩
  rw [hr, hv0]
  by_cases hlt : cnt w.vars < N
  · simp only [hlt, decide_True, if_true, Bool.true_eq_false, if_false]
    rw [← hw0]
    simp only [beforeRun, hs.2.2.2.2.1, hd1]
    congr 3
    rw [(hs.2.2.2.2.2 h).1]
  · simp only [hlt, decide_False, if_true, if_false]
    rw [← hw0]
    simp only [beforeRun, hs.2.2.2.2.1]

theorem count_succ_le_length (l : List Nat) (a r : Nat) (hr : r ∈ l) (hne : r ≠ a) :
    l.count a + 1 ≤ l.length := by
  have h1 := List.count_le_length a l
  by_contra hc
  have h2 : l.count a = l.length := by omega
  rw [List.count_eq_length] at h2
  exact hne (h2 r hr).symm

theorem runsOf_append_self (fired : List Firing) (e : Firing) (h : Nat) (he : e.task = h) :
    (fired ++ [e]).countP (fun e => decide (e.task = h))
      = fired.countP (fun e => decide (e.task = h)) + 1 := by
  rw [List.countP_append]
  simp [List.countP_cons, he]

theorem TickInv_step (h : Nat) (p : Int) (f : Int → Prog U) (cnt : U → Nat) (N ctx c0 : Nat)
    (hf : TickerPred f cnt N) (w : World U) (k c : Nat)
    (hw : TickInv h p f cnt N ctx c0 w k c) (hm : 0 < k + (N + 1 - c)) :
    (Advance w).hadTasks = true ∧
    ∃ k1 c1, TickInv h p f cnt N ctx c0 (Advance w).world k1 c1 ∧
      k1 + (N + 1 - c1) + 1 = k + (N + 1 - c) := by
  obtain ⟨hcnt, hctx, hact, hby, hlen, hcount, hruns, hcle, hidx, halloc⟩ := hw
  have hne : w.taskQueue ≠ [] := by
    intro e
    rw [e] at hlen
    simp only [List.length_nil] at hlen
    split_ifs at hlen
    all_goals omega
  obtain ⟨root, hroot, hres, hperm, hlen1, _⟩ := PopTask_spec w hne
  have hs := PopTask_step w
  have hrmem : root ∈ w.taskQueue := mem_of_getElem?_eq_some hroot
  have hsub : ∀ t ∈ (taskQueue.PopTask w).1.taskQueue, t ∈ w.taskQueue := fun t ht =>
    hperm.mem_iff.1 (List.mem_cons_of_mem _ ht)
  by_cases hrh : root = h
  · subst hrh
    have hcN : c ≤ N := by
      by_contra hc
      rw [if_neg hc] at hcount
      exact absurd (List.count_pos_iff.2 hrmem) (by omega)
    rw [if_pos hcN] at hlen hcount
    have hc1 : (taskQueue.PopTask w).1.taskQueue.count root = 0 := by
      have := hperm.count_eq root
      rw [List.count_cons_self, hcount] at this
      omega
    have hnot : root ∉ (taskQueue.PopTask w).1.taskQueue := fun hm =>
      absurd (List.count_pos_iff.2 hm) (by omega)
    obtain ⟨hhad, u, hu, hworld⟩ := Advance_ticker w root hroot p f cnt N hact hf
    refine ⟨hhad, ?_⟩
    rw [hworld, hcnt]
    by_cases hlt : c < N
    · rw [if_pos hlt]
      refine ⟨k, c + 1, ?_, by omega⟩
      set w1 : World U := { (taskQueue.PopTask w).1 with
            now := max w.now (w.tasks root).Deadline
            fired := w.fired ++
              [{ task := root, deadline := (w.tasks root).Deadline,
                 now := max w.now (w.tasks root).Deadline }]
            vars := u
            tasks := Function.update (taskQueue.PopTask w).1.tasks root
              { (taskQueue.PopTask w).1.tasks root with
                Deadline := Time.Add (w.tasks root).Deadline p } } with hw1
      have hs1 := PushTask_step w1 root
      have hp1 := PushTask_perm w1 root
      refine ⟨?_, ?_, ?_, ?_, ?_, ?_, ?_, by omega, fun e => by omega, ?_⟩
      · rw [hs1.2.2.1]
        show cnt u = c + 1
        rw [hu, hcnt]
      · rw [hs1.2.2.2.1]
        show (taskQueue.PopTask w).1.ctxErr ctx = none
        rw [hs.2.2.2.1]
        exact hctx
      · rw [(hs1.2.2.2.2.2 root).2]
        show (Function.update (taskQueue.PopTask w).1.tasks root _ root).Action = _
        rw [Function.update_same]
        show ((taskQueue.PopTask w).1.tasks root).Action = _
        rw [(hs.2.2.2.2.2 root).2]
        exact hact
      · intro t ht hne2
        rcases List.mem_cons.1 (hp1.mem_iff.1 ht) with e | e
        · exact absurd e hne2
        · rw [(hs1.2.2.2.2.2 t).2]
          show ∃ g, (Function.update (taskQueue.PopTask w).1.tasks root _ t).Action = _ ∧ _
          rw [Function.update_noteq hne2, (hs.2.2.2.2.2 t).2]
          exact hby t (hsub t e) hne2
      · rw [PushTask_length, if_pos (by omega)]
        show (taskQueue.PopTask w).1.taskQueue.length + 1 = k + 1
        omega
      · rw [hp1.count_eq root, List.count_cons_self, if_pos (by omega)]
        show (taskQueue.PopTask w).1.taskQueue.count root + 1 = 1
        omega
      · unfold runsOf
        rw [hs1.2.2.2.2.1]
        show (w.fired ++ [_]).countP _ = _
        rw [runsOf_append_self _ _ root rfl]
        unfold runsOf at hruns
        omega
      · rw [hs1.2.1]
        show (taskQueue.PopTask w).1.nextId > root
        rw [hs.2.1]
        exact halloc
    · rw [if_neg hlt]
      have hcN2 : c = N := by omega
      refine ⟨k, N + 1, ?_, by omega⟩
      refine ⟨?_, ?_, ?_, ?_, ?_, ?_, ?_, le_refl _, fun _ => ?_, ?_⟩
      · show cnt u = N + 1
        rw [hu, hcnt, hcN2]
      · show (taskQueue.PopTask w).1.ctxErr ctx = none
        rw [hs.2.2.2.1]
        exact hctx
      · show ((taskQueue.PopTask w).1.tasks root).Action = _
        rw [(hs.2.2.2.2.2 root).2]
        exact hact
      · intro t ht hne2
        show ∃ g, ((taskQueue.PopTask w).1.tasks t).Action = _ ∧ _
        rw [(hs.2.2.2.2.2 t).2]
        exact hby t (hsub t ht) hne2
      · rw [if_neg (by omega)]
        show (taskQueue.PopTask w).1.taskQueue.length = k + 0
        omega
      · rw [if_neg (by omega)]
        exact hc1
      · unfold runsOf
        show (w.fired ++ [_]).countP _ = _
        rw [runsOf_append_self _ _ root rfl]
        unfold runsOf at hruns
        omega
      · exact PopTask_index w root hres
      · show (taskQueue.PopTask w).1.nextId > root
        rw [hs.2.1]
        exact halloc
  · obtain ⟨g, hg, hgb⟩ := hby root hrmem hrh
    obtain ⟨hhad, u, hu, hworld⟩ := Advance_bystander w root hroot g cnt hg hgb
    have hk : 1 ≤ k := by
      have := count_succ_le_length w.taskQueue h root hrmem hrh
      omega
    have hc1 : (taskQueue.PopTask w).1.taskQueue.count h = w.taskQueue.count h := by
      have := hperm.count_eq h
      rw [List.count_cons_of_ne (Ne.symm hrh)] at this
      exact this
    refine ⟨hhad, k - 1, c, ?_, by omega⟩
    rw [hworld]
    refine ⟨?_, ?_, ?_, ?_, ?_, ?_, ?_, hcle, fun e => ?_, ?_⟩
    · show cnt u = c
      rw [hu, hcnt]
    · show (taskQueue.PopTask w).1.ctxErr ctx = none
      rw [hs.2.2.2.1]
      exact hctx
    · show ((taskQueue.PopTask w).1.tasks h).Action = _
      rw [(hs.2.2.2.2.2 h).2]
      exact hact
    · intro t ht hne2
      show ∃ g, ((taskQueue.PopTask w).1.tasks t).Action = _ ∧ _
      rw [(hs.2.2.2.2.2 t).2]
      exact hby t (hsub t ht) hne2
    · show (taskQueue.PopTask w).1.taskQueue.length = _
      omega
    · show (taskQueue.PopTask w).1.taskQueue.count h = _
      rw [hc1]
      exact hcount
    · unfold runsOf
      show (w.fired ++ [_]).countP _ = _
      rw [runsOf_append_other _ _ h hrh]
      exact hruns
    · show ((taskQueue.PopTask w).1.tasks h).indexInQueue = -1
      have hnotq : h ∉ w.taskQueue := by
        intro hm
        have := List.count_pos_iff.2 hm
        rw [hcount, if_neg (by omega)] at this
        omega
      show ((heap.Pop w).1.tasks h).indexInQueue = -1
      rw [heapPop_untouched w h hnotq]
      exact hidx e
    · show (taskQueue.PopTask w).1.nextId > h
      rw [hs.2.1]
      exact halloc

theorem TickInv_loop (h : Nat) (p : Int) (f : Int → Prog U) (cnt : U → Nat) (N ctx c0 : Nat)
    (hf : TickerPred f cnt N) (m : Nat) (w : World U) (k c n fuel : Nat)
    (hw : TickInv h p f cnt N ctx c0 w k c) (hm : k + (N + 1 - c) = m) (hfuel : m < fuel) :
    ∃ w1, ProcessAllUntilLoop fuel w ctx 0 n = some (w1, n + m, none) ∧
      TickInv h p f cnt N ctx c0 w1 0 (N + 1) := by
  induction m generalizing w k c n fuel with
  | zero =>
    obtain ⟨fuel1, rfl⟩ : ∃ x, fuel = x + 1 := ⟨fuel - 1, by omega⟩
    have hk : k = 0 := by omega
    have hc : c = N + 1 := by
      have := hw.2.2.2.2.2.2.2.1
      omega
    subst hk hc
    have hlen := hw.2.2.2.2.1
    rw [if_neg (by omega)] at hlen
    have hnil : w.taskQueue = [] := List.length_eq_zero.1 (by omega)
    refine ⟨w, ?_, hw⟩
    unfold ProcessAllUntilLoop
    rw [hw.2.1]
    simp only [AdvanceIfBefore_idle w 0 (Or.inl hnil), if_true, Nat.add_zero]
  | succ m ih =>
    obtain ⟨fuel1, rfl⟩ : ∃ x, fuel = x + 1 := ⟨fuel - 1, by omega⟩
    obtain ⟨hhad, k1, c1, hinv, hmeasure⟩ :=
      TickInv_step h p f cnt N ctx c0 hf w k c hw (by omega)
    obtain ⟨w1, hloop, hfin⟩ := ih (Advance w).world k1 c1 (n + 1) fuel1 hinv (by omega) (by omega)
    refine ⟨w1, ?_, hfin⟩
    unfold ProcessAllUntilLoop
    rw [hw.2.1]
    unfold Advance at hhad hloop
    simp only [hhad, Bool.true_eq_false, if_false]
    rw [hloop]
    congr 3
    omega

/-! ## A ticker stops after its predicate returns false -/

/-- On a simulator whose pending tasks are one-shot bystanders, let a
ticker be created by `EveryFunc` (any interval, in particular a positive one)
with a predicate that makes no call on the clock and returns true on its first
`N` invocations and false on invocation `N + 1`.  Then `ProcessAll`, with a context that is not cancelled,
terminates (any fuel above the number of tasks run suffices), runs each
bystander once and the ticker's task, hence its predicate, exactly `N + 1`
times.  Afterwards the queue is empty, the ticker's task is not pending,
`Advance` and `ProcessAll` run nothing, and after any further sequence of calls
that does not reset the ticker the number of `Run` calls on it is unchanged. -/
theorem ticker_fires_N_plus_one_quiet (w : World U) (p : Int) (f : Int → Prog U) (cnt : U → Nat)
    (N ctx : Nat) (hf : TickerPred f cnt N) (h0 : cnt w.vars = 0) (hctx : w.ctxErr ctx = none)
    (hq : ∀ t ∈ w.taskQueue,
      t < w.nextId ∧ ∃ g, (w.tasks t).Action = Action.simTimer g ∧ Bystander g cnt)
    (fuel : Nat) (hfuel : w.taskQueue.length + N + 1 < fuel) :
    ∃ w1,
      ProcessAll fuel (EveryFunc w p f).1 ctx = some (w1, w.taskQueue.length + N + 1, none) ∧
      runsOf w1 (EveryFunc w p f).2 = runsOf w (EveryFunc w p f).2 + (N + 1) ∧
      w1.taskQueue = [] ∧
      (w1.tasks (EveryFunc w p f).2).IsPending = false ∧
      Advance w1 = ⟨w1, w1.now, 0, false⟩ ∧
      (∀ fuel2, ProcessAll (fuel2 + 1) w1 ctx = some (w1, 0, none)) ∧
      (∀ (ops : List (Op U)) (w2 : World U),
        (∀ t, (w1.tasks t).Action.NoReset (EveryFunc w p f).2) →
        (∀ op ∈ ops, op.NoReset (EveryFunc w p f).2) →
        runOps ops w1 = some w2 →
          runsOf w2 (EveryFunc w p f).2 = runsOf w1 (EveryFunc w p f).2) := by
  set h := (EveryFunc w p f).2 with hh
  have hhid : h = w.nextId := rfl
  set wa := (newSimTicker w (Time.Add w.now p) p f).1 with hwa
  have hev : (EveryFunc w p f).1 = taskQueue.PushTask wa h := rfl
  have hs := PushTask_step wa h
  have hperm := PushTask_perm wa h
  have hnotq : h ∉ w.taskQueue := fun hm => by
    have := (hq h hm).1
    omega
  have hinit : TickInv h p f cnt N ctx (runsOf w h) (EveryFunc w p f).1 w.taskQueue.length 0 := by
    rw [hev]
    refine ⟨?_, ?_, ?_, ?_, ?_, ?_, ?_, by omega, fun e => by omega, ?_⟩
    · rw [hs.2.2.1]; exact h0
    · rw [hs.2.2.2.1]; exact hctx
    · rw [(hs.2.2.2.2.2 h).2]
      show (Function.update w.tasks w.nextId _ w.nextId).Action = _
      rw [Function.update_same]
      rfl
    · intro t ht hne
      rcases List.mem_cons.1 (hperm.mem_iff.1 ht) with e | e
      · exact absurd e hne
      · rw [(hs.2.2.2.2.2 t).2]
        show ∃ g, (Function.update w.tasks w.nextId _ t).Action = _ ∧ _
        rw [Function.update_noteq (by rw [← hhid]; exact hne)]
        exact (hq t e).2
    · rw [PushTask_length, if_pos (Nat.zero_le _)]
      rfl
    · rw [hperm.count_eq h, List.count_cons_self, if_pos (Nat.zero_le _)]
      show w.taskQueue.count h + 1 = 1
      rw [List.count_eq_zero_of_not_mem hnotq]
    · unfold runsOf
      rw [hs.2.2.2.2.1]
      rfl
    · rw [hs.2.1]
      show w.nextId < w.nextId + 1
      omega
  obtain ⟨w1, hloop, hfin⟩ :=
    TickInv_loop h p f cnt N ctx (runsOf w h) hf (w.taskQueue.length + (N + 1))
      (EveryFunc w p f).1 w.taskQueue.length 0 0 fuel hinit (by omega) (by omega)
  obtain ⟨_, hctx1, _, _, hlen1, _, hruns1, _, hidx1, halloc1⟩ := hfin
  rw [if_neg (by omega)] at hlen1
  have hnil : w1.taskQueue = [] := List.length_eq_zero.1 (by omega)
  have hidx := hidx1 rfl
  have hidle : AdvanceIfBefore w1 0 = ⟨w1, w1.now, 0, false⟩ :=
    AdvanceIfBefore_idle w1 0 (Or.inl hnil)
  refine ⟨w1, ?_, hruns1, hnil, ?_, hidle, ?_, ?_⟩
  · unfold ProcessAll ProcessAllUntil
    rw [hloop]
    congr 3
    omega
  · simp [Task.IsPending, hidx]
  · intro fuel2
    unfold ProcessAll ProcessAllUntil ProcessAllUntilLoop
    rw [hctx1]
    simp only [hidle, if_true]
  · intro ops w2 hact hops hrun
    have hst : Stopped h (runsOf w1 h) w1 :=
      ⟨halloc1, by rw [hnil]; simp, hidx, hact, rfl⟩
    exact (Stopped_runOps h _ ops hops w1 w2 hrun hst).2.2.2.2

/-- A concrete instance: a new simulator, a one-minute ticker whose predicate
returns true twice, and fuel 4. -/
theorem ticker_fires_N_plus_one_quiet_witness :
    ∃ w1,
      ProcessAll 4 (EveryFunc (NewSimulator 0 0) 60 demoPred).1 0 = some (w1, 3, none) ∧
      runsOf w1 0 = 3 ∧ w1.taskQueue = [] := by
  obtain ⟨w1, h1, h2, h3, _⟩ :=
    ticker_fires_N_plus_one_quiet (NewSimulator 0 0) 60 demoPred id 2 0
      (fun _ w => ⟨w.vars + 1, rfl, rfl⟩) rfl rfl
      (by intro t ht; simp [NewSimulator] at ht) 4 (by decide)
  exact ⟨w1, h1, h2, h3⟩

/-! ## C9: cancellation -/

theorem AdvanceIfBefore_fired_length (w : World U) (b : Int) :
    (AdvanceIfBefore w b).world.fired.length =
      w.fired.length + (if (AdvanceIfBefore w b).hadTasks = true then 1 else 0) := by
  rcases AdvanceIfBefore_cases w b with e | ⟨root, hroot, _, e⟩
  · rw [e]; simp
  · rw [e]
    simp only [if_true]
    rw [processNextTask_fired w root hroot, List.length_append, List.length_singleton]

theorem ProcessAllUntilLoop_count (fuel : Nat) (w : World U) (ctx : Nat) (u : Int) (n : Nat)
    (w1 : World U) (k : Nat) (err : Option CtxErr)
    (h : ProcessAllUntilLoop fuel w ctx u n = some (w1, k, err)) :
    n ≤ k ∧ w1.fired.length = w.fired.length + (k - n) ∧ (∀ e, err = some e → w1.ctxErr ctx = some e) := by
  induction fuel generalizing w n with
  | zero => simp [ProcessAllUntilLoop] at h
  | succ m ih =>
    unfold ProcessAllUntilLoop at h
    split at h
    · rename_i e0 he0
      simp only [Option.some.injEq, Prod.mk.injEq] at h
      obtain ⟨rfl, rfl, rfl⟩ := h
      refine ⟨le_refl _, by simp, ?_⟩
      intro e he
      rw [he0, he]
    · simp only at h
      have hlen := AdvanceIfBefore_fired_length w u
      split_ifs at h with hhad
      · simp only [Option.some.injEq, Prod.mk.injEq] at h
        obtain ⟨rfl, rfl, rfl⟩ := h
        rw [hhad] at hlen
        refine ⟨le_refl _, by simpa using hlen, ?_⟩
        intro e he
        cases he
      · have hhad2 : (AdvanceIfBefore w u).hadTasks = true := by
          cases hx : (AdvanceIfBefore w u).hadTasks
          · exact absurd hx hhad
          · rfl
        rw [hhad2] at hlen
        simp only [if_true] at hlen
        obtain ⟨h1, h2, h3⟩ := ih _ _ h
        refine ⟨by omega, ?_, h3⟩
        rw [h2, hlen]
        omega

/-- C9: `ProcessAllUntil` (and `ProcessAll`, its instance at the zero bound)
checks the context before each task.  When a check finds the context cancelled,
the loop returns at once with the state as it is, the count so far and the
context's error; whenever the call returns, the count it returns is the number
of `Run` calls made during the call, and a returned error is the error the
context holds at that point.  In particular, with an already cancelled context
they return `(0, ctx.Err())` and leave the whole state (time, queue, trace)
unchanged, whatever is pending. -/
theorem C9_cancellation (fuel : Nat) (w : World U) (ctx : Nat) (u : Int) :
    (∀ n e, w.ctxErr ctx = some e →
      ProcessAllUntilLoop (fuel + 1) w ctx u n = some (w, n, some e)) ∧
    (∀ w1 k err, ProcessAllUntil fuel w ctx u = some (w1, k, err) →
      w1.fired.length = w.fired.length + k ∧ ∀ e, err = some e → w1.ctxErr ctx = some e) ∧
    (∀ e, w.ctxErr ctx = some e →
      ProcessAllUntil (fuel + 1) w ctx u = some (w, 0, some e) ∧
      ProcessAll (fuel + 1) w ctx = some (w, 0, some e)) := by
  have hfirst : ∀ (b : Int) n e, w.ctxErr ctx = some e →
      ProcessAllUntilLoop (fuel + 1) w ctx b n = some (w, n, some e) := by
    intro b n e he
    unfold ProcessAllUntilLoop
    rw [he]
  refine ⟨hfirst u, ?_, ?_⟩
  · intro w1 k err h
    obtain ⟨_, h2, h3⟩ := ProcessAllUntilLoop_count fuel w ctx u 0 w1 k err h
    exact ⟨by simpa using h2, h3⟩
  · intro e he
    exact ⟨hfirst u 0 e he, hfirst 0 0 e he⟩

/-- Witness for C9: `ProcessAll` on the two pending timers of `demoTimers`
with the context cancelled beforehand. -/
theorem C9_cancellation_witness :
    (cancelCtx demoTimers 0).ctxErr 0 = some CtxErr.Canceled ∧
    ProcessAll 5 (cancelCtx demoTimers 0) 0 = some (cancelCtx demoTimers 0, 0, some CtxErr.Canceled) :=
  ⟨rfl, ((C9_cancellation 4 (cancelCtx demoTimers 0) 0 0).2.2 CtxErr.Canceled rfl).2⟩

/-! ## `heap.Remove` keeps the heap property -/

theorem minChild_spec (w : World U) (i n : Nat) (hn : n ≤ w.taskQueue.length)
    (h1 : ¬ n ≤ 2 * i + 1) (j : Nat)
    (hj : j = (if 2 * i + 1 + 1 < n ∧ taskQueue.Less w (2 * i + 1 + 1) (2 * i + 1) = true
            then 2 * i + 1 + 1 else 2 * i + 1)) :
    (j = 2 * i + 1 ∨ j = 2 * i + 2) ∧ j < n ∧
      ∀ c, c < n → (c = 2 * i + 1 ∨ c = 2 * i + 2) → w.key j ≤ w.key c := by
  split_ifs at hj with hsel
  · obtain ⟨hlt, hless⟩ := hsel
    rw [Less_iff] at hless
    refine ⟨by omega, by omega, fun c _ hc => ?_⟩
    rcases hc with hc | hc
    · rw [hj, hc]; exact le_of_lt hless.2.2
    · rw [hj, hc]
  · refine ⟨by omega, by omega, fun c hcn hc => ?_⟩
    rcases hc with hc | hc
    · rw [hj, hc]
    · have hnl : ¬ (taskQueue.Less w (2 * i + 1 + 1) (2 * i + 1) = true) :=
        fun h => hsel ⟨by omega, h⟩
      rw [Less_iff] at hnl
      have : ¬ w.key (2 * i + 1 + 1) < w.key (2 * i + 1) :=
        fun h => hnl ⟨by omega, by omega, h⟩
      rw [hj, hc]
      have e : 2 * i + 2 = 2 * i + 1 + 1 := rfl
      rw [e]
      omega

theorem downLoop_index_ge (fuel : Nat) (w : World U) (i n : Nat) :
    i ≤ (heap.downLoop fuel w i n).2 := by
  induction fuel generalizing w i with
  | zero => exact le_refl _
  | succ m ih =>
    unfold heap.downLoop
    simp only
    split_ifs
    · exact le_refl _
    · exact le_refl _
    · exact le_trans (by omega) (ih _ _)
    · exact le_refl _
    · exact le_trans (by omega) (ih _ _)

theorem downLoop_heap_weak (fuel : Nat) (w : World U) (i n : Nat) (hf : n ≤ fuel + i)
    (hn : n ≤ w.taskQueue.length) (hi : i < n)
    (hA : ∀ p c, c < n → (c = 2 * p + 1 ∨ c = 2 * p + 2) → p ≠ i → c ≠ i → w.key p ≤ w.key c)
    (hB : ∀ p c, c < n → (i = 2 * p + 1 ∨ i = 2 * p + 2) → (c = 2 * i + 1 ∨ c = 2 * i + 2) →
      w.key p ≤ w.key c) :
    (i < (heap.downLoop fuel w i n).2 ∧ HeapOrdUpTo (heap.downLoop fuel w i n).1 n) ∨
    ((heap.downLoop fuel w i n).2 = i ∧ (heap.downLoop fuel w i n).1 = w ∧
      ∀ c, c < n → (c = 2 * i + 1 ∨ c = 2 * i + 2) → w.key i ≤ w.key c) := by
  obtain ⟨m, rfl⟩ : ∃ m, fuel = m + 1 := ⟨fuel - 1, by omega⟩
  unfold heap.downLoop
  simp only
  by_cases h1 : n ≤ 2 * i + 1
  · rw [if_pos h1]
    exact Or.inr ⟨rfl, rfl, fun c hc hch => by omega⟩
  · rw [if_neg h1]
    generalize hjdef : (if 2 * i + 1 + 1 < n ∧ taskQueue.Less w (2 * i + 1 + 1) (2 * i + 1) = true
          then 2 * i + 1 + 1 else 2 * i + 1) = j
    obtain ⟨hch, hjn, hjmin⟩ := minChild_spec w i n hn h1 j hjdef.symm
    by_cases h2 : taskQueue.Less w j i = false
    · rw [if_pos h2]
      have hnl : ¬ (taskQueue.Less w j i = true) := by simp [h2]
      rw [Less_iff] at hnl
      have hij : w.key i ≤ w.key j := by
        have : ¬ w.key j < w.key i := fun h => hnl ⟨by omega, by omega, h⟩
        omega
      refine Or.inr ⟨rfl, rfl, fun c hc hcc => ?_⟩
      have := hjmin c hc hcc
      omega
    · rw [if_neg h2]
      have hless : taskQueue.Less w j i = true := by
        cases h : taskQueue.Less w j i
        · exact absurd h h2
        · rfl
      rw [Less_iff] at hless
      obtain ⟨hjl, hil, hlt⟩ := hless
      have hkey := fun x => Swap_key w i j x hil hjl
      refine Or.inl ⟨lt_of_lt_of_le (by omega) (downLoop_index_ge m _ j n), ?_⟩
      apply downLoop_heap m _ j n (by omega) (by rw [Swap_length]; exact hn)
      constructor
      · intro p c hc hpc hpj
        rw [hkey p, hkey c, if_neg hpj]
        by_cases hpi : p = i
        · rw [if_pos hpi]
          by_cases hcj : c = j
          · rw [if_pos hcj]; omega
          · rw [if_neg hcj, if_neg (by omega)]
            exact hjmin c hc (by omega)
        · rw [if_neg hpi, if_neg (by omega)]
          by_cases hci : c = i
          · rw [if_pos hci]
            exact hB p j hjn (by omega) (by omega)
          · rw [if_neg hci]
            exact hA p c hc hpc hpi hci
      · intro p c hc hpj hjc
        rw [hkey p, hkey c]
        rw [if_neg (by omega), if_pos (by omega), if_neg (by omega), if_neg (by omega)]
        exact hA j c hc hjc (by omega) (by omega)

theorem Pop_heap (w : World U) (n : Nat) (hn : w.taskQueue.length = n + 1)
    (h : HeapOrdUpTo w n) : HeapOrd (taskQueue.Pop w).1 := by
  obtain ⟨t, _, _, hq, _⟩ := Pop_spec w n hn
  have hl : (taskQueue.Pop w).1.taskQueue.length = n := by
    rw [hq, List.length_dropLast, hn]; rfl
  intro p c hc hpc
  rw [hl] at hc
  have hk : ∀ x, x < n → (taskQueue.Pop w).1.key x = w.key x := by
    intro x hx
    apply key_congr w _ (Pop_step w) x x
    rw [hq, List.getElem?_dropLast, if_pos (by omega)]
  rw [hk p (by omega), hk c hc]
  exact h p c hc hpc

theorem heapRemove_heap (w : World U) (i : Nat) (hi : i < w.taskQueue.length) (h : HeapOrd w) :
    HeapOrd (heap.Remove w i).1 := by
  obtain ⟨n, hn⟩ : ∃ n, w.taskQueue.length = n + 1 := ⟨w.taskQueue.length - 1, by omega⟩
  unfold heap.Remove heap.down heap.up
  simp only [hn, Nat.add_sub_cancel]
  by_cases hni : n = i
  · rw [if_neg (by simpa using hni)]
    exact Pop_heap w n hn (fun p c hc hpc => h p c (by omega) hpc)
  · rw [if_pos hni]
    have hnl : n < w.taskQueue.length := by omega
    have hin : i < n := by omega
    set w1 := taskQueue.Swap w i n with hw1
    have hlen1 : w1.taskQueue.length = n + 1 := by rw [hw1, Swap_length, hn]
    have hkey := fun x => Swap_key w i n x hi hnl
    have hA : ∀ p c, c < n → (c = 2 * p + 1 ∨ c = 2 * p + 2) → p ≠ i → c ≠ i →
        w1.key p ≤ w1.key c := by
      intro p c hc hpc hp hci
      rw [hw1, hkey p, hkey c, if_neg (by omega), if_neg hp, if_neg (by omega), if_neg hci]
      exact h p c (by omega) hpc
    have hB : ∀ p c, c < n → (i = 2 * p + 1 ∨ i = 2 * p + 2) → (c = 2 * i + 1 ∨ c = 2 * i + 2) →
        w1.key p ≤ w1.key c := by
      intro p c hc hpi hic
      rw [hw1, hkey p, hkey c, if_neg (by omega), if_neg (by omega), if_neg (by omega),
        if_neg (by omega)]
      have h1 := h p i (by omega) hpi
      have h2 := h i c (by omega) hic
      omega
    rcases downLoop_heap_weak n w1 i n (by omega) (by omega) hin hA hB with
      ⟨hmoved, hheap⟩ | ⟨hstay, hsame, hchildren⟩
    · have hflag : decide (i < (heap.downLoop n w1 i n).2) = true := by simpa using hmoved
      rw [hflag]
      simp only [Bool.true_eq_false, if_false]
      exact Pop_heap _ n (by rw [downLoop_length, hlen1]) hheap
    · have hflag : decide (i < (heap.downLoop n w1 i n).2) = false := by
        rw [hstay]; simp
      rw [hflag]
      simp only [if_true]
      rw [hsame]
      apply Pop_heap _ n (by rw [upLoop_length, hlen1])
      apply upLoop_heap_upto i w1 i n (le_refl _) hin (by omega)
      constructor
      · intro p c hc hpc hci
        by_cases hp : p = i
        · rw [hp]
          exact hchildren c hc (by omega)
        · exact hA p c hc hpc hp hci
      · exact hB

/-! ## Every queue operation keeps the tasks linked -/

theorem Swap_Linked (w : World U) (i j h : Nat) (hw : Linked w h) :
    Linked (taskQueue.Swap w i j) h := by
  rcases hw with ⟨hidx, hnot⟩ | ⟨hat, hcount⟩
  · refine Or.inl ⟨?_, fun hm => hnot ((Swap_perm w i j).mem_iff.1 hm)⟩
    rw [Swap_untouched w i j h hnot]
    exact hidx
  · exact Or.inr ⟨Swap_IdxAt w i j h hat, by rw [(Swap_perm w i j).count_eq]; exact hcount⟩

theorem upLoop_Linked (fuel : Nat) (w : World U) (j h : Nat) (hw : Linked w h) :
    Linked (heap.upLoop fuel w j) h := by
  induction fuel generalizing w j with
  | zero => exact hw
  | succ n ih =>
    unfold heap.upLoop
    simp only
    split_ifs
    · exact hw
    · exact ih _ _ (Swap_Linked w _ _ h hw)

theorem downLoop_Linked (fuel : Nat) (w : World U) (i n h : Nat) (hw : Linked w h) :
    Linked (heap.downLoop fuel w i n).1 h := by
  induction fuel generalizing w i with
  | zero => exact hw
  | succ m ih =>
    unfold heap.downLoop
    simp only
    split_ifs
    all_goals first | exact hw | exact ih _ _ (Swap_Linked w _ _ h hw)

theorem Push_AllLinked (w : World U) (t : Nat) (hidx : (w.tasks t).indexInQueue = -1)
    (hnot : t ∉ w.taskQueue) (hw : AllLinked w) : AllLinked (taskQueue.Push w t) := by
  intro h
  by_cases hht : h = t
  · subst hht
    refine Or.inr ⟨⟨w.taskQueue.length, ?_, ?_⟩, ?_⟩
    · simp only [taskQueue.Push, Function.update_same]
    · simp only [taskQueue.Push, List.getElem?_concat_length]
    · simp only [taskQueue.Push, List.count_append, List.count_singleton_self,
        List.count_eq_zero_of_not_mem hnot]
  · have htask : (taskQueue.Push w t).tasks h = w.tasks h := by
      simp only [taskQueue.Push, Function.update_noteq hht]
    rcases hw h with ⟨hi, hn⟩ | ⟨⟨i, hi, hslot⟩, hcount⟩
    · refine Or.inl ⟨by rw [htask]; exact hi, ?_⟩
      simp only [taskQueue.Push, List.mem_append, List.mem_singleton, not_or]
      exact ⟨hn, hht⟩
    · have hil : i < w.taskQueue.length := (List.getElem?_eq_some.1 hslot).1
      refine Or.inr ⟨⟨i, by rw [htask]; exact hi, ?_⟩, ?_⟩
      · simp only [taskQueue.Push]
        rw [List.getElem?_append_left hil]
        exact hslot
      · simp only [taskQueue.Push, List.count_append]
        rw [List.count_singleton, if_neg (by simpa using Ne.symm hht)]
        exact hcount

theorem Pop_AllLinked (w : World U) (hw : AllLinked w) : AllLinked (taskQueue.Pop w).1 := by
  by_cases hnil : w.taskQueue = []
  · have : taskQueue.Pop w = (w, none) := by
      unfold taskQueue.Pop
      rw [hnil]
      rfl
    rw [this]
    exact hw
  · obtain ⟨n, hn⟩ : ∃ n, w.taskQueue.length = n + 1 :=
      ⟨w.taskQueue.length - 1, by
        have := List.length_pos.2 hnil
        omega⟩
    obtain ⟨t, ht, hres, hq, happ⟩ := Pop_spec w n hn
    have htmem : t ∈ w.taskQueue := mem_of_getElem?_eq_some ht
    have htc : w.taskQueue.count t = 1 := by
      rcases hw t with ⟨_, hnot⟩ | ⟨_, hc⟩
      · exact absurd htmem hnot
      · exact hc
    have hcount : ∀ x, w.taskQueue.count x
        = (taskQueue.Pop w).1.taskQueue.count x + if t = x then 1 else 0 := by
      intro x
      conv_lhs => rw [← happ]
      rw [List.count_append, List.count_singleton]
      simp only [beq_iff_eq]
    intro h
    by_cases hht : h = t
    · subst hht
      refine Or.inl ⟨Pop_index w h hres, ?_⟩
      intro hm
      have h1 := List.count_pos_iff.2 hm
      have h2 := hcount h
      rw [if_pos rfl] at h2
      omega
    · have htask : (taskQueue.Pop w).1.tasks h = w.tasks h := by
        unfold taskQueue.Pop
        have hl : w.taskQueue.getLast? = some t := by
          rw [List.getLast?_eq_getElem?, hn, Nat.add_sub_cancel]
          exact ht
        simp only [hl, Function.update_noteq hht]
      have hc2 := hcount h
      rw [if_neg (Ne.symm hht)] at hc2
      rcases hw h with ⟨hi, hnot⟩ | ⟨⟨i, hi, hslot⟩, hc⟩
      · exact Or.inl ⟨by rw [htask]; exact hi, fun hm => hnot (Pop_subset w h hm)⟩
      · have hil : i < w.taskQueue.length := (List.getElem?_eq_some.1 hslot).1
        have hin : i ≠ n := by
          intro e
          rw [e, ht] at hslot
          exact hht (Option.some.inj hslot).symm
        refine Or.inr ⟨⟨i, by rw [htask]; exact hi, ?_⟩, by omega⟩
        rw [hq, List.getElem?_dropLast, if_pos (by omega)]
        exact hslot

theorem heapPush_AllLinked (w : World U) (t : Nat) (hidx : (w.tasks t).indexInQueue = -1)
    (hnot : t ∉ w.taskQueue) (hw : AllLinked w) : AllLinked (heap.Push w t) := by
  intro h
  unfold heap.Push heap.up
  exact upLoop_Linked _ _ _ h (Push_AllLinked w t hidx hnot hw h)

theorem heapPop_AllLinked (w : World U) (hw : AllLinked w) : AllLinked (heap.Pop w).1 := by
  unfold heap.Pop heap.down
  apply Pop_AllLinked
  intro h
  exact downLoop_Linked _ _ _ _ h (Swap_Linked w _ _ h (hw h))

theorem heapRemove_AllLinked (w : World U) (i : Nat) (hw : AllLinked w) :
    AllLinked (heap.Remove w i).1 := by
  unfold heap.Remove heap.down heap.up
  simp only
  split_ifs
  · apply Pop_AllLinked
    intro h
    exact upLoop_Linked _ _ _ h (downLoop_Linked _ _ _ _ h (Swap_Linked w _ _ h (hw h)))
  · apply Pop_AllLinked
    intro h
    exact downLoop_Linked _ _ _ _ h (Swap_Linked w _ _ h (hw h))
  · exact Pop_AllLinked w hw

/-! ## The public operations keep the queue good -/

theorem Linked_congr (w w1 : World U) (h : Nat) (hq : w1.taskQueue = w.taskQueue)
    (hi : (w1.tasks h).indexInQueue = (w.tasks h).indexInQueue) (hw : Linked w h) :
    Linked w1 h := by
  unfold Linked IdxAt at hw ⊢
  rw [hq, hi]
  exact hw

theorem Good_PushTask (w : World U) (t : Nat) (hidx : (w.tasks t).indexInQueue = -1)
    (hnot : t ∉ w.taskQueue) (hlt : t < w.nextId) (hg : GoodQueue w) :
    GoodQueue (taskQueue.PushTask w t) := by
  obtain ⟨hh, hl, hm⟩ := hg
  refine ⟨PushTask_heap w t hh, heapPush_AllLinked w t hidx hnot hl, ?_⟩
  intro x hx
  rw [(PushTask_step w t).2.1]
  rcases List.mem_cons.1 ((PushTask_perm w t).mem_iff.1 hx) with e | e
  · rw [e]; exact hlt
  · exact hm x e

theorem Good_PopTask (w : World U) (hg : GoodQueue w) : GoodQueue (taskQueue.PopTask w).1 := by
  obtain ⟨hh, hl, hm⟩ := hg
  refine ⟨?_, heapPop_AllLinked w hl, ?_⟩
  · by_cases hnil : w.taskQueue = []
    · intro p c hc _
      have : ∀ x ∈ (taskQueue.PopTask w).1.taskQueue, x ∈ w.taskQueue := heapPop_subset w
      rw [hnil] at this
      have hnil2 : (taskQueue.PopTask w).1.taskQueue = [] :=
        List.eq_nil_iff_forall_not_mem.2 fun x hx => by simpa using this x hx
      rw [hnil2] at hc
      simp at hc
    · exact (PopTask_spec w hnil).choose_spec.2.2.2.2 hh
  · intro x hx
    rw [(PopTask_step w).2.1]
    exact hm x (heapPop_subset w x hx)

theorem Good_RemoveTask (w : World U) (t : Nat) (hg : GoodQueue w) :
    GoodQueue (taskQueue.RemoveTask w t) := by
  unfold taskQueue.RemoveTask
  split_ifs with hp
  · obtain ⟨hh, hl, hm⟩ := hg
    rcases hl t with ⟨hidx, _⟩ | ⟨⟨i, hi, hslot⟩, _⟩
    · simp [Task.IsPending, hidx] at hp
    · have hil : i < w.taskQueue.length := (List.getElem?_eq_some.1 hslot).1
      rw [hi, Int.toNat_ofNat]
      refine ⟨heapRemove_heap w i hil hh, heapRemove_AllLinked w i hl, ?_⟩
      intro x hx
      rw [(heapRemove_step w i).2.1]
      exact hm x (heapRemove_subset w i x hx)
  · exact hg

theorem RemoveTask_out (w : World U) (t : Nat) (hl : Linked w t) :
    ((taskQueue.RemoveTask w t).tasks t).indexInQueue = -1 ∧
      t ∉ (taskQueue.RemoveTask w t).taskQueue := by
  unfold taskQueue.RemoveTask
  rcases hl with ⟨hidx, hnot⟩ | ⟨⟨i, hi, hslot⟩, hcount⟩
  · have hp : (w.tasks t).IsPending = false := by simp [Task.IsPending, hidx]
    simp only [hp, Bool.false_eq_true, if_false]
    exact ⟨hidx, hnot⟩
  · have hp : (w.tasks t).IsPending = true := by
      simp only [Task.IsPending, hi, decide_eq_true_eq]
      omega
    simp only [hp, if_true, hi, Int.toNat_ofNat]
    obtain ⟨_, hperm, hindex⟩ := heapRemove_spec w i t hslot
    refine ⟨hindex, ?_⟩
    have hc := ((List.perm_append_singleton t _).symm.trans hperm).count_eq t
    rw [List.count_cons_self, hcount] at hc
    intro hm
    have := List.count_pos_iff.2 hm
    omega

theorem Good_setDeadline (w : World U) (t : Nat) (v : Int) (hnot : t ∉ w.taskQueue)
    (hg : GoodQueue w) :
    GoodQueue { w with tasks := Function.update w.tasks t { w.tasks t with Deadline := v } } := by
  obtain ⟨hh, hl, hm⟩ := hg
  refine ⟨?_, ?_, hm⟩
  · apply HeapOrd_congr_mem w
    · rfl
    · intro x hx
      have hxt : x ≠ t := fun e => hnot (e ▸ hx)
      simp only [Function.update_noteq hxt]
    · exact hh
  · intro h
    apply Linked_congr w
    · rfl
    · by_cases hht : h = t
      · subst hht
        simp only [Function.update_same]
      · simp only [Function.update_noteq hht]
    · exact hl h

theorem Good_alloc_push (w : World U) (task : Task U) (hidx : task.indexInQueue = -1)
    (hg : GoodQueue w) : GoodQueue (taskQueue.PushTask (w.alloc task).1 w.nextId) := by
  obtain ⟨hh, hl, hm⟩ := hg
  have hfresh : w.nextId ∉ w.taskQueue := fun hx => by
    have := hm _ hx
    omega
  apply Good_PushTask
  · show (Function.update w.tasks w.nextId task w.nextId).indexInQueue = -1
    rw [Function.update_same]
    exact hidx
  · exact hfresh
  · show w.nextId < w.nextId + 1
    omega
  · refine ⟨?_, ?_, ?_⟩
    · apply HeapOrd_congr_mem w
      · rfl
      · intro x hx
        have hxt : x ≠ w.nextId := fun e => hfresh (e ▸ hx)
        show (Function.update w.tasks w.nextId task x).Deadline = _
        rw [Function.update_noteq hxt]
      · exact hh
    · intro h
      by_cases hht : h = w.nextId
      · rw [hht]
        refine Or.inl ⟨?_, hfresh⟩
        show (Function.update w.tasks w.nextId task w.nextId).indexInQueue = -1
        rw [Function.update_same]
        exact hidx
      · apply Linked_congr w
        · rfl
        · show (Function.update w.tasks w.nextId task h).indexInQueue = _
          rw [Function.update_noteq hht]
        · exact hl h
    · intro x hx
      have := hm x hx
      show x < w.nextId + 1
      omega

theorem Good_removeTask (w : World U) (t : Nat) (hg : GoodQueue w) :
    GoodQueue (removeTask w t).1 := by
  unfold removeTask
  split_ifs
  · exact hg
  · exact Good_RemoveTask w t hg

theorem Good_resetTask (w : World U) (t : Nat) (d : Int) (hlt : t < w.nextId)
    (hg : GoodQueue w) : GoodQueue (resetTask w t d).1 := by
  unfold resetTask
  simp only
  have h1 : GoodQueue (if (w.tasks t).IsPending = true then taskQueue.RemoveTask w t else w) ∧
      ((if (w.tasks t).IsPending = true then taskQueue.RemoveTask w t else w).tasks t).indexInQueue
        = -1 ∧
      t ∉ (if (w.tasks t).IsPending = true then taskQueue.RemoveTask w t else w).taskQueue ∧
      (if (w.tasks t).IsPending = true then taskQueue.RemoveTask w t else w).nextId = w.nextId := by
    have hout := RemoveTask_out w t (hg.2.1 t)
    split_ifs with hp
    · exact ⟨Good_RemoveTask w t hg, hout.1, hout.2, (RemoveTask_step w t).2.1⟩
    · unfold taskQueue.RemoveTask at hout
      rw [if_neg hp] at hout
      exact ⟨hg, hout.1, hout.2, rfl⟩
  generalize (if (w.tasks t).IsPending = true then taskQueue.RemoveTask w t else w) = w1 at h1
  obtain ⟨hg1, hidx1, hnot1, hnext1⟩ := h1
  apply Good_PushTask
  · simp only [Function.update_same]
    exact hidx1
  · exact hnot1
  · show t < w1.nextId
    omega
  · exact Good_setDeadline w1 t _ hnot1 hg1

/-! ## Safe callbacks keep the queue good -/

theorem Safe_alloc_push (w : World U) (task : Task U) (hidx : task.indexInQueue = -1)
    (hact : task.Action.TickSafe) (hw : SafeWorld w) :
    SafeWorld (taskQueue.PushTask (w.alloc task).1 w.nextId) := by
  refine ⟨Good_alloc_push w task hidx hw.1, ?_⟩
  intro t
  rw [((PushTask_step _ _).2.2.2.2.2 t).2]
  show (Function.update w.tasks w.nextId task t).Action.TickSafe
  by_cases ht : t = w.nextId
  · rw [ht, Function.update_same]; exact hact
  · rw [Function.update_noteq ht]; exact hw.2 t

theorem Safe_removeTask (w : World U) (t : Nat) (hw : SafeWorld w) :
    SafeWorld (removeTask w t).1 := by
  refine ⟨Good_removeTask w t hw.1, ?_⟩
  intro x
  rw [((removeTask_step w t).2.2.2.2.2 x).2]
  exact hw.2 x

theorem resetTask_Action (w : World U) (t : Nat) (d : Int) (x : Nat) :
    ((resetTask w t d).1.tasks x).Action = (w.tasks x).Action := by
  unfold resetTask
  simp only
  rw [((PushTask_step _ _).2.2.2.2.2 x).2]
  have h1 : ∀ w1 : World U, QueueStep w w1 →
      (Function.update w1.tasks t { w1.tasks t with Deadline := Time.Add w1.now d } x).Action
        = (w.tasks x).Action := by
    intro w1 hs
    by_cases hx : x = t
    · rw [hx, Function.update_same]
      exact (hs.2.2.2.2.2 t).2
    · rw [Function.update_noteq hx]
      exact (hs.2.2.2.2.2 x).2
  split_ifs
  · exact h1 _ (RemoveTask_step w t)
  · exact h1 _ (QueueStep.refl w)

theorem Safe_resetTask (w : World U) (t : Nat) (d : Int) (hlt : t < w.nextId)
    (hw : SafeWorld w) : SafeWorld (resetTask w t d).1 := by
  refine ⟨Good_resetTask w t d hlt hw.1, ?_⟩
  intro x
  rw [resetTask_Action]
  exact hw.2 x

theorem Safe_cancel (w : World U) (c : Nat) (hw : SafeWorld w) : SafeWorld (cancelCtx w c) := by
  unfold cancelCtx
  split
  · exact hw
  · exact hw

theorem Safe_run (p : Prog U) (hp : p.TickSafe) (w : World U) (hw : SafeWorld w) :
    SafeWorld (p.run w).1 := by
  induction p generalizing w with
  | ret b => exact hw
  | now k ih => exact ih _ (hp _) w hw
  | afterFunc d f k _ ih =>
    exact ih _ (hp.2 _) _ (Safe_alloc_push w _ rfl hp.1 hw)
  | untilFunc t f k _ ih =>
    exact ih _ (hp.2 _) _ (Safe_alloc_push w _ rfl hp.1 hw)
  | everyFunc d f k _ ih =>
    exact ih _ (hp.2.2 _) _ (Safe_alloc_push w _ rfl ⟨hp.1, hp.2.1⟩ hw)
  | stop t k ih =>
    unfold Prog.run
    split_ifs
    · exact ih _ (hp _) _ (Safe_removeTask w t hw)
    · exact ih _ (hp _) w hw
  | reset t d k ih =>
    unfold Prog.run
    split_ifs with hlt
    · exact ih _ (hp _) _ (Safe_resetTask w t d hlt hw)
    · exact ih _ (hp _) w hw
  | load k ih => exact ih _ (hp _) w hw
  | store u k ih => exact ih hp _ hw
  | cancel c k ih => exact ih hp _ (Safe_cancel w c hw)

/-- A body that makes no `Reset` call does not put an existing task that is
out of the queue back into it, and leaves the task object as it is. -/
theorem ResetFree_run_out (p : Prog U) (hp : p.ResetFree) (t0 : Nat) (w : World U)
    (hlt : t0 < w.nextId) (hnot : t0 ∉ w.taskQueue) :
    t0 < (p.run w).1.nextId ∧ t0 ∉ (p.run w).1.taskQueue ∧
      (p.run w).1.tasks t0 = w.tasks t0 := by
  have hpush : ∀ (w : World U) (task : Task U), t0 < w.nextId → t0 ∉ w.taskQueue →
      t0 < (taskQueue.PushTask (w.alloc task).1 w.nextId).nextId ∧
      t0 ∉ (taskQueue.PushTask (w.alloc task).1 w.nextId).taskQueue ∧
      (taskQueue.PushTask (w.alloc task).1 w.nextId).tasks t0 = w.tasks t0 := by
    intro w task hlt hnot
    refine ⟨?_, ?_, ?_⟩
    · rw [(PushTask_step _ _).2.1]
      show t0 < w.nextId + 1
      omega
    · intro hm
      rcases List.mem_cons.1 ((PushTask_perm _ _).mem_iff.1 hm) with e | e
      · omega
      · exact hnot e
    · show (heap.Push (w.alloc task).1 w.nextId).tasks t0 = _
      rw [heapPush_untouched (w.alloc task).1 w.nextId t0 hnot (by omega)]
      show Function.update w.tasks w.nextId task t0 = _
      rw [Function.update_noteq (by omega)]
  induction p generalizing w with
  | ret b => exact ⟨hlt, hnot, rfl⟩
  | now k ih => exact ih _ (hp _) w hlt hnot
  | afterFunc d f k _ ih =>
    obtain ⟨a, b, c⟩ := hpush w (newTask (Time.Add w.now d) (Action.simTimer f)) hlt hnot
    obtain ⟨a1, b1, c1⟩ := ih _ (hp _) _ a b
    exact ⟨a1, b1, c1.trans c⟩
  | untilFunc t f k _ ih =>
    obtain ⟨a, b, c⟩ := hpush w (newTask t (Action.simTimer f)) hlt hnot
    obtain ⟨a1, b1, c1⟩ := ih _ (hp _) _ a b
    exact ⟨a1, b1, c1.trans c⟩
  | everyFunc d f k _ ih =>
    obtain ⟨a, b, c⟩ := hpush w (newTask (Time.Add w.now d) (Action.simTicker d f)) hlt hnot
    obtain ⟨a1, b1, c1⟩ := ih _ (hp _) _ a b
    exact ⟨a1, b1, c1.trans c⟩
  | stop t k ih =>
    unfold Prog.run
    split_ifs
    · have hs := removeTask_step w t
      have hsub : ∀ x ∈ (removeTask w t).1.taskQueue, x ∈ w.taskQueue := by
        intro x hx
        unfold removeTask at hx
        split_ifs at hx
        · exact hx
        · exact RemoveTask_subset w t x hx
      have hun : ((removeTask w t).1.tasks t0) = w.tasks t0 := by
        unfold removeTask
        split_ifs
        · rfl
        · exact RemoveTask_untouched w t t0 hnot
      obtain ⟨a1, b1, c1⟩ := ih _ (hp _) (removeTask w t).1 (by rw [hs.2.1]; exact hlt)
        (fun hm => hnot (hsub t0 hm))
      exact ⟨a1, b1, c1.trans hun⟩
    · exact ih _ (hp _) w hlt hnot
  | reset t d k ih => exact absurd hp (by simp [Prog.ResetFree])
  | load k ih => exact ih _ (hp _) w hlt hnot
  | store u k ih => exact ih hp _ hlt hnot
  | cancel c k ih =>
    have e : ∀ w : World U, (cancelCtx w c).nextId = w.nextId ∧
        (cancelCtx w c).taskQueue = w.taskQueue ∧ (cancelCtx w c).tasks = w.tasks := by
      intro w
      unfold cancelCtx
      split <;> exact ⟨rfl, rfl, rfl⟩
    obtain ⟨a1, b1, c1⟩ := ih hp (cancelCtx w c) (by rw [(e w).1]; exact hlt)
      (by rw [(e w).2.1]; exact hnot)
    exact ⟨a1, b1, c1.trans (by rw [(e w).2.2])⟩

theorem SafeWorld_frame (w w1 : World U) (hq : w1.taskQueue = w.taskQueue)
    (ht : w1.tasks = w.tasks) (hn : w1.nextId = w.nextId) (hw : SafeWorld w) : SafeWorld w1 := by
  obtain ⟨⟨hh, hl, hm⟩, hs⟩ := hw
  refine ⟨⟨HeapOrd_congr w w1 hq (fun t => by rw [ht]) hh, ?_, ?_⟩, ?_⟩
  · intro h
    exact Linked_congr w w1 h hq (by rw [ht]) (hl h)
  · intro t htq
    rw [hq] at htq
    rw [hn]
    exact hm t htq
  · intro t
    rw [ht]
    exact hs t

theorem Safe_Run (w : World U) (t : Nat) (now : Int) (hw : SafeWorld w)
    (hidx : (w.tasks t).indexInQueue = -1) (hnot : t ∉ w.taskQueue) (hlt : t < w.nextId) :
    ((Task.Run w t now).2 = none ∧ SafeWorld (Task.Run w t now).1) ∨
    ((Task.Run w t now).2 = some t ∧ SafeWorld (Task.Run w t now).1 ∧
      ((Task.Run w t now).1.tasks t).indexInQueue = -1 ∧ t ∉ (Task.Run w t now).1.taskQueue ∧
      t < (Task.Run w t now).1.nextId) := by
  have hact := hw.2 t
  have hw0 : SafeWorld
      { w with fired := w.fired ++ [{ task := t, deadline := (w.tasks t).Deadline, now := now }] } :=
    SafeWorld_frame w _ rfl rfl rfl hw
  unfold Task.Run
  simp only
  split
  · rename_i action heq
    rw [heq] at hact
    exact Or.inl ⟨rfl, Safe_run _ (hact now) _ hw0⟩
  · rename_i period action heq
    rw [heq] at hact
    have hr := Safe_run _ (hact.1 now) _ hw0
    obtain ⟨o1, o2, o3⟩ := ResetFree_run_out _ (hact.2 now) t
      { w with fired := w.fired ++ [{ task := t, deadline := (w.tasks t).Deadline, now := now }] }
      hlt hnot
    split_ifs
    · exact Or.inl ⟨rfl, hr⟩
    · refine Or.inr ⟨rfl, ⟨Good_setDeadline _ t _ o2 hr.1, ?_⟩, ?_, o2, o1⟩
      · intro x
        simp only
        by_cases hx : x = t
        · rw [hx, Function.update_same]; exact hr.2 t
        · rw [Function.update_noteq hx]; exact hr.2 x
      · simp only [Function.update_same]
        rw [o3]
        exact hidx

theorem Safe_processNextTask (w : World U) (root : Nat) (hroot : w.taskQueue[0]? = some root)
    (hw : SafeWorld w) : SafeWorld (processNextTask w).1 := by
  have hne : w.taskQueue ≠ [] := by
    intro e
    rw [e] at hroot
    simp at hroot
  obtain ⟨r, hr0, hres, hperm, _, _⟩ := PopTask_spec w hne
  rw [hroot] at hr0
  cases hr0
  have hs := PopTask_step w
  have hrmem : root ∈ w.taskQueue := mem_of_getElem?_eq_some hroot
  have hpop : SafeWorld (taskQueue.PopTask w).1 := by
    refine ⟨Good_PopTask w hw.1, ?_⟩
    intro t
    rw [(hs.2.2.2.2.2 t).2]
    exact hw.2 t
  have hbr : SafeWorld (beforeRun w root) := SafeWorld_frame _ _ rfl rfl rfl hpop
  have hidx : ((beforeRun w root).tasks root).indexInQueue = -1 := PopTask_index w root hres
  have hnot : root ∉ (beforeRun w root).taskQueue := by
    have hc : w.taskQueue.count root = 1 := by
      rcases hw.1.2.1 root with ⟨_, hn⟩ | ⟨_, hc⟩
      · exact absurd hrmem hn
      · exact hc
    have := hperm.count_eq root
    rw [List.count_cons_self, hc] at this
    intro hm
    have h2 := List.count_pos_iff.2 hm
    change 0 < (taskQueue.PopTask w).1.taskQueue.count root at h2
    omega
  have hlt : root < (beforeRun w root).nextId := by
    show root < (taskQueue.PopTask w).1.nextId
    rw [hs.2.1]
    exact hw.1.2.2 root hrmem
  rw [processNextTask_eq w hne root hroot]
  simp only
  rcases Safe_Run (beforeRun w root) root (max w.now (w.tasks root).Deadline) hbr hidx hnot hlt
    with ⟨e, hsafe⟩ | ⟨e, hsafe, i1, i2, i3⟩
  · rw [e]; exact hsafe
  · rw [e]
    refine ⟨Good_PushTask _ root i1 i2 i3 hsafe.1, ?_⟩
    intro t
    rw [((PushTask_step _ _).2.2.2.2.2 t).2]
    exact hsafe.2 t

theorem Safe_AdvanceIfBefore (w : World U) (b : Int) (hw : SafeWorld w) :
    SafeWorld (AdvanceIfBefore w b).world := by
  rcases AdvanceIfBefore_cases w b with e | ⟨root, hroot, _, e⟩
  · rw [e]; exact hw
  · rw [e]; exact Safe_processNextTask w root hroot hw

theorem ProcessAllUntilLoop_spec (fuel : Nat) (w : World U) (ctx : Nat) (u : Int) (hu : u ≠ 0)
    (n : Nat) (w1 : World U) (k : Nat)
    (h : ProcessAllUntilLoop fuel w ctx u n = some (w1, k, none)) :
    (SafeWorld w → SafeWorld w1) ∧
    (∀ root, w1.taskQueue[0]? = some root → ¬ (w1.tasks root).Deadline < u) ∧
    ∃ es, w1.fired = w.fired ++ es ∧ n + es.length = k ∧ ∀ e ∈ es, e.deadline < u := by
  induction fuel generalizing w n with
  | zero => simp [ProcessAllUntilLoop] at h
  | succ m ih =>
    unfold ProcessAllUntilLoop at h
    split at h
    · simp at h
    · simp only at h
      rcases AdvanceIfBefore_cases w u with e | ⟨root, hroot, hb, e⟩
      · rw [e] at h
        simp only [if_true, Option.some.injEq, Prod.mk.injEq, and_true] at h
        obtain ⟨rfl, rfl⟩ := h
        refine ⟨fun hs => hs, ?_, [], by simp, by simp, by simp⟩
        intro root hroot hlt
        have hfire := AdvanceIfBefore_fires w u root hroot (Or.inr hlt)
        rw [e] at hfire
        simp at hfire
      · rw [e] at h
        simp only [Bool.true_eq_false, if_false] at h
        obtain ⟨h1, h2, es, h3, h4, h5⟩ := ih _ _ h
        have hdl : (w.tasks root).Deadline < u := by
          rcases hb with hb | hb
          · exact absurd hb hu
          · exact hb
        refine ⟨fun hs => h1 (Safe_processNextTask w root hroot hs), h2,
          ⟨root, (w.tasks root).Deadline, max w.now (w.tasks root).Deadline⟩ :: es, ?_, ?_, ?_⟩
        · rw [h3, processNextTask_fired w root hroot]
          simp
        · simp only [List.length_cons]
          omega
        · intro x hx
          rcases List.mem_cons.1 hx with hx | hx
          · rw [hx]; exact hdl
          · exact h5 x hx

/-! ## `ProcessAllUntil` on a good queue -/

theorem SafeWorld_new (now : Int) (u : U) : SafeWorld (NewSimulator now u) := by
  refine ⟨⟨?_, ?_, ?_⟩, fun _ _ => trivial⟩
  · intro p c hc _
    simp [NewSimulator] at hc
  · intro h
    exact Or.inl ⟨rfl, by simp [NewSimulator]⟩
  · intro t ht
    simp [NewSimulator] at ht

/-- Let the queue be good (a min-heap on deadlines with every task linked)
and let no ticker predicate call `Reset` while it runs.  For every non-zero
bound `u`, when `ProcessAllUntil(ctx, u)` returns `(n, nil)`: no pending task
has a deadline strictly before `u`; exactly `n` `Run` calls were made during
the call; every task run had, when it was popped, a deadline strictly before
`u`; and the queue is good again. -/
theorem ProcessAllUntil_on_safe_world (fuel : Nat) (w : World U) (ctx : Nat) (u : Int) (hu : u ≠ 0)
    (hw : SafeWorld w) (n : Nat) (w1 : World U)
    (hret : ProcessAllUntil fuel w ctx u = some (w1, n, none)) :
    (∀ t ∈ w1.taskQueue, ¬ (w1.tasks t).Deadline < u) ∧
    (∃ es, w1.fired = w.fired ++ es ∧ es.length = n ∧ ∀ e ∈ es, e.deadline < u) ∧
    SafeWorld w1 := by
  obtain ⟨h1, h2, es, h3, h4, h5⟩ := ProcessAllUntilLoop_spec fuel w ctx u hu 0 w1 n hret
  have hs1 := h1 hw
  refine ⟨?_, ⟨es, h3, by omega, h5⟩, hs1⟩
  intro t ht hlt
  cases hq : w1.taskQueue with
  | nil => rw [hq] at ht; simp at ht
  | cons r rest =>
    have hroot : w1.taskQueue[0]? = some r := by rw [hq]; simp
    have hmin := heap_root_min w1 hs1.1.1 r t hroot ht
    have := h2 r hroot
    omega

/-- A concrete instance: the two timers of `demoTimers` (deadlines 10 and 5) and
the bound 7: one task is run. -/
theorem ProcessAllUntil_on_safe_world_witness :
    SafeWorld demoTimers ∧
    ∃ w1, ProcessAllUntil 3 demoTimers 0 7 = some (w1, 1, none) ∧
      (∀ t ∈ w1.taskQueue, ¬ (w1.tasks t).Deadline < 7) :=
  ⟨Safe_alloc_push _ _ rfl (fun _ => trivial)
      (Safe_alloc_push _ _ rfl (fun _ => trivial) (SafeWorld_new 0 ())),
   ⟨(AdvanceIfBefore demoTimers 7).world, rfl,
    (ProcessAllUntil_on_safe_world 3 demoTimers 0 7 (by decide)
      (Safe_alloc_push _ _ rfl (fun _ => trivial)
        (Safe_alloc_push _ _ rfl (fun _ => trivial) (SafeWorld_new 0 ())))
      1 (AdvanceIfBefore demoTimers 7).world rfl).1⟩⟩

/-! ## Draining a buffer -/

theorem Prog.BufOK.resetFree (p : Prog U) (h : p.BufOK) : p.ResetFree := by
  induction p with
  | ret b => trivial
  | load k ih => exact fun u => ih u (h u)
  | store u k ih => exact ih h
  | afterFunc d f k _ ih => exact fun t => ih t (h.2.2 t)
  | everyFunc d f k _ ih => exact fun t => ih t (h.2.2 t)
  | now k _ => exact absurd h (by simp [Prog.BufOK])
  | untilFunc t f k _ _ => exact absurd h (by simp [Prog.BufOK])
  | stop t k _ => exact absurd h (by simp [Prog.BufOK])
  | reset t d k _ => exact absurd h (by simp [Prog.BufOK])
  | cancel c k _ => exact absurd h (by simp [Prog.BufOK])

theorem BufInv_alloc_push (Q0 : List Nat) (n0 : Nat) (w : World U) (es : List Firing)
    (task : Task U) (hidx : task.indexInQueue = -1) (hact : task.Action.BufOK)
    (hdue : w.now ≤ task.Deadline) (hw : BufInv Q0 n0 w es) :
    BufInv Q0 n0 (taskQueue.PushTask (w.alloc task).1 w.nextId) es := by
  have hs := PushTask_step (w.alloc task).1 w.nextId
  have hperm := PushTask_perm (w.alloc task).1 w.nextId
  have hfresh : w.nextId ∉ w.taskQueue := fun hx => by
    have := hw.good.2.2 _ hx
    omega
  have hdl : ∀ t, ((taskQueue.PushTask (w.alloc task).1 w.nextId).tasks t).Deadline
      = (Function.update w.tasks w.nextId task t).Deadline := fun t => (hs.2.2.2.2.2 t).1
  have hmem : ∀ t, t ∈ (taskQueue.PushTask (w.alloc task).1 w.nextId).taskQueue ↔
      t = w.nextId ∨ t ∈ w.taskQueue := fun t => by
    rw [hperm.mem_iff]
    exact List.mem_cons
  refine ⟨Good_alloc_push w task hidx hw.good, ?_, ?_, ?_, hw.sorted, ?_, ?_, hw.nodup, ?_⟩
  · intro t
    rw [(hs.2.2.2.2.2 t).2]
    show (Function.update w.tasks w.nextId task t).Action.BufOK
    by_cases ht : t = w.nextId
    · rw [ht, Function.update_same]; exact hact
    · rw [Function.update_noteq ht]; exact hw.acts t
  · intro t ht
    rw [hs.1, hdl]
    show w.now ≤ _
    rcases (hmem t).1 ht with e | e
    · rw [e, Function.update_same]; exact hdue
    · have hne : t ≠ w.nextId := fun e2 => hfresh (e2 ▸ e)
      rw [Function.update_noteq hne]
      exact hw.due t e
  · intro e he
    rw [hs.1]
    exact hw.past e he
  · intro e he
    rw [hs.2.1]
    have := hw.alloc e he
    show e.task < w.nextId + 1
    omega
  · intro e he hq
    have hlt := hw.alloc e he
    rw [hdl, Function.update_noteq (by omega)]
    rcases (hmem e.task).1 hq with e2 | e2
    · omega
    · exact hw.later e he e2
  · intro t ht hlt
    rw [hs.2.1] at hlt
    change t < w.nextId + 1 at hlt
    by_cases htn : t = w.nextId
    · exact Or.inl ((hmem t).2 (Or.inl htn))
    · rcases hw.kept t ht (by omega) with h1 | h1
      · exact Or.inl ((hmem t).2 (Or.inr h1))
      · exact Or.inr h1

theorem BufInv_run (Q0 : List Nat) (n0 : Nat) (es : List Firing) (p : Prog U) (hp : p.BufOK)
    (w : World U) (hw : BufInv Q0 n0 w es) : BufInv Q0 n0 (p.run w).1 es := by
  induction p generalizing w with
  | ret b => exact hw
  | load k ih => exact ih _ (hp _) w hw
  | store u k ih =>
    exact ih hp _ ⟨hw.good, hw.acts, hw.due, hw.past, hw.sorted, hw.alloc, hw.later, hw.nodup,
      hw.kept⟩
  | afterFunc d f k _ ih =>
    refine ih _ (hp.2.2 _) _ (BufInv_alloc_push Q0 n0 w es _ rfl hp.2.1 ?_ hw)
    show w.now ≤ w.now + d
    have := hp.1
    omega
  | everyFunc d f k _ ih =>
    refine ih _ (hp.2.2 _) _ (BufInv_alloc_push Q0 n0 w es _ rfl ⟨hp.1, hp.2.1⟩ ?_ hw)
    show w.now ≤ w.now + d
    have := hp.1
    omega
  | now k _ => exact absurd hp (by simp [Prog.BufOK])
  | untilFunc t f k _ _ => exact absurd hp (by simp [Prog.BufOK])
  | stop t k _ => exact absurd hp (by simp [Prog.BufOK])
  | reset t d k _ => exact absurd hp (by simp [Prog.BufOK])
  | cancel c k _ => exact absurd hp (by simp [Prog.BufOK])

theorem BufInv_frame (Q0 : List Nat) (n0 : Nat) (es : List Firing) (w w1 : World U)
    (hq : w1.taskQueue = w.taskQueue) (ht : w1.tasks = w.tasks) (hn : w1.nextId = w.nextId)
    (hnow : w1.now = w.now) (hw : BufInv Q0 n0 w es) : BufInv Q0 n0 w1 es := by
  have hgood : GoodQueue w1 := by
    obtain ⟨hh, hl, hm⟩ := hw.good
    refine ⟨HeapOrd_congr w w1 hq (fun t => by rw [ht]) hh, ?_, ?_⟩
    · intro h
      exact Linked_congr w w1 h hq (by rw [ht]) (hl h)
    · intro t htq
      rw [hq] at htq
      rw [hn]
      exact hm t htq
  refine ⟨hgood, ?_, ?_, ?_, hw.sorted, ?_, ?_, hw.nodup, ?_⟩
  · intro t; rw [ht]; exact hw.acts t
  · intro t htq; rw [hq] at htq; rw [hnow, ht]; exact hw.due t htq
  · intro e he; rw [hnow]; exact hw.past e he
  · intro e he; rw [hn]; exact hw.alloc e he
  · intro e he hm; rw [hq] at hm; rw [ht]; exact hw.later e he hm
  · intro t h1 h2
    rw [hn] at h2
    rw [hq]
    exact hw.kept t h1 h2

theorem BufInv_rearm (Q0 : List Nat) (n0 : Nat) (es : List Firing) (w : World U) (root : Nat)
    (v : Int) (hnot : root ∉ w.taskQueue) (hidx : (w.tasks root).indexInQueue = -1)
    (hlt : root < w.nextId) (hv : w.now ≤ v)
    (hlater : ∀ e ∈ es, e.task = root → e.deadline < v) (hw : BufInv Q0 n0 w es) :
    BufInv Q0 n0
      (taskQueue.PushTask
        { w with tasks := Function.update w.tasks root { w.tasks root with Deadline := v } }
        root) es := by
  set w2 : World U :=
    { w with tasks := Function.update w.tasks root { w.tasks root with Deadline := v } } with hw2
  have hs := PushTask_step w2 root
  have hperm := PushTask_perm w2 root
  have hmem : ∀ t, t ∈ (taskQueue.PushTask w2 root).taskQueue ↔ t = root ∨ t ∈ w.taskQueue :=
    fun t => by
      rw [hperm.mem_iff]
      exact List.mem_cons
  have hdl : ∀ t, ((taskQueue.PushTask w2 root).tasks t).Deadline
      = (Function.update w.tasks root { w.tasks root with Deadline := v } t).Deadline :=
    fun t => (hs.2.2.2.2.2 t).1
  have hg2 : GoodQueue w2 := Good_setDeadline w root v hnot hw.good
  refine ⟨Good_PushTask w2 root ?_ hnot hlt hg2, ?_, ?_, ?_, hw.sorted, ?_, ?_, hw.nodup, ?_⟩
  · simp only [hw2, Function.update_same]
    exact hidx
  · intro t
    rw [(hs.2.2.2.2.2 t).2]
    show (Function.update w.tasks root _ t).Action.BufOK
    by_cases ht : t = root
    · rw [ht, Function.update_same]; exact hw.acts root
    · rw [Function.update_noteq ht]; exact hw.acts t
  · intro t ht
    rw [hs.1, hdl]
    show w.now ≤ _
    rcases (hmem t).1 ht with e | e
    · rw [e, Function.update_same]; exact hv
    · have hne : t ≠ root := fun e2 => hnot (e2 ▸ e)
      rw [Function.update_noteq hne]
      exact hw.due t e
  · intro e he
    rw [hs.1]
    exact hw.past e he
  · intro e he
    rw [hs.2.1]
    exact hw.alloc e he
  · intro e he hq
    rw [hdl]
    by_cases her : e.task = root
    · rw [her, Function.update_same]
      exact hlater e he her
    · rw [Function.update_noteq her]
      rcases (hmem e.task).1 hq with e2 | e2
      · exact absurd e2 her
      · exact hw.later e he e2
  · intro t ht hlt2
    rw [hs.2.1] at hlt2
    rcases hw.kept t ht hlt2 with h1 | h1
    · exact Or.inl ((hmem t).2 (Or.inr h1))
    · exact Or.inr h1

theorem BufInv_mid (Q0 : List Nat) (n0 : Nat) (es : List Firing) (w : World U) (root : Nat)
    (hroot : w.taskQueue[0]? = some root) (hw : BufInv Q0 n0 w es) :
    BufInv Q0 n0 (beforeRun w root)
      (es ++ [{ task := root, deadline := (w.tasks root).Deadline,
                now := max w.now (w.tasks root).Deadline }]) ∧
    root ∉ (beforeRun w root).taskQueue ∧
    ((beforeRun w root).tasks root).indexInQueue = -1 ∧
    root < (beforeRun w root).nextId ∧
    ((beforeRun w root).tasks root).Deadline = (w.tasks root).Deadline ∧
    (beforeRun w root).now = (w.tasks root).Deadline := by
  have hne : w.taskQueue ≠ [] := by
    intro e
    rw [e] at hroot
    simp at hroot
  obtain ⟨r, hr0, hres, hperm, _, _⟩ := PopTask_spec w hne
  rw [hroot] at hr0
  cases hr0
  have hs := PopTask_step w
  have hrmem : root ∈ w.taskQueue := mem_of_getElem?_eq_some hroot
  have hdue := hw.due root hrmem
  have hmax : max w.now (w.tasks root).Deadline = (w.tasks root).Deadline := max_eq_right hdue
  have hsub : ∀ t ∈ (taskQueue.PopTask w).1.taskQueue, t ∈ w.taskQueue := fun t ht =>
    hperm.mem_iff.1 (List.mem_cons_of_mem _ ht)
  have hdl : ∀ t, ((taskQueue.PopTask w).1.tasks t).Deadline = (w.tasks t).Deadline :=
    fun t => (hs.2.2.2.2.2 t).1
  have hnot : root ∉ (taskQueue.PopTask w).1.taskQueue := by
    have hc : w.taskQueue.count root = 1 := by
      rcases hw.good.2.1 root with ⟨_, hn⟩ | ⟨_, hc⟩
      · exact absurd hrmem hn
      · exact hc
    have := hperm.count_eq root
    rw [List.count_cons_self, hc] at this
    intro hm
    have h2 := List.count_pos_iff.2 hm
    omega
  have hgood : GoodQueue (beforeRun w root) := by
    obtain ⟨hh, hl, hm⟩ := Good_PopTask w hw.good
    exact ⟨HeapOrd_congr _ _ rfl (fun _ => rfl) hh,
      fun h => Linked_congr _ _ h rfl rfl (hl h), hm⟩
  refine ⟨⟨hgood, ?_, ?_, ?_, ?_, ?_, ?_, ?_, ?_⟩, hnot, PopTask_index w root hres, ?_,
    hdl root, hmax⟩
  · intro t
    show ((taskQueue.PopTask w).1.tasks t).Action.BufOK
    rw [(hs.2.2.2.2.2 t).2]
    exact hw.acts t
  · intro t ht
    show max w.now (w.tasks root).Deadline ≤ ((taskQueue.PopTask w).1.tasks t).Deadline
    rw [hmax, hdl]
    exact heap_root_min w hw.good.1 root t hroot (hsub t ht)
  · intro e he
    show e.deadline ≤ max w.now (w.tasks root).Deadline
    rcases List.mem_append.1 he with h1 | h1
    · exact le_trans (hw.past e h1) (le_max_left _ _)
    · rw [List.mem_singleton.1 h1]
      exact le_max_right _ _
  · rw [List.map_append, List.map_singleton]
    unfold List.Sorted
    rw [List.pairwise_append]
    refine ⟨hw.sorted, List.pairwise_singleton _ _, ?_⟩
    intro a ha b hb
    obtain ⟨e, he, rfl⟩ := List.mem_map.1 ha
    rw [List.mem_singleton.1 hb]
    exact le_trans (hw.past e he) hdue
  · intro e he
    show e.task < (taskQueue.PopTask w).1.nextId
    rw [hs.2.1]
    rcases List.mem_append.1 he with h1 | h1
    · exact hw.alloc e h1
    · rw [List.mem_singleton.1 h1]
      exact hw.good.2.2 root hrmem
  · intro e he hq
    show e.deadline < ((taskQueue.PopTask w).1.tasks e.task).Deadline
    rw [hdl]
    rcases List.mem_append.1 he with h1 | h1
    · exact hw.later e h1 (hsub _ hq)
    · rw [List.mem_singleton.1 h1] at hq
      exact absurd hq hnot
  · rw [List.map_append, List.map_singleton, List.nodup_append]
    refine ⟨hw.nodup, List.nodup_singleton _, ?_⟩
    intro x hx1 hx2
    rw [List.mem_singleton.1 hx2] at hx1
    obtain ⟨e, he, hpair⟩ := List.mem_map.1 hx1
    simp only [Prod.mk.injEq] at hpair
    have := hw.later e he (hpair.1 ▸ hrmem)
    rw [hpair.1, hpair.2] at this
    omega
  · intro t ht hlt
    change t < (taskQueue.PopTask w).1.nextId at hlt
    rw [hs.2.1] at hlt
    rcases hw.kept t ht hlt with h1 | ⟨e, he, het⟩
    · by_cases htr : t = root
      · exact Or.inr ⟨_, List.mem_append_right _ (List.mem_singleton_self _), htr.symm⟩
      · left
        rcases List.mem_cons.1 (hperm.mem_iff.2 h1) with h2 | h2
        · exact absurd h2 htr
        · exact h2
    · exact Or.inr ⟨e, List.mem_append_left _ he, het⟩
  · show root < (taskQueue.PopTask w).1.nextId
    rw [hs.2.1]
    exact hw.good.2.2 root hrmem

theorem BufInv_Run (Q0 : List Nat) (n0 : Nat) (es : List Firing) (w : World U) (root : Nat)
    (now : Int) (hnot : root ∉ w.taskQueue) (hidx : (w.tasks root).indexInQueue = -1)
    (hlt : root < w.nextId) (hnow : w.now = (w.tasks root).Deadline) (hw : BufInv Q0 n0 w es) :
    ((Task.Run w root now).2 = none ∧ BufInv Q0 n0 (Task.Run w root now).1 es) ∨
    ((Task.Run w root now).2 = some root ∧
      BufInv Q0 n0 (taskQueue.PushTask (Task.Run w root now).1 root) es) := by
  have hact := hw.acts root
  unfold Task.Run
  simp only
  generalize hw0 : ({ w with
      fired := w.fired ++ [{ task := root, deadline := (w.tasks root).Deadline, now := now }] }
        : World U) = w0
  have hinv0 : BufInv Q0 n0 w0 es := by
    rw [← hw0]
    exact BufInv_frame Q0 n0 es w _ rfl rfl rfl rfl hw
  have hnot0 : root ∉ w0.taskQueue := by rw [← hw0]; exact hnot
  have hlt0 : root < w0.nextId := by rw [← hw0]; exact hlt
  have ht0 : w0.tasks root = w.tasks root := by rw [← hw0]
  have hnow0 : w0.now = (w.tasks root).Deadline := by rw [← hw0]; exact hnow
  split
  · rename_i action heq
    rw [heq] at hact
    exact Or.inl ⟨rfl, BufInv_run Q0 n0 es _ (hact _) w0 hinv0⟩
  · rename_i period action heq
    rw [heq] at hact
    have hr := BufInv_run Q0 n0 es _ (hact.2 now) w0 hinv0
    obtain ⟨o1, o2, o3⟩ := ResetFree_run_out _ (Prog.BufOK.resetFree _ (hact.2 now)) root w0
      hlt0 hnot0
    have hrnow := Prog.run_now (action now) w0
    split_ifs
    · exact Or.inl ⟨rfl, hr⟩
    · refine Or.inr ⟨rfl, ?_⟩
      simp only
      apply BufInv_rearm Q0 n0 es _ root _ o2 (by rw [o3, ht0]; exact hidx) o1 _ _ hr
      · rw [hrnow, hnow0, o3, ht0]
        show (w.tasks root).Deadline ≤ (w.tasks root).Deadline + period
        have := hact.1
        omega
      · intro e he _
        have := hr.past e he
        rw [hrnow, hnow0] at this
        rw [o3, ht0]
        show e.deadline < (w.tasks root).Deadline + period
        have := hact.1
        omega

theorem BufInv_processNextTask (Q0 : List Nat) (n0 : Nat) (es : List Firing) (w : World U)
    (root : Nat) (hroot : w.taskQueue[0]? = some root) (hw : BufInv Q0 n0 w es) :
    BufInv Q0 n0 (processNextTask w).1
      (es ++ [{ task := root, deadline := (w.tasks root).Deadline,
                now := max w.now (w.tasks root).Deadline }]) := by
  have hne : w.taskQueue ≠ [] := by
    intro e
    rw [e] at hroot
    simp at hroot
  obtain ⟨hmid, hnot, hidx, hlt, hdl, hnow⟩ := BufInv_mid Q0 n0 es w root hroot hw
  rw [processNextTask_eq w hne root hroot]
  simp only
  rcases BufInv_Run Q0 n0 _ (beforeRun w root) root (max w.now (w.tasks root).Deadline)
    hnot hidx hlt (by rw [hnow, hdl]) hmid with ⟨e, hinv⟩ | ⟨e, hinv⟩
  · rw [e]; exact hinv
  · rw [e]; exact hinv

theorem ProcessAllUntilLoop_inv (I : World U → List Firing → Prop)
    (hstep : ∀ w es root, I w es → w.taskQueue[0]? = some root →
      I (processNextTask w).1
        (es ++ [{ task := root, deadline := (w.tasks root).Deadline,
                  now := max w.now (w.tasks root).Deadline }]))
    (fuel : Nat) (w : World U) (ctx : Nat) (u : Int) (n : Nat) (es : List Firing)
    (w1 : World U) (k : Nat) (h : ProcessAllUntilLoop fuel w ctx u n = some (w1, k, none))
    (hw : I w es) :
    ∃ es1, w1.fired = w.fired ++ es1 ∧ I w1 (es ++ es1) ∧
      (u ≠ 0 → ∀ e ∈ es1, e.deadline < u) := by
  induction fuel generalizing w n es with
  | zero => simp [ProcessAllUntilLoop] at h
  | succ m ih =>
    unfold ProcessAllUntilLoop at h
    split at h
    · simp at h
    · simp only at h
      rcases AdvanceIfBefore_cases w u with e | ⟨root, hroot, hb, e⟩
      · rw [e] at h
        simp only [if_true, Option.some.injEq, Prod.mk.injEq, and_true] at h
        obtain ⟨rfl, rfl⟩ := h
        exact ⟨[], by simp, by simpa using hw, by simp⟩
      · rw [e] at h
        simp only [Bool.true_eq_false, if_false] at h
        obtain ⟨es1, h3, h4, h5⟩ := ih _ _ _ h (hstep w es root hw hroot)
        refine ⟨⟨root, (w.tasks root).Deadline, max w.now (w.tasks root).Deadline⟩ :: es1,
          ?_, ?_, ?_⟩
        · rw [h3, processNextTask_fired w root hroot]
          simp
        · simpa using h4
        · intro hu x hx
          rcases List.mem_cons.1 hx with hx | hx
          · rw [hx]
            rcases hb with hb | hb
            · exact absurd hb hu
            · exact hb
          · exact h5 hu x hx

theorem processTasksInLive_spec (realNow : Nat → Int) (ts : List Nat) (k : Nat)
    (c : ClockWithBuffering U) (hc : c.bufferingEnabled = false) :
    c.processTasksInLive realNow k ts =
      some { c with
        Clock := c.Clock ++ (ts.enumFrom k).map fun p =>
          LiveCall.AfterFuncTask (Time.Sub (c.world.tasks p.2).Deadline (realNow p.1)) p.2 } := by
  induction ts generalizing c k with
  | nil => simp [ClockWithBuffering.processTasksInLive]
  | cons t ts ih =>
    obtain ⟨cl, en, nl, w⟩ := c
    simp only at hc
    subst hc
    unfold ClockWithBuffering.processTasksInLive
    simp only [ClockWithBuffering.processTaskInLive, Bool.false_eq_true, if_false]
    rw [ih _ _ rfl]
    simp

theorem EndTasksBufferingLoop_inv (Q0 : List Nat) (n0 : Nat) (F0 : List Firing)
    (liveTimeStart : Nat → Int) (L : Int) (hL : ∀ k, liveTimeStart k = L) (hL0 : L ≠ 0)
    (fuel inner : Nat) (c : ClockWithBuffering U) (ctx k : Nat) (es : List Firing)
    (c2 : ClockWithBuffering U) (liveTasks : List Nat)
    (hinv : BufInv Q0 n0 c.world es) (hbefore : ∀ e ∈ es, e.deadline < L)
    (hfired : c.world.fired = F0 ++ es)
    (hret : ClockWithBuffering.EndTasksBufferingLoop fuel inner c ctx liveTimeStart k
      = some (Ended.returned (c2, Sum.inr liveTasks))) :
    ∃ es1 wf, wf.fired = F0 ++ es1 ∧ BufInv Q0 n0 wf es1 ∧ (∀ e ∈ es1, e.deadline < L) ∧
      HasExpiredTasks wf L = false ∧ liveTasks = wf.taskQueue ∧
      c2 = { c with
        world := { wf with taskQueue := [] }
        tasksBufferNil := true
        bufferingEnabled := false } := by
  induction fuel generalizing c k es with
  | zero => simp [ClockWithBuffering.EndTasksBufferingLoop] at hret
  | succ m ih =>
    obtain ⟨cl, en, nl, w⟩ := c
    simp only at hinv hfired
    unfold ClockWithBuffering.EndTasksBufferingLoop at hret
    cases nl with
    | true =>
      simp only [if_true] at hret
      cases hctx : w.ctxErr ctx <;> rw [hctx] at hret <;> simp at hret
    | false =>
      simp only [Bool.false_eq_true, if_false] at hret
      rw [hL k, hL (k + 1)] at hret
      cases hP : ProcessAllUntil inner w ctx L with
      | none => rw [hP] at hret; simp at hret
      | some r =>
        obtain ⟨w1, cnt, err⟩ := r
        rw [hP] at hret
        cases err with
        | some e => simp at hret
        | none =>
          simp only at hret
          obtain ⟨es1, hf1, hinv1, hlt1⟩ :=
            ProcessAllUntilLoop_inv (BufInv Q0 n0)
              (fun w es root hw hroot => BufInv_processNextTask Q0 n0 es w root hroot hw)
              inner w ctx L 0 es w1 cnt hP hinv
          have hbefore1 : ∀ e ∈ es ++ es1, e.deadline < L := by
            intro e he
            rcases List.mem_append.1 he with h | h
            · exact hbefore e h
            · exact hlt1 hL0 e h
          have hfired1 : w1.fired = F0 ++ (es ++ es1) := by
            rw [hf1, hfired, List.append_assoc]
          unfold ClockWithBuffering.tryDisableBuffering at hret
          cases en with
          | false => simp at hret
          | true =>
            simp only [Bool.true_eq_false, Bool.false_eq_true, if_false] at hret
            cases hexp : HasExpiredTasks w1 L with
            | true =>
              rw [hexp] at hret
              simp only [if_true] at hret
              exact ih { Clock := cl, bufferingEnabled := true, tasksBufferNil := false, world := w1 }
                (k + 2) (es ++ es1) hinv1 hbefore1 hfired1 hret
            | false =>
              rw [hexp] at hret
              simp only [Bool.false_eq_true, if_false, Option.some.injEq, Ended.returned.injEq,
                Prod.mk.injEq, Sum.inr.injEq] at hret
              obtain ⟨hc2, hlt⟩ := hret
              refine ⟨es ++ es1, w1, hfired1, hinv1, hbefore1, hexp, ?_, ?_⟩
              · rw [← hlt]; rfl
              · rw [← hc2]; rfl

theorem BufInv_init (w : World U) (hgood : GoodQueue w) (hacts : ∀ t, (w.tasks t).Action.BufOK)
    (hdue : ∀ t ∈ w.taskQueue, w.now ≤ (w.tasks t).Deadline) :
    BufInv w.taskQueue w.nextId w [] where
  good := hgood
  acts := hacts
  due := hdue
  past := fun e he => absurd he (List.not_mem_nil e)
  sorted := List.sorted_nil
  alloc := fun e he => absurd he (List.not_mem_nil e)
  later := fun e he => absurd he (List.not_mem_nil e)
  nodup := List.nodup_nil
  kept := fun t ht hlt => by
    rcases ht with h | h
    · exact Or.inl h
    · omega

theorem AllLinked_nodup (w : World U) (h : AllLinked w) : w.taskQueue.Nodup := by
  rw [List.nodup_iff_count_le_one]
  intro a
  rcases h a with ⟨_, hn⟩ | ⟨_, hc⟩
  · rw [List.count_eq_zero_of_not_mem hn]; omega
  · omega

theorem not_expired_all_later (w : World U) (L : Int) (hh : HeapOrd w)
    (hexp : HasExpiredTasks w L = false) (t : Nat) (ht : t ∈ w.taskQueue) :
    L < (w.tasks t).Deadline := by
  unfold HasExpiredTasks taskQueue.HasExpiredTasks at hexp
  cases hq : w.taskQueue[0]? with
  | none =>
    have : w.taskQueue = [] := by
      cases hl : w.taskQueue with
      | nil => rfl
      | cons a l => rw [hl] at hq; simp at hq
    rw [this] at ht
    exact absurd ht (List.not_mem_nil t)
  | some r =>
    rw [hq] at hexp
    simp [Time.Before] at hexp
    have := heap_root_min w hh r t hq ht
    omega

theorem demoBuffered_inv : BufInv [] 0 demoBuffered.world [] :=
  BufInv_alloc_push [] 0 _ [] (newTask 2100 (Action.simTimer fun _ => Prog.ret false)) rfl
    (fun _ => trivial) (by decide)
    (BufInv_alloc_push [] 0 _ [] (newTask 110 (Action.simTimer fun _ => Prog.ret false)) rfl
      (fun _ => trivial) (by decide)
      (BufInv_init (NewSimulator 100 ()) (SafeWorld_new 100 ()).1 (fun _ _ => trivial)
        (fun t ht => absurd ht (List.not_mem_nil t))))

/-- Claim C10, the counterexample to the order of execution: on a buffering
clock started at time 100 with one buffered timer due at 110 whose action
schedules a further timer with the duration -5, `EndTasksBuffering` with a
live-time function returning 1000 and a context that is not cancelled returns
nil, and the private simulator has executed the task due at 110 before the
task due at 105: the deadlines are not in non-decreasing order. -/
theorem C10_backdated_counterexample :
    ∃ c1, demoBackdated.EndTasksBuffering 5 10 0 (fun _ => 1000) (fun _ => 1000)
        = some (Ended.returned (c1, none)) ∧
      (c1.world.fired.map fun e => (e.task, e.deadline)) = [(0, 110), (1, 105)] ∧
      ¬ (c1.world.fired.map fun e => e.deadline).Sorted fun a b => a ≤ b := by
  refine ⟨(match demoBackdated.EndTasksBuffering 5 10 0 (fun _ => 1000) (fun _ => 1000) with
    | some (Ended.returned (c1, _)) => c1
    | _ => demoBackdated), rfl, rfl, ?_⟩
  have h : (ClockWithBuffering.world (match
      demoBackdated.EndTasksBuffering 5 10 0 (fun _ => 1000) (fun _ => 1000) with
    | some (Ended.returned (c1, _)) => c1
    | _ => demoBackdated)).fired.map (fun (e : Firing) => e.deadline) = [110, 105] := rfl
  rw [h]
  decide

/-- Claim C10 (buffering hand-off), amended.  Let the buffered tasks' callbacks
be `BufOK` (they schedule only with non-negative durations and positive
intervals and call neither `Stop` nor `Reset`), let the private simulator's
queue be good with no deadline before its current time, and let the live-time
function return the non-zero time `L` on every call.  When `EndTasksBuffering`
returns nil, buffering is disabled and the private queue is empty; the
executions `es` made by the drain are in non-decreasing deadline order, each
has a deadline strictly before `L`, and no task was executed twice for the same
deadline; the live clock received exactly one `AfterFunc` per task of
`liveTasks`, for the time left until that task's deadline at the real time
`realNow i` of the call, and these tasks are
distinct, are due strictly after `L` and were not executed for that deadline;
and every task buffered at the start or created during the drain was handed to
the live clock or executed. -/
theorem C10_EndTasksBuffering_handoff (fuel inner : Nat) (c : ClockWithBuffering U) (ctx : Nat)
    (liveTimeStart : Nat → Int) (L : Int) (realNow : Nat → Int)
    (hL : ∀ k, liveTimeStart k = L) (hL0 : L ≠ 0)
    (hgood : GoodQueue c.world) (hacts : ∀ t, (c.world.tasks t).Action.BufOK)
    (hdue : ∀ t ∈ c.world.taskQueue, c.world.now ≤ (c.world.tasks t).Deadline)
    (c1 : ClockWithBuffering U)
    (hret : c.EndTasksBuffering fuel inner ctx liveTimeStart realNow
      = some (Ended.returned (c1, none))) :
    c1.bufferingEnabled = false ∧ c1.tasksBufferNil = true ∧ c1.world.taskQueue = [] ∧
    ∃ (es : List Firing) (liveTasks : List Nat),
      c1.world.fired = c.world.fired ++ es ∧
      (es.map fun e => e.deadline).Sorted (fun a b => a ≤ b) ∧
      (∀ e ∈ es, e.deadline < L) ∧
      (es.map fun e => (e.task, e.deadline)).Nodup ∧
      c1.Clock = c.Clock ++ liveTasks.enum.map (fun p =>
        LiveCall.AfterFuncTask (Time.Sub (c1.world.tasks p.2).Deadline (realNow p.1)) p.2) ∧
      liveTasks.Nodup ∧
      (∀ t ∈ liveTasks, L < (c1.world.tasks t).Deadline) ∧
      (∀ t ∈ liveTasks, ∀ e ∈ es, e.task = t → e.deadline < (c1.world.tasks t).Deadline) ∧
      (∀ t, (t ∈ c.world.taskQueue ∨ c.world.nextId ≤ t) → t < c1.world.nextId →
        t ∈ liveTasks ∨ ∃ e ∈ es, e.task = t) := by
  unfold ClockWithBuffering.EndTasksBuffering at hret
  cases hloop : ClockWithBuffering.EndTasksBufferingLoop fuel inner c ctx liveTimeStart 0 with
  | none => rw [hloop] at hret; simp at hret
  | some r =>
    rw [hloop] at hret
    cases r with
    | panicked => simp at hret
    | returned a =>
      obtain ⟨c2, res⟩ := a
      cases res with
      | inl err => simp at hret
      | inr liveTasks =>
        simp only at hret
        obtain ⟨es, wf, hf, hinv, hlt, hexp, hlive, hc2⟩ :=
          EndTasksBufferingLoop_inv c.world.taskQueue c.world.nextId c.world.fired
            liveTimeStart L hL hL0 fuel inner c ctx 0 [] c2 liveTasks
            (BufInv_init c.world hgood hacts hdue)
            (fun e he => absurd he (List.not_mem_nil e)) (by simp) hloop
        have hen2 : c2.bufferingEnabled = false := by rw [hc2]
        rw [processTasksInLive_spec realNow liveTasks 0 c2 hen2] at hret
        simp only [Option.some.injEq, Ended.returned.injEq, Prod.mk.injEq, and_true] at hret
        subst hret
        subst hc2
        have hlater := not_expired_all_later wf L hinv.good.1 hexp
        refine ⟨rfl, rfl, rfl, es, liveTasks, hf, hinv.sorted, hlt, hinv.nodup, rfl, ?_, ?_, ?_, ?_⟩
        · rw [hlive]; exact AllLinked_nodup wf hinv.good.2.1
        · intro t ht
          rw [hlive] at ht
          exact hlater t ht
        · intro t ht e he _
          rw [hlive] at ht
          have h1 := hlater t ht
          have h2 := hlt e he
          show e.deadline < (wf.tasks t).Deadline
          omega
        · intro t ht hn
          rw [hlive]
          exact hinv.kept t ht hn

/-- Claim C10, a concrete instance: the buffering clock with two buffered
timers due at 110 and at 2100, handed off at live time 1000. -/
theorem C10_EndTasksBuffering_handoff_witness :
    ∃ c1, demoBuffered.EndTasksBuffering 5 10 0 (fun _ => 1000) (fun k => 1000 + k)
        = some (Ended.returned (c1, none)) ∧
      c1.bufferingEnabled = false ∧ c1.tasksBufferNil = true ∧ c1.world.taskQueue = [] ∧
      ∃ (es : List Firing) (liveTasks : List Nat),
        c1.world.fired = demoBuffered.world.fired ++ es ∧
        (es.map fun e => e.deadline).Sorted (fun a b => a ≤ b) ∧
        (∀ e ∈ es, e.deadline < 1000) ∧
        (es.map fun e => (e.task, e.deadline)).Nodup ∧
        c1.Clock = demoBuffered.Clock ++ liveTasks.enum.map (fun p =>
          LiveCall.AfterFuncTask (Time.Sub (c1.world.tasks p.2).Deadline (1000 + p.1)) p.2) ∧
        liveTasks.Nodup ∧
        (∀ t ∈ liveTasks, 1000 < (c1.world.tasks t).Deadline) ∧
        (∀ t ∈ liveTasks, ∀ e ∈ es, e.task = t → e.deadline < (c1.world.tasks t).Deadline) ∧
        (∀ t, (t ∈ demoBuffered.world.taskQueue ∨ demoBuffered.world.nextId ≤ t) →
          t < c1.world.nextId → t ∈ liveTasks ∨ ∃ e ∈ es, e.task = t) :=
  ⟨(match demoBuffered.EndTasksBuffering 5 10 0 (fun _ => 1000) (fun k => 1000 + k) with
    | some (Ended.returned (c1, _)) => c1
    | _ => demoBuffered), rfl,
   C10_EndTasksBuffering_handoff 5 10 demoBuffered 0 (fun _ => 1000) 1000 (fun k => 1000 + k)
    (fun _ => rfl) (by decide)
    demoBuffered_inv.good demoBuffered_inv.acts demoBuffered_inv.due _ rfl⟩

/-! ## C11: the hand-off loop and a task due at the live start time -/

theorem ProcessAllUntil_idle (inner : Nat) (w : World U) (ctx : Nat) (L : Int) (root : Nat)
    (hroot : w.taskQueue[0]? = some root) (hd : (w.tasks root).Deadline = L) (hL0 : L ≠ 0)
    (hctx : w.ctxErr ctx = none) :
    ProcessAllUntil (inner + 1) w ctx L = some (w, 0, none) := by
  unfold ProcessAllUntil ProcessAllUntilLoop
  rw [hctx]
  simp only
  rw [AdvanceIfBefore_idle w L (Or.inr ⟨root, hroot, hL0, by rw [hd]; exact lt_irrefl L⟩)]
  simp

theorem HasExpiredTasks_at (w : World U) (L : Int) (root : Nat)
    (hroot : w.taskQueue[0]? = some root) (hd : (w.tasks root).Deadline = L) :
    HasExpiredTasks w L = true := by
  unfold HasExpiredTasks taskQueue.HasExpiredTasks
  rw [hroot]
  simp [Time.Before, hd]

theorem EndTasksBufferingLoop_stuck (c : ClockWithBuffering U) (ctx : Nat)
    (liveTimeStart : Nat → Int) (L : Int) (hL : ∀ k, liveTimeStart k = L) (hL0 : L ≠ 0)
    (hen : c.bufferingEnabled = true) (hnil : c.tasksBufferNil = false) (root : Nat)
    (hroot : c.world.taskQueue[0]? = some root) (hd : (c.world.tasks root).Deadline = L)
    (hctx : c.world.ctxErr ctx = none) (fuel inner k : Nat) :
    ClockWithBuffering.EndTasksBufferingLoop fuel inner c ctx liveTimeStart k = none := by
  induction fuel generalizing k with
  | zero => rfl
  | succ m ih =>
    obtain ⟨cl, en, nl, w⟩ := c
    simp only at hen hnil hroot hd hctx
    subst hen hnil
    unfold ClockWithBuffering.EndTasksBufferingLoop
    simp only [Bool.false_eq_true, if_false]
    rw [hL k, hL (k + 1)]
    cases inner with
    | zero => rfl
    | succ n =>
      rw [ProcessAllUntil_idle n w ctx L root hroot hd hL0 hctx]
      simp only [ClockWithBuffering.tryDisableBuffering, Bool.true_eq_false, Bool.false_eq_true,
        if_false, HasExpiredTasks_at w L root hroot hd, if_true]
      exact ih (k + 2)

/-- Claim C11, evaluated at a failing input: the buffering clock holds one
one-shot task whose action schedules nothing and whose deadline, 1000, equals
the time every call of the live-time function returns; the context is never
cancelled.  `ProcessAllUntil(ctx, 1000)` returns without executing the task,
`HasExpiredTasks(1000)` is then true, and the loop of `EndTasksBuffering` does
not exit: whatever the number of iterations allowed, it has not returned. -/
theorem C11_loop_does_not_exit_at_L :
    demoDueAtStart.world.taskQueue = [0] ∧
    (demoDueAtStart.world.tasks 0).Deadline = 1000 ∧
    (demoDueAtStart.world.tasks 0).Action = Action.simTimer (fun _ => Prog.ret false) ∧
    demoDueAtStart.world.ctxErr 0 = none ∧
    ProcessAllUntil 1 demoDueAtStart.world 0 1000 = some (demoDueAtStart.world, 0, none) ∧
    HasExpiredTasks demoDueAtStart.world 1000 = true ∧
    ∀ (fuel inner : Nat) (realNow : Nat → Int),
      demoDueAtStart.EndTasksBuffering fuel inner 0 (fun _ => 1000) realNow = none := by
  refine ⟨rfl, rfl, rfl, rfl, ?_, ?_, ?_⟩
  · exact ProcessAllUntil_idle 0 _ 0 1000 0 rfl rfl (by decide) rfl
  · exact HasExpiredTasks_at _ 1000 0 rfl rfl
  · intro fuel inner realNow
    unfold ClockWithBuffering.EndTasksBuffering
    rw [EndTasksBufferingLoop_stuck demoDueAtStart 0 (fun _ => 1000) 1000 (fun _ => rfl)
      (by decide) rfl rfl 0 rfl rfl rfl fuel inner 0]

/-! ## C12, C13, C14: routing of scheduling calls, and the usage errors -/

/-- Claim C12, evaluated at a failing input: on a clock on which buffering is
enabled, `UntilFunc` is received by the live clock and the private simulator
is untouched (for every clock, time and callback), whereas `AfterFunc` and
`EveryFunc` on the same clock put one more task in the private simulator and
make no call on the live clock. -/
theorem C12_UntilFunc_reaches_live_clock :
    demoBuffered.bufferingEnabled = true ∧
    (∀ (c : ClockWithBuffering Unit) (t : Int) (f : Int → Prog Unit),
      (c.UntilFunc t f).world = c.world ∧
      (c.UntilFunc t f).Clock = c.Clock ++ [LiveCall.UntilFunc t f]) ∧
    (demoBuffered.UntilFunc 500 (fun _ => Prog.ret false)).world.taskQueue
      = demoBuffered.world.taskQueue ∧
    (demoBuffered.UntilFunc 500 (fun _ => Prog.ret false)).Clock.length = 1 ∧
    (demoBuffered.AfterFunc 5 (fun _ => Prog.ret false)).Clock = [] ∧
    (demoBuffered.AfterFunc 5 (fun _ => Prog.ret false)).world.taskQueue.length
      = demoBuffered.world.taskQueue.length + 1 ∧
    (demoBuffered.EveryFunc 5 (fun _ => Prog.ret false)).Clock = [] ∧
    (demoBuffered.EveryFunc 5 (fun _ => Prog.ret false)).world.taskQueue.length
      = demoBuffered.world.taskQueue.length + 1 :=
  ⟨rfl, fun _ _ _ => ⟨rfl, rfl⟩, rfl, rfl, rfl, rfl, rfl, rfl⟩

/-- Claim C13, evaluated at a failing input: on a new `ClockWithBuffering`, on
which buffering was never started, `EndTasksBuffering` with a context that is
already cancelled returns the context's error and does not panic, for every
live-time function; with a context that is not cancelled the same call
panics. -/
theorem C13_EndTasksBuffering_not_started_cancelled :
    (NewClockWithBuffering (cancelCtx (NewSimulator 0 ()) 0)).bufferingEnabled = false ∧
    (∀ (fuel inner : Nat) (liveTimeStart realNow : Nat → Int),
      (NewClockWithBuffering (cancelCtx (NewSimulator 0 ()) 0)).EndTasksBuffering
          (fuel + 1) inner 0 liveTimeStart realNow
        = some (Ended.returned
            (NewClockWithBuffering (cancelCtx (NewSimulator 0 ()) 0), some CtxErr.Canceled))) ∧
    (∀ (fuel inner : Nat) (liveTimeStart realNow : Nat → Int),
      (NewClockWithBuffering (NewSimulator 0 ())).EndTasksBuffering
          (fuel + 1) inner 0 liveTimeStart realNow
        = some Ended.panicked) :=
  ⟨rfl, fun _ _ _ _ => rfl, fun _ _ _ _ => rfl⟩

/-- Claim C14: `BeginTasksBuffering(T)` panics if and only if buffering is
already enabled, and then the receiver is unchanged; when buffering is
disabled it returns with buffering enabled and a new private simulator whose
current time is `T` and whose queue is empty, the live clock and the rest of
the program state being unchanged. -/
theorem C14_BeginTasksBuffering (c : ClockWithBuffering U) (T : Int) :
    ((c.BeginTasksBuffering T).panicked = true ↔ c.bufferingEnabled = true) ∧
    ((c.BeginTasksBuffering T).panicked = true → (c.BeginTasksBuffering T).state = c) ∧
    ((c.BeginTasksBuffering T).panicked = false →
      (c.BeginTasksBuffering T).state.bufferingEnabled = true ∧
      (c.BeginTasksBuffering T).state.tasksBufferNil = false ∧
      (c.BeginTasksBuffering T).state.world.now = T ∧
      (c.BeginTasksBuffering T).state.world.taskQueue = [] ∧
      (c.BeginTasksBuffering T).state.Clock = c.Clock ∧
      (c.BeginTasksBuffering T).state.world.tasks = c.world.tasks ∧
      (c.BeginTasksBuffering T).state.world.fired = c.world.fired) := by
  unfold ClockWithBuffering.BeginTasksBuffering
  cases hen : c.bufferingEnabled
  · simp
  · simp

/-- Claim C14, a concrete instance: on a new clock `BeginTasksBuffering(100)`
returns with buffering enabled at time 100, and a second call panics and
changes nothing. -/
theorem C14_BeginTasksBuffering_witness :
    ((NewClockWithBuffering (NewSimulator 0 ())).BeginTasksBuffering 100).panicked = false ∧
    ((NewClockWithBuffering (NewSimulator 0 ())).BeginTasksBuffering 100).state.world.now = 100 ∧
    (demoBuffered.BeginTasksBuffering 100).panicked = true ∧
    (demoBuffered.BeginTasksBuffering 100).state = demoBuffered :=
  ⟨rfl,
   ((C14_BeginTasksBuffering (NewClockWithBuffering (NewSimulator 0 ())) 100).2.2 rfl).2.2.1,
   rfl,
   (C14_BeginTasksBuffering demoBuffered 100).2.1 rfl⟩

/-! ## C16: `NoLock` -/

theorem wrapInt_small (x : Int) (h0 : -(2 ^ 63) ≤ x) (h1 : x < 2 ^ 63) : wrapInt x = x := by
  unfold wrapInt
  omega

theorem LockOp.exec_inv (op : LockOp) (r : NoLock) (n : Int) (hn : n + 1 < 2 ^ 63)
    (h : (r.locked = true → r.rlocks = 0) ∧ 0 ≤ r.rlocks ∧ r.rlocks ≤ n) :
    ((op.exec r).state.locked = true → (op.exec r).state.rlocks = 0) ∧
    0 ≤ (op.exec r).state.rlocks ∧ (op.exec r).state.rlocks ≤ n + 1 := by
  obtain ⟨h1, h2, h3⟩ := h
  cases op
  · simp only [LockOp.exec, NoLock.Lock]
    split_ifs with ha hb <;> dsimp only
    · exact ⟨h1, h2, by omega⟩
    · exact ⟨h1, h2, by omega⟩
    · have hz : r.rlocks = 0 := by
        by_contra hc
        exact hb hc
      exact ⟨fun _ => hz, h2, by omega⟩
  · simp only [LockOp.exec, NoLock.Unlock]
    split_ifs with ha <;> dsimp only
    · exact ⟨h1, h2, by omega⟩
    · exact ⟨fun hx => by simp at hx, h2, by omega⟩
  · simp only [LockOp.exec, NoLock.RLock]
    split_ifs with ha <;> dsimp only
    · exact ⟨h1, h2, by omega⟩
    · rw [wrapInt_small _ (by omega) (by omega)]
      exact ⟨fun hx => absurd hx ha, by omega, by omega⟩
  · simp only [LockOp.exec, NoLock.RUnlock]
    split_ifs with ha <;> dsimp only
    · exact ⟨h1, h2, by omega⟩
    · rw [wrapInt_small _ (by omega) (by omega)]
      refine ⟨fun hx => ?_, by omega, by omega⟩
      have := h1 hx
      omega

theorem runLockOps_inv (ops : List LockOp) (r : NoLock) (n : Int)
    (hn : n + ops.length < 2 ^ 63)
    (h : (r.locked = true → r.rlocks = 0) ∧ 0 ≤ r.rlocks ∧ r.rlocks ≤ n) :
    ((runLockOps ops r).locked = true → (runLockOps ops r).rlocks = 0) ∧
    0 ≤ (runLockOps ops r).rlocks := by
  induction ops generalizing r n with
  | nil => exact ⟨h.1, h.2.1⟩
  | cons op ops ih =>
    unfold runLockOps
    simp only [List.length_cons, Nat.cast_add, Nat.cast_one] at hn
    exact ih (op.exec r).state (n + 1) (by omega) (LockOp.exec_inv op r n (by omega) h)

/-- Claim C16: in every state of a `NoLock`, `Lock` panics exactly when the
lock is locked or has outstanding read locks, `Unlock` exactly when it is not
locked, `RLock` exactly when it is locked, and `RUnlock` exactly when the
read-lock count is not positive; a panicking call leaves the state unchanged;
and in every state reached from the zero value by fewer than 2^63 calls (so
that the counter, a Go `int`, cannot overflow) the lock is not both locked and
read-locked and the read-lock count is not negative. -/
theorem C16_NoLock_detects_misuse (r : NoLock) :
    ((r.Lock).panicked = true ↔ (r.locked = true ∨ r.rlocks ≠ 0)) ∧
    ((r.Unlock).panicked = true ↔ r.locked = false) ∧
    ((r.RLock).panicked = true ↔ r.locked = true) ∧
    ((r.RUnlock).panicked = true ↔ r.rlocks ≤ 0) ∧
    (∀ op : LockOp, (op.exec r).panicked = true → (op.exec r).state = r) ∧
    (∀ ops : List LockOp, (ops.length : Int) < 2 ^ 63 →
      ¬ ((runLockOps ops NoLock.zero).locked = true ∧ (runLockOps ops NoLock.zero).rlocks ≠ 0) ∧
      0 ≤ (runLockOps ops NoLock.zero).rlocks) := by
  refine ⟨?_, ?_, ?_, ?_, ?_, ?_⟩
  · unfold NoLock.Lock
    split_ifs with ha hb <;> simp [ha]
    · exact hb
    · by_contra hc
      exact hb hc
  · unfold NoLock.Unlock
    split_ifs with ha <;> simp [ha]
  · unfold NoLock.RLock
    split_ifs with ha <;> simp [ha]
  · unfold NoLock.RUnlock
    split_ifs with ha <;> simp [ha]
  · intro op
    cases op
    · simp only [LockOp.exec, NoLock.Lock]
      split_ifs <;> simp
    · simp only [LockOp.exec, NoLock.Unlock]
      split_ifs <;> simp
    · simp only [LockOp.exec, NoLock.RLock]
      split_ifs <;> simp
    · simp only [LockOp.exec, NoLock.RUnlock]
      split_ifs <;> simp
  · intro ops hlen
    have h := runLockOps_inv ops NoLock.zero 0 (by omega)
      ⟨fun _ => rfl, le_refl _, le_refl _⟩
    exact ⟨fun hx => hx.2 (h.1 hx.1), h.2⟩

/-- Claim C16, a concrete instance: after `RLock`, `RUnlock`, `Lock` on the
zero value the lock is locked with no read lock, and a further `Lock`
panics. -/
theorem C16_NoLock_detects_misuse_witness :
    ((3 : Nat) : Int) < 2 ^ 63 ∧
    (¬ ((runLockOps [LockOp.RLock, LockOp.RUnlock, LockOp.Lock] NoLock.zero).locked = true ∧
        (runLockOps [LockOp.RLock, LockOp.RUnlock, LockOp.Lock] NoLock.zero).rlocks ≠ 0) ∧
      0 ≤ (runLockOps [LockOp.RLock, LockOp.RUnlock, LockOp.Lock] NoLock.zero).rlocks) ∧
    ((runLockOps [LockOp.RLock, LockOp.RUnlock, LockOp.Lock] NoLock.zero).Lock).panicked = true ∧
    (LockOp.exec LockOp.Unlock NoLock.zero).state = NoLock.zero :=
  ⟨by decide,
   (C16_NoLock_detects_misuse NoLock.zero).2.2.2.2.2
     [LockOp.RLock, LockOp.RUnlock, LockOp.Lock] (by decide),
   by decide,
   (C16_NoLock_detects_misuse NoLock.zero).2.2.2.2.1 LockOp.Unlock (by decide)⟩

/-! ## C15: the simulator with a `NoLock` refines the simulator without lock -/

theorem LockedSim.Now_zero (w : World U) (tr : List NoLock) :
    LockedSim.Now { world := w, usageLock := NoLock.zero, atRun := tr } =
      Ended.returned ({ world := w, usageLock := NoLock.zero, atRun := tr }, Chrono.Now w) := rfl

theorem LockedSim.AfterFunc_zero (w : World U) (tr : List NoLock) (d : Int) (f : Int → Prog U) :
    LockedSim.AfterFunc { world := w, usageLock := NoLock.zero, atRun := tr } d f =
      Ended.returned ({ world := (Chrono.AfterFunc w d f).1, usageLock := NoLock.zero, atRun := tr },
        (Chrono.AfterFunc w d f).2) := rfl

theorem LockedSim.UntilFunc_zero (w : World U) (tr : List NoLock) (t : Int) (f : Int → Prog U) :
    LockedSim.UntilFunc { world := w, usageLock := NoLock.zero, atRun := tr } t f =
      Ended.returned ({ world := (Chrono.UntilFunc w t f).1, usageLock := NoLock.zero, atRun := tr },
        (Chrono.UntilFunc w t f).2) := rfl

theorem LockedSim.EveryFunc_zero (w : World U) (tr : List NoLock) (d : Int) (f : Int → Prog U) :
    LockedSim.EveryFunc { world := w, usageLock := NoLock.zero, atRun := tr } d f =
      Ended.returned ({ world := (Chrono.EveryFunc w d f).1, usageLock := NoLock.zero, atRun := tr },
        (Chrono.EveryFunc w d f).2) := rfl

theorem LockedSim.removeTask_zero (w : World U) (tr : List NoLock) (h : Nat) :
    LockedSim.removeTask { world := w, usageLock := NoLock.zero, atRun := tr } h =
      Ended.returned ({ world := (Chrono.removeTask w h).1, usageLock := NoLock.zero, atRun := tr },
        (Chrono.removeTask w h).2) := rfl

theorem LockedSim.resetTask_zero (w : World U) (tr : List NoLock) (h : Nat) (d : Int) :
    LockedSim.resetTask { world := w, usageLock := NoLock.zero, atRun := tr } h d =
      Ended.returned ({ world := (Chrono.resetTask w h d).1, usageLock := NoLock.zero, atRun := tr },
        (Chrono.resetTask w h d).2) := rfl

theorem Prog.runLocked_zero (p : Prog U) (w : World U) (tr : List NoLock) :
    p.runLocked { world := w, usageLock := NoLock.zero, atRun := tr } =
      Ended.returned ({ world := (p.run w).1, usageLock := NoLock.zero, atRun := tr }, (p.run w).2) := by
  induction p generalizing w with
  | ret b => rfl
  | now k ih =>
    unfold Prog.runLocked Prog.run
    rw [LockedSim.Now_zero]
    exact ih _ w
  | afterFunc d f k _ ih =>
    unfold Prog.runLocked Prog.run
    rw [LockedSim.AfterFunc_zero]
    exact ih _ _
  | untilFunc t f k _ ih =>
    unfold Prog.runLocked Prog.run
    rw [LockedSim.UntilFunc_zero]
    exact ih _ _
  | everyFunc d f k _ ih =>
    unfold Prog.runLocked Prog.run
    rw [LockedSim.EveryFunc_zero]
    exact ih _ _
  | stop h k ih =>
    unfold Prog.runLocked Prog.run
    simp only
    split_ifs
    · rw [LockedSim.removeTask_zero]
      exact ih _ _
    · exact ih _ _
  | reset h d k ih =>
    unfold Prog.runLocked Prog.run
    simp only
    split_ifs
    · rw [LockedSim.resetTask_zero]
      exact ih _ _
    · exact ih _ _
  | load k ih =>
    unfold Prog.runLocked Prog.run
    exact ih _ _
  | store u k ih =>
    unfold Prog.runLocked Prog.run
    exact ih _
  | cancel c k ih =>
    unfold Prog.runLocked Prog.run
    exact ih _

theorem LockedSim.Run_zero (w : World U) (tr : List NoLock) (t : Nat) (now : Int) :
    LockedSim.Run { world := w, usageLock := NoLock.zero, atRun := tr } t now =
      Ended.returned
        ({ world := (Task.Run w t now).1, usageLock := NoLock.zero, atRun := tr ++ [NoLock.zero] },
          (Task.Run w t now).2) := by
  unfold LockedSim.Run Task.Run
  simp only
  cases (w.tasks t).Action with
  | simTimer action =>
    simp only
    rw [Prog.runLocked_zero]
    rfl
  | simTicker period action =>
    simp only
    rw [Prog.runLocked_zero]
    simp only [Ended.bind]
    split_ifs <;> rfl

theorem LockedSim.processNextTask_held (w : World U) (tr : List NoLock)
    (hne : w.taskQueue ≠ []) :
    LockedSim.processNextTask
        { world := w, usageLock := { locked := true, rlocks := 0 }, atRun := tr } false =
      Ended.returned
        ({ world := (Chrono.processNextTask w).1, usageLock := NoLock.zero,
           atRun := tr ++ [NoLock.zero] }, (Chrono.processNextTask w).2) := by
  obtain ⟨root, hroot, hpop, _⟩ := PopTask_spec w hne
  unfold LockedSim.processNextTask Chrono.processNextTask
  simp only
  rw [PopTask_some w hne root hroot]
  simp only
  have hun : ∀ (x : World U),
      LockedSim.Unlock { world := x, usageLock := { locked := true, rlocks := 0 }, atRun := tr } =
        Ended.returned { world := x, usageLock := NoLock.zero, atRun := tr } := fun _ => rfl
  rw [hun]
  simp only [Ended.bind]
  rw [LockedSim.Run_zero]
  simp only
  cases (Task.Run (setNow (taskQueue.PopTask w).1
      (((taskQueue.PopTask w).1).tasks root).Deadline).1 root
      (setNow (taskQueue.PopTask w).1 (((taskQueue.PopTask w).1).tasks root).Deadline).2.1).2 with
  | none => rfl
  | some followingTask => rfl

theorem LockedSim.AdvanceIfBefore_zero (w : World U) (tr : List NoLock) (b : Int) :
    LockedSim.AdvanceIfBefore { world := w, usageLock := NoLock.zero, atRun := tr } b =
      Ended.returned
        ({ world := (Chrono.AdvanceIfBefore w b).world, usageLock := NoLock.zero,
           atRun := tr ++ (if (Chrono.AdvanceIfBefore w b).hadTasks = true then [NoLock.zero] else []) },
          (Chrono.AdvanceIfBefore w b).newNow, (Chrono.AdvanceIfBefore w b).leap,
          (Chrono.AdvanceIfBefore w b).hadTasks) := by
  have hlock : LockedSim.Lock { world := w, usageLock := NoLock.zero, atRun := tr } =
      Ended.returned { world := w, usageLock := { locked := true, rlocks := 0 }, atRun := tr } := rfl
  unfold LockedSim.AdvanceIfBefore Chrono.AdvanceIfBefore
  rw [hlock]
  simp only [Ended.bind]
  by_cases hq : w.taskQueue = []
  · have hh : taskQueue.HasTasks w = false := by simp [taskQueue.HasTasks, hq]
    rw [if_pos hh, if_pos hh]
    simp [LockedSim.Unlock, NoLock.Unlock, Ended.bind, NoLock.zero]
  · have hh : ¬ taskQueue.HasTasks w = false := by
      simp [taskQueue.HasTasks, hq]
    rw [if_neg hh, if_neg hh]
    obtain ⟨root, hroot, _⟩ := PopTask_spec w hq
    simp only [taskQueue.PeekTask, hroot]
    have hun : LockedSim.Unlock
        { world := w, usageLock := { locked := true, rlocks := 0 }, atRun := tr } =
          Ended.returned { world := w, usageLock := NoLock.zero, atRun := tr } := rfl
    by_cases hc : Time.IsZero b = false ∧ Time.Before (w.tasks root).Deadline b = false
    · simp only [if_pos hc]
      rw [hun]
      simp
    · simp only [if_neg hc]
      rw [LockedSim.processNextTask_held w tr hq]
      simp

theorem GoodQueue_frame (w w1 : World U) (hq : w1.taskQueue = w.taskQueue)
    (ht : w1.tasks = w.tasks) (hn : w1.nextId = w.nextId) (hw : GoodQueue w) : GoodQueue w1 := by
  obtain ⟨hh, hl, hm⟩ := hw
  refine ⟨HeapOrd_congr w w1 hq (fun t => by rw [ht]) hh, ?_, ?_⟩
  · intro h
    exact Linked_congr w w1 h hq (by rw [ht]) (hl h)
  · intro t htq
    rw [hq] at htq
    rw [hn]
    exact hm t htq

theorem Advance_afterFunc (w : World U) (root : Nat) (hroot : w.taskQueue[0]? = some root)
    (g : Int → Prog U) (d : Int) (f : Int → Prog U) (b : Bool)
    (hact : (w.tasks root).Action = Action.simTimer g)
    (hg : ∀ now, g now = Prog.afterFunc d f fun _ => Prog.ret b) :
    (Advance w).hadTasks = true ∧
    (Advance w).world =
      (AfterFunc
        { (taskQueue.PopTask w).1 with
          now := max w.now (w.tasks root).Deadline
          fired := w.fired ++
            [{ task := root, deadline := (w.tasks root).Deadline,
               now := max w.now (w.tasks root).Deadline }] } d f).1 := by
  have hne : w.taskQueue ≠ [] := by
    intro h
    rw [h] at hroot
    simp at hroot
  have hs := PopTask_step w
  unfold Advance
  rw [AdvanceIfBefore_fires w 0 root hroot (Or.inl rfl), processNextTask_eq w hne root hroot]
  refine ⟨rfl, ?_⟩
  have hact1 : ((beforeRun w root).tasks root).Action = Action.simTimer g := by
    show ((taskQueue.PopTask w).1.tasks root).Action = _
    rw [(hs.2.2.2.2.2 root).2, hact]
  have hd1 : ((beforeRun w root).tasks root).Deadline = (w.tasks root).Deadline :=
    (hs.2.2.2.2.2 root).1
  unfold Task.Run
  simp only [hact1, hd1, hg, Prog.run]
  simp only [beforeRun, hs.2.2.2.2.1]

theorem eventually_runs (m : Nat) (w : World U) (n : Nat) (hlen : w.taskQueue.length = m + 1)
    (hg : GoodQueue w) (hn : n ∈ w.taskQueue)
    (hq : ∀ t ∈ w.taskQueue, t ≠ n →
      ∃ f, (w.tasks t).Action = Action.simTimer f ∧ ∀ now, (f now).Quiet) :
    ∃ k, k < w.taskQueue.length ∧ ∃ now1,
      (advances (k + 1) w).fired =
        (advances k w).fired ++ [{ task := n, deadline := (w.tasks n).Deadline, now := now1 }] := by
  induction m generalizing w with
  | zero =>
    obtain ⟨a, ha⟩ := List.length_eq_one.1 hlen
    rw [ha] at hn
    simp only [List.mem_singleton] at hn
    subst hn
    have hroot : w.taskQueue[0]? = some n := by rw [ha]; rfl
    refine ⟨0, by omega, max w.now (w.tasks n).Deadline, ?_⟩
    show (Advance w).world.fired = _
    unfold Advance
    rw [AdvanceIfBefore_fires w 0 n hroot (Or.inl rfl)]
    exact processNextTask_fired w n hroot
  | succ m ih =>
    have hne : w.taskQueue ≠ [] := by
      intro e
      rw [e] at hlen
      simp at hlen
    obtain ⟨root, hroot, hres, hperm, hlen1, _⟩ := PopTask_spec w hne
    by_cases hrn : root = n
    · subst hrn
      refine ⟨0, by omega, max w.now (w.tasks root).Deadline, ?_⟩
      show (Advance w).world.fired = _
      unfold Advance
      rw [AdvanceIfBefore_fires w 0 root hroot (Or.inl rfl)]
      exact processNextTask_fired w root hroot
    · obtain ⟨f, hact, hquiet⟩ := hq root (mem_of_getElem?_eq_some hroot) hrn
      obtain ⟨_, u, hw1⟩ := Advance_quiet_timer w root hroot f hact hquiet
      have hs := PopTask_step w
      have hgood1 : GoodQueue (Advance w).world := by
        rw [hw1]
        exact GoodQueue_frame (taskQueue.PopTask w).1 _ rfl rfl rfl (Good_PopTask w hg)
      have hq1 : (Advance w).world.taskQueue = (taskQueue.PopTask w).1.taskQueue := by rw [hw1]
      have ht1 : (Advance w).world.tasks = (taskQueue.PopTask w).1.tasks := by rw [hw1]
      have hn1 : n ∈ (Advance w).world.taskQueue := by
        rw [hq1]
        have := hperm.mem_iff.2 hn
        rcases List.mem_cons.1 this with e | e
        · exact absurd e.symm hrn
        · exact e
      obtain ⟨k, hk, now1, hfire⟩ := ih (Advance w).world (by rw [hq1]; omega) hgood1 hn1
        (by
          intro t ht hne1
          rw [hq1] at ht
          obtain ⟨f1, hf1, hf2⟩ := hq t (heapPop_subset w t ht) hne1
          exact ⟨f1, by rw [ht1, (hs.2.2.2.2.2 t).2, hf1], hf2⟩)
      refine ⟨k + 1, by rw [hq1] at hk; omega, now1, ?_⟩
      have hd : ((Advance w).world.tasks n).Deadline = (w.tasks n).Deadline := by
        rw [ht1]
        exact (hs.2.2.2.2.2 n).1
      rw [hd] at hfire
      exact hfire

theorem Advance_afterFunc_spec (w : World U) (root : Nat) (hroot : w.taskQueue[0]? = some root)
    (g : Int → Prog U) (d : Int) (f : Int → Prog U) (b : Bool) (hgood : GoodQueue w)
    (hact : (w.tasks root).Action = Action.simTimer g)
    (hg : ∀ now, g now = Prog.afterFunc d f fun _ => Prog.ret b) :
    GoodQueue (Advance w).world ∧
    (Advance w).world.now = max w.now (w.tasks root).Deadline ∧
    ((Advance w).world.tasks w.nextId).Deadline = max w.now (w.tasks root).Deadline + d ∧
    ((Advance w).world.tasks w.nextId).Action = Action.simTimer f ∧
    w.nextId ∈ (Advance w).world.taskQueue ∧
    (∀ t ∈ (Advance w).world.taskQueue, t ≠ w.nextId →
      t ∈ w.taskQueue ∧ t ≠ root ∧
      ((Advance w).world.tasks t).Deadline = (w.tasks t).Deadline ∧
      ((Advance w).world.tasks t).Action = (w.tasks t).Action) := by
  have hne : w.taskQueue ≠ [] := by
    intro h
    rw [h] at hroot
    simp at hroot
  obtain ⟨r, hr0, hres, hperm, _, _⟩ := PopTask_spec w hne
  rw [hroot] at hr0
  cases hr0
  have hs := PopTask_step w
  obtain ⟨_, hw1⟩ := Advance_afterFunc w root hroot g d f b hact hg
  generalize hW0 : ({ (taskQueue.PopTask w).1 with
      now := max w.now (w.tasks root).Deadline
      fired := w.fired ++
        [{ task := root, deadline := (w.tasks root).Deadline,
           now := max w.now (w.tasks root).Deadline }] } : World U) = W0 at hw1
  have hq0 : W0.taskQueue = (taskQueue.PopTask w).1.taskQueue := by rw [← hW0]
  have ht0 : W0.tasks = (taskQueue.PopTask w).1.tasks := by rw [← hW0]
  have hn0 : W0.nextId = w.nextId := by rw [← hW0]; exact hs.2.1
  have hnow0 : W0.now = max w.now (w.tasks root).Deadline := by rw [← hW0]
  have hg0 : GoodQueue W0 := by
    rw [← hW0]
    exact GoodQueue_frame (taskQueue.PopTask w).1 _ rfl rfl rfl (Good_PopTask w hgood)
  have hstep := PushTask_step
    (W0.alloc (newTask (Time.Add W0.now d) (Action.simTimer f))).1 W0.nextId
  have hpp := PushTask_perm
    (W0.alloc (newTask (Time.Add W0.now d) (Action.simTimer f))).1 W0.nextId
  have hw1q : (Advance w).world =
      taskQueue.PushTask (W0.alloc (newTask (Time.Add W0.now d) (Action.simTimer f))).1
        W0.nextId := by rw [hw1]; rfl
  have hcount : w.taskQueue.count root = 1 := by
    rcases hgood.2.1 root with ⟨_, hnot⟩ | ⟨_, hc⟩
    · exact absurd (mem_of_getElem?_eq_some hroot) hnot
    · exact hc
  have hrootout : root ∉ (taskQueue.PopTask w).1.taskQueue := by
    intro hin
    have h1 := hperm.count_eq root
    rw [hcount, List.count_cons_self] at h1
    have := List.count_pos_iff.2 hin
    omega
  refine ⟨?_, ?_, ?_, ?_, ?_, ?_⟩
  · rw [hw1q]
    exact Good_alloc_push W0 _ rfl hg0
  · rw [hw1q, hstep.1]
    exact hnow0
  · rw [hw1q, (hstep.2.2.2.2.2 w.nextId).1]
    show (Function.update W0.tasks W0.nextId _ w.nextId).Deadline = _
    rw [hn0, Function.update_same]
    show W0.now + d = _
    rw [hnow0]
  · rw [hw1q, (hstep.2.2.2.2.2 w.nextId).2]
    show (Function.update W0.tasks W0.nextId _ w.nextId).Action = _
    rw [hn0, Function.update_same]
    rfl
  · rw [hw1q, hpp.mem_iff, ← hn0]
    exact List.mem_cons_self _ _
  · intro t ht hne1
    rw [hw1q, hpp.mem_iff] at ht
    have htq : t ∈ (taskQueue.PopTask w).1.taskQueue := by
      rcases List.mem_cons.1 ht with e | e
      · rw [hn0] at e
        exact absurd e hne1
      · rw [← hq0]
        exact e
    have hupd : (W0.alloc (newTask (Time.Add W0.now d) (Action.simTimer f))).1.tasks t
        = (taskQueue.PopTask w).1.tasks t := by
      show Function.update W0.tasks W0.nextId _ t = _
      rw [hn0, Function.update_noteq hne1, ht0]
    refine ⟨heapPop_subset w t htq, fun e => hrootout (e ▸ htq), ?_, ?_⟩
    · rw [hw1q, (hstep.2.2.2.2.2 t).1, hupd]
      exact (hs.2.2.2.2.2 t).1
    · rw [hw1q, (hstep.2.2.2.2.2 t).2, hupd]
      exact (hs.2.2.2.2.2 t).2

/-- Claim C15 (reentrant scheduling).  On a simulator built with a `NoLock`,
in any state `w` and whatever the calls the task actions make on the
simulator (`AfterFunc`, `EveryFunc`, `UntilFunc`, `Now`, `Stop`, `Reset`),
`Advance` returns without a panic, with the results and the state of the
simulator without lock, the lock is released when it returns, and the action
was run with the lock neither locked nor read-locked.  When the earliest task's
action calls `AfterFunc(d, f)`, the task it schedules (the new pointer
`w.nextId`) is afterwards in the queue exactly once, due `d` after the time of
the action; the next `Advance` runs it when every other pending task is due
later, and some subsequent `Advance` runs it when the other pending tasks are
one-shot tasks that call nothing. -/
theorem C15_reentrant_scheduling (w : World U) :
    (∃ s1, (LockedSim.new w).Advance =
        Ended.returned (s1, (Advance w).newNow, (Advance w).leap, (Advance w).hadTasks) ∧
      s1.world = (Advance w).world ∧ s1.usageLock = NoLock.zero ∧
      (∀ l ∈ s1.atRun, l.locked = false ∧ l.rlocks = 0) ∧
      s1.atRun.length = (if (Advance w).hadTasks = true then 1 else 0)) ∧
    (∀ (root : Nat) (g : Int → Prog U) (d : Int) (f : Int → Prog U) (b : Bool),
      GoodQueue w → w.taskQueue[0]? = some root →
      (w.tasks root).Action = Action.simTimer g →
      (∀ now, g now = Prog.afterFunc d f fun _ => Prog.ret b) →
      (Advance w).world.taskQueue.count w.nextId = 1 ∧
      ((Advance w).world.tasks w.nextId).IsPending = true ∧
      ((Advance w).world.tasks w.nextId).Deadline = max w.now (w.tasks root).Deadline + d ∧
      ((Advance w).world.tasks w.nextId).Action = Action.simTimer f ∧
      ((∀ t ∈ w.taskQueue, t ≠ root →
          max w.now (w.tasks root).Deadline + d < (w.tasks t).Deadline) →
        (Advance (Advance w).world).world.fired =
          (Advance w).world.fired ++
            [{ task := w.nextId, deadline := max w.now (w.tasks root).Deadline + d,
               now := max (max w.now (w.tasks root).Deadline)
                 (max w.now (w.tasks root).Deadline + d) }]) ∧
      ((∀ t ∈ w.taskQueue, t ≠ root →
          ∃ f1, (w.tasks t).Action = Action.simTimer f1 ∧ ∀ now, (f1 now).Quiet) →
        ∃ k, k < (Advance w).world.taskQueue.length ∧ ∃ now1,
          (advances (k + 1) (Advance w).world).fired =
            (advances k (Advance w).world).fired ++
              [{ task := w.nextId, deadline := max w.now (w.tasks root).Deadline + d,
                 now := now1 }])) := by
  constructor
  · refine ⟨_, LockedSim.AdvanceIfBefore_zero w [] 0, rfl, rfl, ?_, ?_⟩
    · intro l hl
      simp only [List.nil_append] at hl
      split_ifs at hl
      · simp only [List.mem_singleton] at hl
        rw [hl]
        exact ⟨rfl, rfl⟩
      · exact absurd hl (List.not_mem_nil l)
    · show ([] ++ (if (AdvanceIfBefore w 0).hadTasks = true then [NoLock.zero] else [])).length
        = if (Advance w).hadTasks = true then 1 else 0
      unfold Advance
      split_ifs <;> rfl
  · intro root g d f b hgood hroot hact hg
    obtain ⟨hg1, hnow1, hdl, hac, hmem, hothers⟩ :=
      Advance_afterFunc_spec w root hroot g d f b hgood hact hg
    have hlinked : IdxAt (Advance w).world w.nextId ∧
        (Advance w).world.taskQueue.count w.nextId = 1 := by
      rcases hg1.2.1 w.nextId with ⟨_, hnot⟩ | h
      · exact absurd hmem hnot
      · exact h
    refine ⟨hlinked.2, ?_, hdl, hac, ?_, ?_⟩
    · obtain ⟨i, hi, _⟩ := hlinked.1
      unfold Task.IsPending
      rw [hi]
      simp only [ne_eq, decide_eq_true_eq]
      omega
    · intro hlate
      have hne1 : (Advance w).world.taskQueue ≠ [] := fun e => by
        rw [e] at hmem
        exact absurd hmem (List.not_mem_nil _)
      obtain ⟨r1, hr1, _⟩ := PopTask_spec (Advance w).world hne1
      have hr1n : r1 = w.nextId := by
        by_contra hne2
        obtain ⟨h1, h2, h3, _⟩ := hothers r1 (mem_of_getElem?_eq_some hr1) hne2
        have h4 := heap_root_min (Advance w).world hg1.1 r1 w.nextId hr1 hmem
        have h5 := hlate r1 h1 h2
        rw [h3, hdl] at h4
        omega
      subst hr1n
      have hfire := processNextTask_fired (Advance w).world _ hr1
      rw [hdl, hnow1] at hfire
      show (AdvanceIfBefore (Advance w).world 0).world.fired = _
      rw [AdvanceIfBefore_fires (Advance w).world 0 _ hr1 (Or.inl rfl)]
      exact hfire
    · intro hquiet
      have hlen : ∃ m, (Advance w).world.taskQueue.length = m + 1 := by
        have := List.length_pos_of_mem hmem
        exact ⟨(Advance w).world.taskQueue.length - 1, by omega⟩
      obtain ⟨m, hm⟩ := hlen
      obtain ⟨k, hk, now1, hfire⟩ := eventually_runs m (Advance w).world w.nextId hm hg1 hmem
        (by
          intro t ht hne2
          obtain ⟨h1, h2, _, h4⟩ := hothers t ht hne2
          obtain ⟨f1, hf1, hf2⟩ := hquiet t h1 h2
          exact ⟨f1, by rw [h4, hf1], hf2⟩)
      rw [hdl] at hfire
      exact ⟨k, hk, now1, hfire⟩

/-- Claim C15, a concrete instance: a simulator whose only task, due at 10,
calls `AfterFunc(5, ...)` from its action.  `Advance` returns with the lock
released, the new task (pointer 1) is queued once, and the second `Advance`
runs it at time 15. -/
theorem C15_reentrant_scheduling_witness :
    GoodQueue demoReentrant ∧ demoReentrant.taskQueue[0]? = some 0 ∧ demoReentrant.nextId = 1 ∧
    (∃ s1, (LockedSim.new demoReentrant).Advance =
        Ended.returned (s1, (Advance demoReentrant).newNow, (Advance demoReentrant).leap,
          (Advance demoReentrant).hadTasks) ∧
      s1.world = (Advance demoReentrant).world ∧ s1.usageLock = NoLock.zero ∧
      (∀ l ∈ s1.atRun, l.locked = false ∧ l.rlocks = 0) ∧
      s1.atRun.length = (if (Advance demoReentrant).hadTasks = true then 1 else 0)) ∧
    (Advance demoReentrant).world.taskQueue.count demoReentrant.nextId = 1 ∧
    (Advance (Advance demoReentrant).world).world.fired =
      (Advance demoReentrant).world.fired ++
        [{ task := demoReentrant.nextId,
           deadline := max demoReentrant.now (demoReentrant.tasks 0).Deadline + 5,
           now := max (max demoReentrant.now (demoReentrant.tasks 0).Deadline)
             (max demoReentrant.now (demoReentrant.tasks 0).Deadline + 5) }] :=
  ⟨Good_alloc_push _ _ rfl (SafeWorld_new 0 ()).1, rfl, rfl,
   (C15_reentrant_scheduling demoReentrant).1,
   ((C15_reentrant_scheduling demoReentrant).2 0 _ 5 (fun _ => Prog.ret false) false
      (Good_alloc_push _ _ rfl (SafeWorld_new 0 ()).1) rfl rfl (fun _ => rfl)).1,
   ((C15_reentrant_scheduling demoReentrant).2 0 _ 5 (fun _ => Prog.ret false) false
      (Good_alloc_push _ _ rfl (SafeWorld_new 0 ()).1) rfl rfl (fun _ => rfl)).2.2.2.2.1
      (fun t ht hne => by
        have hq : demoReentrant.taskQueue = [0] := rfl
        rw [hq] at ht
        simp only [List.mem_singleton] at ht
        exact absurd ht hne)⟩

/-! ## `Approach` -/

/-- With a non-empty queue, whose first slot holds `root`,
`Approach` returns `hasTasks = true`, sets the current time to the later of the
current time and the deadline of `root` and returns it as the new time (so it
is that deadline exactly when the deadline is not before the current time),
returns the saturated difference as the elapsed value, runs no action and
leaves the queue and the tasks unchanged; in a heap-ordered queue `root` is the
earliest pending task.  With an empty queue it returns (current time, 0,
false) and changes nothing. -/
theorem Approach_spec (w : World U) :
    (w.taskQueue = [] → Approach w = ⟨w, w.now, 0, false⟩) ∧
    (∀ root, w.taskQueue[0]? = some root →
      (Approach w).hadTasks = true ∧
      (Approach w).newNow = max w.now (w.tasks root).Deadline ∧
      (Approach w).leap = Time.Sub (w.tasks root).Deadline w.now ∧
      (Approach w).world = { w with now := max w.now (w.tasks root).Deadline } ∧
      ((Approach w).newNow = (w.tasks root).Deadline ↔ w.now ≤ (w.tasks root).Deadline) ∧
      (HeapOrd w → ∀ t ∈ w.taskQueue, (w.tasks root).Deadline ≤ (w.tasks t).Deadline)) := by
  constructor
  · intro hq
    unfold Approach
    simp [taskQueue.HasTasks, hq]
  · intro root hroot
    have hne : w.taskQueue ≠ [] := by
      intro e
      rw [e] at hroot
      simp at hroot
    have hh : ¬ taskQueue.HasTasks w = false := by simp [taskQueue.HasTasks, hne]
    have hA : Approach w = ⟨(setNow w (w.tasks root).Deadline).1,
        (setNow w (w.tasks root).Deadline).2.1, (setNow w (w.tasks root).Deadline).2.2, true⟩ := by
      unfold Approach
      rw [if_neg hh]
      simp only [taskQueue.PeekTask, hroot]
    rw [hA]
    refine ⟨rfl, ?_, ?_, ?_, ?_, ?_⟩
    · show (setNow w (w.tasks root).Deadline).2.1 = _
      rw [setNow_snd]
    · show (setNow w (w.tasks root).Deadline).2.2 = _
      rw [setNow_snd]
    · exact setNow_fst w _
    · show (setNow w (w.tasks root).Deadline).2.1 = _ ↔ _
      rw [setNow_snd]
      exact max_eq_right_iff
    · intro hheap t ht
      exact heap_root_min w hheap root t hroot ht

/-- A concrete instance: three requests made at time 0 with
deadlines 30, 10 and 20; `Approach` moves the time to 10, the earliest
deadline, and runs nothing. -/
theorem Approach_spec_witness :
    (scheduleAll demoReqs (NewSimulator 0 ())).taskQueue[0]? = some 1 ∧
    (Approach (scheduleAll demoReqs (NewSimulator 0 ()))).newNow = 10 ∧
    (Approach (scheduleAll demoReqs (NewSimulator 0 ()))).world.fired = [] ∧
    ∀ t ∈ (scheduleAll demoReqs (NewSimulator 0 ())).taskQueue,
      ((scheduleAll demoReqs (NewSimulator 0 ())).tasks 1).Deadline
        ≤ ((scheduleAll demoReqs (NewSimulator 0 ())).tasks t).Deadline :=
  ⟨rfl,
   ((Approach_spec (scheduleAll demoReqs (NewSimulator 0 ()))).2 1 rfl).2.1,
   by rw [((Approach_spec (scheduleAll demoReqs (NewSimulator 0 ()))).2 1 rfl).2.2.2.1]; rfl,
   ((Approach_spec (scheduleAll demoReqs (NewSimulator 0 ()))).2 1 rfl).2.2.2.2.2
     (Scheduled_all demoReqs _ 0 [] (Scheduled_new 0 ())).1⟩

/-! ## C18 and C20: where the index of a task and the queue part ways -/

/-- Claim C18, evaluated at a failing input: after `AfterFunc` on a new
simulator, `PopAllTasks` returns the pending task and leaves the queue empty,
but the task it returned still reports `IsPending() == true` although it is not
in the queue.  A timer scheduled afterwards takes slot 0, and `Stop` on the
handle of the first task then returns true and removes the second task. -/
theorem C18_PopAllTasks_leaves_pending :
    demoOneTimer.taskQueue = [0] ∧
    (PopAllTasks demoOneTimer).2 = [0] ∧
    (PopAllTasks demoOneTimer).1.taskQueue = [] ∧
    ((PopAllTasks demoOneTimer).1.tasks 0).IsPending = true ∧
    0 ∉ (PopAllTasks demoOneTimer).1.taskQueue ∧
    (AfterFunc (PopAllTasks demoOneTimer).1 20 (fun _ => Prog.ret false)).1.taskQueue = [1] ∧
    (simTimer.Stop
      (AfterFunc (PopAllTasks demoOneTimer).1 20 (fun _ => Prog.ret false)).1 0).2 = true ∧
    (simTimer.Stop
      (AfterFunc (PopAllTasks demoOneTimer).1 20 (fun _ => Prog.ret false)).1 0).1.taskQueue = [] := by
  refine ⟨rfl, rfl, rfl, rfl, ?_, rfl, rfl, rfl⟩
  show (0 : Nat) ∉ ([] : List Nat)
  exact List.not_mem_nil 0

/-- Claim C20, evaluated at a failing input: a ticker of period 10 whose
predicate calls `Reset(5)` on the ticker itself and returns true, next to a
timer due at 20.  After the `Advance` that runs the ticker, the ticker's task is
in the queue twice (slots 0 and 2) with `indexInQueue = 2`, and the queue is
not a heap: the root is due at 25 and its child at 20.  The next `Advance` runs
the ticker again, at 25, before the timer due at 20. -/
theorem C20_ticker_self_Reset_queued_twice :
    demoSelfReset.taskQueue = [0, 1] ∧
    (Advance demoSelfReset).world.taskQueue = [0, 1, 0] ∧
    (Advance demoSelfReset).world.taskQueue.count 0 = 2 ∧
    ((Advance demoSelfReset).world.tasks 0).indexInQueue = 2 ∧
    ((Advance demoSelfReset).world.tasks 0).Deadline = 25 ∧
    ((Advance demoSelfReset).world.tasks 1).Deadline = 20 ∧
    ¬ HeapOrd (Advance demoSelfReset).world ∧
    (Advance (Advance demoSelfReset).world).world.fired =
      [{ task := 0, deadline := 10, now := 10 }, { task := 0, deadline := 25, now := 25 }] := by
  refine ⟨rfl, rfl, rfl, rfl, rfl, rfl, ?_, ?_⟩
  · intro h
    have h1 := h 0 1 (by decide) (Or.inl rfl)
    have h2 : (Advance demoSelfReset).world.key 0 = 25 := rfl
    have h3 : (Advance demoSelfReset).world.key 1 = 20 := rfl
    rw [h2, h3] at h1
    exact absurd h1 (by decide)
  · show (AdvanceIfBefore (Advance demoSelfReset).world 0).world.fired = _
    rw [AdvanceIfBefore_fires (Advance demoSelfReset).world 0 0 rfl (Or.inl rfl)]
    show (processNextTask (Advance demoSelfReset).world).1.fired = _
    rw [processNextTask_fired (Advance demoSelfReset).world 0 rfl]
    rfl

/-! ## C19: the queue operations keep the heap and the slot indices -/

theorem SlotIndexed_iff (w : World U) :
    SlotIndexed w ↔ ∀ h ∈ w.taskQueue, Linked w h := by
  constructor
  · intro hs
    have hnd : w.taskQueue.Nodup := by
      rw [List.nodup_iff_getElem?_ne_getElem?]
      intro i j hij hj heq
      have hjs : w.taskQueue[j]? = some w.taskQueue[j] := List.getElem?_eq_getElem hj
      have h1 := hs j _ hjs
      have h2 := hs i _ (heq.trans hjs)
      rw [h1] at h2
      omega
    intro h hm
    obtain ⟨i, hi, hget⟩ := List.getElem_of_mem hm
    have hslot : w.taskQueue[i]? = some h := by rw [List.getElem?_eq_getElem hi, hget]
    exact Or.inr ⟨⟨i, hs i h hslot, hslot⟩, List.count_eq_one_of_mem hnd hm⟩
  · intro hl i t hslot
    have hm : t ∈ w.taskQueue := mem_of_getElem?_eq_some hslot
    have hnd : w.taskQueue.Nodup := by
      rw [List.nodup_iff_count_le_one]
      intro a
      by_cases ha : a ∈ w.taskQueue
      · rcases hl a ha with ⟨_, hn⟩ | ⟨_, hc⟩
        · exact absurd ha hn
        · omega
      · rw [List.count_eq_zero_of_not_mem ha]; omega
    rcases hl t hm with ⟨_, hn⟩ | ⟨⟨j, hj, hjslot⟩, _⟩
    · exact absurd hm hn
    · obtain ⟨hi1, hi2⟩ := List.getElem?_eq_some.1 hslot
      obtain ⟨hj1, hj2⟩ := List.getElem?_eq_some.1 hjslot
      have hij : i = j := (hnd.getElem_inj_iff).1 (hi2.trans hj2.symm)
      rw [hj, hij]

theorem Push_Linked_self (w : World U) (t : Nat) (hnot : t ∉ w.taskQueue) :
    Linked (taskQueue.Push w t) t := by
  refine Or.inr ⟨⟨w.taskQueue.length, ?_, ?_⟩, ?_⟩
  · simp only [taskQueue.Push, Function.update_same]
  · simp only [taskQueue.Push, List.getElem?_concat_length]
  · simp only [taskQueue.Push, List.count_append, List.count_singleton_self,
      List.count_eq_zero_of_not_mem hnot]

theorem Push_Linked_other (w : World U) (t h : Nat) (hht : h ≠ t) (hw : Linked w h) :
    Linked (taskQueue.Push w t) h := by
  have htask : (taskQueue.Push w t).tasks h = w.tasks h := by
    simp only [taskQueue.Push, Function.update_noteq hht]
  rcases hw with ⟨hi, hn⟩ | ⟨⟨i, hi, hslot⟩, hcount⟩
  · refine Or.inl ⟨by rw [htask]; exact hi, ?_⟩
    simp only [taskQueue.Push, List.mem_append, List.mem_singleton, not_or]
    exact ⟨hn, hht⟩
  · have hil : i < w.taskQueue.length := (List.getElem?_eq_some.1 hslot).1
    refine Or.inr ⟨⟨i, by rw [htask]; exact hi, ?_⟩, ?_⟩
    · simp only [taskQueue.Push]
      rw [List.getElem?_append_left hil]
      exact hslot
    · simp only [taskQueue.Push, List.count_append]
      rw [List.count_singleton, if_neg (by simpa using Ne.symm hht)]
      exact hcount

theorem Pop_Linked (w : World U) (hq : ∀ x ∈ w.taskQueue, Linked w x) (h : Nat)
    (hw : Linked w h) : Linked (taskQueue.Pop w).1 h := by
  by_cases hnil : w.taskQueue = []
  · have : taskQueue.Pop w = (w, none) := by
      unfold taskQueue.Pop
      rw [hnil]
      rfl
    rw [this]
    exact hw
  · obtain ⟨n, hn⟩ : ∃ n, w.taskQueue.length = n + 1 :=
      ⟨w.taskQueue.length - 1, by
        have := List.length_pos.2 hnil
        omega⟩
    obtain ⟨t, ht, hres, hq1, happ⟩ := Pop_spec w n hn
    have htmem : t ∈ w.taskQueue := mem_of_getElem?_eq_some ht
    have htc : w.taskQueue.count t = 1 := by
      rcases hq t htmem with ⟨_, hnot⟩ | ⟨_, hc⟩
      · exact absurd htmem hnot
      · exact hc
    have hcount : ∀ x, w.taskQueue.count x
        = (taskQueue.Pop w).1.taskQueue.count x + if t = x then 1 else 0 := by
      intro x
      conv_lhs => rw [← happ]
      rw [List.count_append, List.count_singleton]
      simp only [beq_iff_eq]
    by_cases hht : h = t
    · subst hht
      refine Or.inl ⟨Pop_index w h hres, ?_⟩
      intro hm
      have h1 := List.count_pos_iff.2 hm
      have h2 := hcount h
      rw [if_pos rfl] at h2
      omega
    · have htask : (taskQueue.Pop w).1.tasks h = w.tasks h := by
        unfold taskQueue.Pop
        have hl : w.taskQueue.getLast? = some t := by
          rw [List.getLast?_eq_getElem?, hn, Nat.add_sub_cancel]
          exact ht
        simp only [hl, Function.update_noteq hht]
      have hc2 := hcount h
      rw [if_neg (Ne.symm hht)] at hc2
      rcases hw with ⟨hi, hnot⟩ | ⟨⟨i, hi, hslot⟩, hc⟩
      · exact Or.inl ⟨by rw [htask]; exact hi, fun hm => hnot (Pop_subset w h hm)⟩
      · have hil : i < w.taskQueue.length := (List.getElem?_eq_some.1 hslot).1
        have hin : i ≠ n := by
          intro e
          rw [e, ht] at hslot
          exact hht (Option.some.inj hslot).symm
        refine Or.inr ⟨⟨i, by rw [htask]; exact hi, ?_⟩, by omega⟩
        rw [hq1, List.getElem?_dropLast, if_pos (by omega)]
        exact hslot

theorem PushTask_Queued (w : World U) (t : Nat) (hq : ∀ x ∈ w.taskQueue, Linked w x)
    (hnot : t ∉ w.taskQueue) :
    ∀ x ∈ (taskQueue.PushTask w t).taskQueue, Linked (taskQueue.PushTask w t) x := by
  intro x hx
  have hx1 := List.mem_cons.1 ((PushTask_perm w t).mem_iff.1 hx)
  unfold taskQueue.PushTask heap.Push heap.up
  apply upLoop_Linked
  by_cases hxt : x = t
  · rw [hxt]
    exact Push_Linked_self w t hnot
  · rcases hx1 with e | e
    · exact absurd e hxt
    · exact Push_Linked_other w t x hxt (hq x e)

theorem PopTask_Queued (w : World U) (hq : ∀ x ∈ w.taskQueue, Linked w x) :
    ∀ x ∈ (taskQueue.PopTask w).1.taskQueue, Linked (taskQueue.PopTask w).1 x := by
  intro x hx
  have hx1 : x ∈ w.taskQueue := heapPop_subset w x hx
  unfold taskQueue.PopTask heap.Pop heap.down
  apply Pop_Linked
  · intro y hy
    have hy1 : y ∈ w.taskQueue :=
      (Swap_perm w _ _).mem_iff.1 ((downLoop_perm _ _ _ _).mem_iff.1 hy)
    exact downLoop_Linked _ _ _ _ y (Swap_Linked w _ _ y (hq y hy1))
  · exact downLoop_Linked _ _ _ _ x (Swap_Linked w _ _ x (hq x hx1))

theorem heapRemove_Queued (w : World U) (i : Nat) (hq : ∀ x ∈ w.taskQueue, Linked w x) :
    ∀ x ∈ (heap.Remove w i).1.taskQueue, Linked (heap.Remove w i).1 x := by
  intro x hx
  have hx1 : x ∈ w.taskQueue := heapRemove_subset w i x hx
  unfold heap.Remove heap.down heap.up
  simp only
  split_ifs
  · apply Pop_Linked
    · intro y hy
      have hy1 : y ∈ w.taskQueue :=
        (Swap_perm w _ _).mem_iff.1 ((downLoop_perm _ _ _ _).mem_iff.1
          ((upLoop_perm _ _ _).mem_iff.1 hy))
      exact upLoop_Linked _ _ _ y (downLoop_Linked _ _ _ _ y (Swap_Linked w _ _ y (hq y hy1)))
    · exact upLoop_Linked _ _ _ x (downLoop_Linked _ _ _ _ x (Swap_Linked w _ _ x (hq x hx1)))
  · apply Pop_Linked
    · intro y hy
      have hy1 : y ∈ w.taskQueue :=
        (Swap_perm w _ _).mem_iff.1 ((downLoop_perm _ _ _ _).mem_iff.1 hy)
      exact downLoop_Linked _ _ _ _ y (Swap_Linked w _ _ y (hq y hy1))
    · exact downLoop_Linked _ _ _ _ x (Swap_Linked w _ _ x (hq x hx1))
  · exact Pop_Linked w hq x (hq x hx1)

/-- Claim C19.  For a queue that is a min-heap on deadlines and in which every
contained task's `indexInQueue` equals its slot: `PushTask` of a non-pending
task, `PopTask` on a non-empty queue and `RemoveTask` of a contained task each
give a queue with both properties again, and change no deadline; `PushTask`
adds exactly the task; `PopTask` takes out exactly the task it returns, whose
deadline is not after that of any remaining task; `RemoveTask` takes out
exactly the given task and sets its index to -1; and `RemoveTask` of a
non-pending task changes nothing. -/
theorem C19_queue_operations (w : World U) (hh : HeapOrd w) (hs : SlotIndexed w) :
    (∀ t, (w.tasks t).IsPending = false →
      HeapOrd (taskQueue.PushTask w t) ∧ SlotIndexed (taskQueue.PushTask w t) ∧
      (taskQueue.PushTask w t).taskQueue.Perm (t :: w.taskQueue) ∧
      ∀ x, ((taskQueue.PushTask w t).tasks x).Deadline = (w.tasks x).Deadline) ∧
    (w.taskQueue ≠ [] →
      ∃ r, (taskQueue.PopTask w).2 = some r ∧
        HeapOrd (taskQueue.PopTask w).1 ∧ SlotIndexed (taskQueue.PopTask w).1 ∧
        (r :: (taskQueue.PopTask w).1.taskQueue).Perm w.taskQueue ∧
        (∀ x, ((taskQueue.PopTask w).1.tasks x).Deadline = (w.tasks x).Deadline) ∧
        ∀ t ∈ (taskQueue.PopTask w).1.taskQueue, (w.tasks r).Deadline ≤ (w.tasks t).Deadline) ∧
    (∀ t ∈ w.taskQueue,
      HeapOrd (taskQueue.RemoveTask w t) ∧ SlotIndexed (taskQueue.RemoveTask w t) ∧
      (t :: (taskQueue.RemoveTask w t).taskQueue).Perm w.taskQueue ∧
      ((taskQueue.RemoveTask w t).tasks t).indexInQueue = -1 ∧
      ∀ x, ((taskQueue.RemoveTask w t).tasks x).Deadline = (w.tasks x).Deadline) ∧
    (∀ t, (w.tasks t).IsPending = false → taskQueue.RemoveTask w t = w) := by
  have hq := (SlotIndexed_iff w).1 hs
  refine ⟨?_, ?_, ?_, ?_⟩
  · intro t hp
    have hidx : (w.tasks t).indexInQueue = -1 := by
      simpa [Task.IsPending] using hp
    have hnot : t ∉ w.taskQueue := by
      intro hm
      obtain ⟨i, hi, hget⟩ := List.getElem_of_mem hm
      have := hs i t (by rw [List.getElem?_eq_getElem hi, hget])
      rw [hidx] at this
      omega
    exact ⟨PushTask_heap w t hh, (SlotIndexed_iff _).2 (PushTask_Queued w t hq hnot),
      PushTask_perm w t, fun x => ((PushTask_step w t).2.2.2.2.2 x).1⟩
  · intro hne
    obtain ⟨r, hr0, hres, hperm, _, hheap⟩ := PopTask_spec w hne
    refine ⟨r, hres, hheap hh, (SlotIndexed_iff _).2 (PopTask_Queued w hq), hperm,
      fun x => ((PopTask_step w).2.2.2.2.2 x).1, ?_⟩
    intro t ht
    exact heap_root_min w hh r t hr0 (heapPop_subset w t ht)
  · intro t hm
    obtain ⟨i, hi, hget⟩ := List.getElem_of_mem hm
    have hslot : w.taskQueue[i]? = some t := by rw [List.getElem?_eq_getElem hi, hget]
    have hidx := hs i t hslot
    have hp : (w.tasks t).IsPending = true := by
      simp only [Task.IsPending, hidx, decide_eq_true_eq]
      omega
    have hR : taskQueue.RemoveTask w t = (heap.Remove w i).1 := by
      unfold taskQueue.RemoveTask
      rw [if_pos hp, hidx, Int.toNat_ofNat]
    rw [hR]
    obtain ⟨_, hperm, hindex⟩ := heapRemove_spec w i t hslot
    exact ⟨heapRemove_heap w i hi hh, (SlotIndexed_iff _).2 (heapRemove_Queued w i hq),
      (List.perm_append_singleton t _).symm.trans hperm, hindex,
      fun x => ((heapRemove_step w i).2.2.2.2.2 x).1⟩
  · intro t hp
    unfold taskQueue.RemoveTask
    rw [hp]
    simp

theorem demoTimers_good : GoodQueue demoTimers :=
  Good_alloc_push _ _ rfl (Good_alloc_push _ _ rfl (SafeWorld_new 0 ()).1)

/-- Claim C19, a concrete instance: the queue of two timers due at 10 and 5;
`PopTask` and `RemoveTask` of task 0 keep the heap and the slot indices. -/
theorem C19_queue_operations_witness :
    HeapOrd demoTimers ∧ SlotIndexed demoTimers ∧ demoTimers.taskQueue ≠ [] ∧
    0 ∈ demoTimers.taskQueue ∧
    (∃ r, (taskQueue.PopTask demoTimers).2 = some r ∧
        HeapOrd (taskQueue.PopTask demoTimers).1 ∧ SlotIndexed (taskQueue.PopTask demoTimers).1 ∧
        (r :: (taskQueue.PopTask demoTimers).1.taskQueue).Perm demoTimers.taskQueue ∧
        (∀ x, ((taskQueue.PopTask demoTimers).1.tasks x).Deadline = (demoTimers.tasks x).Deadline) ∧
        ∀ t ∈ (taskQueue.PopTask demoTimers).1.taskQueue,
          (demoTimers.tasks r).Deadline ≤ (demoTimers.tasks t).Deadline) ∧
    HeapOrd (taskQueue.RemoveTask demoTimers 0) ∧
    SlotIndexed (taskQueue.RemoveTask demoTimers 0) :=
  ⟨demoTimers_good.1,
   (SlotIndexed_iff demoTimers).2 (fun h _ => demoTimers_good.2.1 h),
   by decide, by decide,
   (C19_queue_operations demoTimers demoTimers_good.1
      ((SlotIndexed_iff demoTimers).2 (fun h _ => demoTimers_good.2.1 h))).2.1 (by decide),
   ((C19_queue_operations demoTimers demoTimers_good.1
      ((SlotIndexed_iff demoTimers).2 (fun h _ => demoTimers_good.2.1 h))).2.2.1 0 (by decide)).1,
   ((C19_queue_operations demoTimers demoTimers_good.1
      ((SlotIndexed_iff demoTimers).2 (fun h _ => demoTimers_good.2.1 h))).2.2.1 0 (by decide)).2.1⟩

/-! ## The firing times of a ticker under forward-only scheduling -/

theorem alloc_push_keeps (w : World U) (task : Task U) (t : Nat) (ht : t < w.nextId) :
    ((taskQueue.PushTask (w.alloc task).1 w.nextId).tasks t).Deadline = (w.tasks t).Deadline ∧
    ((taskQueue.PushTask (w.alloc task).1 w.nextId).tasks t).Action = (w.tasks t).Action ∧
    t < (taskQueue.PushTask (w.alloc task).1 w.nextId).nextId ∧
    (t ∈ w.taskQueue → t ∈ (taskQueue.PushTask (w.alloc task).1 w.nextId).taskQueue) := by
  have hs := PushTask_step (w.alloc task).1 w.nextId
  have hne : t ≠ w.nextId := by omega
  have hu : (w.alloc task).1.tasks t = w.tasks t := by
    show Function.update w.tasks w.nextId task t = _
    rw [Function.update_noteq hne]
  refine ⟨?_, ?_, ?_, ?_⟩
  · rw [(hs.2.2.2.2.2 t).1, hu]
  · rw [(hs.2.2.2.2.2 t).2, hu]
  · rw [hs.2.1]
    show t < w.nextId + 1
    omega
  · intro hm
    exact (PushTask_perm (w.alloc task).1 w.nextId).mem_iff.2 (List.mem_cons_of_mem _ hm)

theorem BufOK_run_keeps (p : Prog U) (hp : p.BufOK) (w : World U) (t : Nat)
    (ht : t < w.nextId) :
    ((p.run w).1.tasks t).Deadline = (w.tasks t).Deadline ∧
    ((p.run w).1.tasks t).Action = (w.tasks t).Action ∧
    t < (p.run w).1.nextId ∧
    (t ∈ w.taskQueue → t ∈ (p.run w).1.taskQueue) := by
  induction p generalizing w with
  | ret b => exact ⟨rfl, rfl, ht, fun h => h⟩
  | load k ih => exact ih _ (hp _) w ht
  | store u k ih => exact ih hp _ ht
  | afterFunc d f k _ ih =>
    obtain ⟨a1, a2, a3, a4⟩ := alloc_push_keeps w (newTask (Time.Add w.now d) (Action.simTimer f)) t ht
    obtain ⟨b1, b2, b3, b4⟩ := ih _ (hp.2.2 _) (AfterFunc w d f).1 a3
    exact ⟨b1.trans a1, b2.trans a2, b3, fun h => b4 (a4 h)⟩
  | everyFunc d f k _ ih =>
    obtain ⟨a1, a2, a3, a4⟩ :=
      alloc_push_keeps w (newTask (Time.Add w.now d) (Action.simTicker d f)) t ht
    obtain ⟨b1, b2, b3, b4⟩ := ih _ (hp.2.2 _) (EveryFunc w d f).1 a3
    exact ⟨b1.trans a1, b2.trans a2, b3, fun h => b4 (a4 h)⟩
  | now k _ => exact absurd hp (by simp [Prog.BufOK])
  | untilFunc t f k _ _ => exact absurd hp (by simp [Prog.BufOK])
  | stop t k _ => exact absurd hp (by simp [Prog.BufOK])
  | reset t d k _ => exact absurd hp (by simp [Prog.BufOK])
  | cancel c k _ => exact absurd hp (by simp [Prog.BufOK])

theorem Run_keeps_other (w : World U) (root h : Nat) (now : Int) (hne : root ≠ h)
    (hacts : ∀ t, (w.tasks t).Action.BufOK) (hh : h < w.nextId) :
    ((Task.Run w root now).1.tasks h).Deadline = (w.tasks h).Deadline ∧
    ((Task.Run w root now).1.tasks h).Action = (w.tasks h).Action ∧
    h < (Task.Run w root now).1.nextId ∧
    (h ∈ w.taskQueue → h ∈ (Task.Run w root now).1.taskQueue) := by
  have hact := hacts root
  unfold Task.Run
  simp only
  generalize hw0 : ({ w with
      fired := w.fired ++ [{ task := root, deadline := (w.tasks root).Deadline, now := now }] }
        : World U) = w0
  have ht0 : w0.tasks = w.tasks := by rw [← hw0]
  have hq0 : w0.taskQueue = w.taskQueue := by rw [← hw0]
  have hn0 : h < w0.nextId := by rw [← hw0]; exact hh
  split
  · rename_i action heq
    rw [heq] at hact
    obtain ⟨a1, a2, a3, a4⟩ := BufOK_run_keeps (action now) (hact now) w0 h hn0
    rw [ht0] at a1 a2
    rw [hq0] at a4
    exact ⟨a1, a2, a3, a4⟩
  · rename_i period action heq
    rw [heq] at hact
    obtain ⟨a1, a2, a3, a4⟩ := BufOK_run_keeps (action now) (hact.2 now) w0 h hn0
    rw [ht0] at a1 a2
    rw [hq0] at a4
    split_ifs
    · exact ⟨a1, a2, a3, a4⟩
    · simp only [Function.update_noteq (Ne.symm hne)]
      exact ⟨a1, a2, a3, a4⟩

theorem Run_rearms (w : World U) (h : Nat) (now : Int) (p : Int) (f : Int → Prog U)
    (hacts : ∀ t, (w.tasks t).Action.BufOK) (hh : h < w.nextId)
    (hact : (w.tasks h).Action = Action.simTicker p f)
    (htrue : ∀ now (w1 : World U), ((f now).run w1).2 = true) :
    (Task.Run w h now).2 = some h ∧
    ((Task.Run w h now).1.tasks h).Deadline = (w.tasks h).Deadline + p ∧
    ((Task.Run w h now).1.tasks h).Action = Action.simTicker p f := by
  have hb := hacts h
  rw [hact] at hb
  unfold Task.Run
  simp only [hact]
  generalize hw0 : ({ w with
      fired := w.fired ++ [{ task := h, deadline := (w.tasks h).Deadline, now := now }] }
        : World U) = w0
  have ht0 : w0.tasks = w.tasks := by rw [← hw0]
  have hn0 : h < w0.nextId := by rw [← hw0]; exact hh
  obtain ⟨a1, a2, _, _⟩ := BufOK_run_keeps (f now) (hb.2 now) w0 h hn0
  rw [ht0] at a1 a2
  rw [if_neg (by rw [htrue]; simp)]
  refine ⟨rfl, ?_, ?_⟩
  · simp only [Function.update_same]
    rw [a1]
    rfl
  · simp only [Function.update_same]
    rw [a2, hact]

theorem processNextTask_ticker (Q0 : List Nat) (n0 : Nat) (es : List Firing) (w : World U)
    (root h : Nat) (p : Int) (f : Int → Prog U)
    (hroot : w.taskQueue[0]? = some root) (hw : BufInv Q0 n0 w es)
    (hmem : h ∈ w.taskQueue) (hact : (w.tasks h).Action = Action.simTicker p f)
    (htrue : ∀ now (w1 : World U), ((f now).run w1).2 = true) :
    h ∈ (processNextTask w).1.taskQueue ∧
    ((processNextTask w).1.tasks h).Action = Action.simTicker p f ∧
    ((processNextTask w).1.tasks h).Deadline =
      (if root = h then (w.tasks h).Deadline + p else (w.tasks h).Deadline) := by
  have hne : w.taskQueue ≠ [] := by
    intro e
    rw [e] at hroot
    simp at hroot
  obtain ⟨r, hr0, hres, hperm, _, _⟩ := PopTask_spec w hne
  rw [hroot] at hr0
  cases hr0
  have hs := PopTask_step w
  obtain ⟨hmid, hnot, hidx, hlt, hdl, hnow⟩ := BufInv_mid Q0 n0 es w root hroot hw
  have hhB : h < (beforeRun w root).nextId := by
    show h < (taskQueue.PopTask w).1.nextId
    rw [hs.2.1]
    exact hw.good.2.2 h hmem
  have hactB : ((beforeRun w root).tasks h).Action = Action.simTicker p f := by
    show ((taskQueue.PopTask w).1.tasks h).Action = _
    rw [(hs.2.2.2.2.2 h).2, hact]
  have hdB : ((beforeRun w root).tasks h).Deadline = (w.tasks h).Deadline :=
    (hs.2.2.2.2.2 h).1
  rw [processNextTask_eq w hne root hroot]
  simp only
  by_cases hrh : root = h
  · subst hrh
    obtain ⟨b1, b2, b3⟩ := Run_rearms (beforeRun w root) root
      (max w.now (w.tasks root).Deadline) p f hmid.acts hhB hactB htrue
    rw [b1]
    simp only [if_true]
    have hps := PushTask_step
      (Task.Run (beforeRun w root) root (max w.now (w.tasks root).Deadline)).1 root
    refine ⟨?_, ?_, ?_⟩
    · exact (PushTask_perm _ root).mem_iff.2 (List.mem_cons_self _ _)
    · rw [(hps.2.2.2.2.2 root).2, b3]
    · rw [(hps.2.2.2.2.2 root).1, b2, hdB]
  · have hmB : h ∈ (beforeRun w root).taskQueue := by
      show h ∈ (taskQueue.PopTask w).1.taskQueue
      rcases List.mem_cons.1 (hperm.mem_iff.2 hmem) with e | e
      · exact absurd e.symm hrh
      · exact e
    obtain ⟨a1, a2, _, a4⟩ := Run_keeps_other (beforeRun w root) root h
      (max w.now (w.tasks root).Deadline) hrh hmid.acts hhB
    rw [if_neg hrh]
    cases hr2 : (Task.Run (beforeRun w root) root (max w.now (w.tasks root).Deadline)).2 with
    | none =>
      simp only
      exact ⟨a4 hmB, by rw [a2, hactB], by rw [a1, hdB]⟩
    | some ft =>
      simp only
      have hps := PushTask_step
        (Task.Run (beforeRun w root) root (max w.now (w.tasks root).Deadline)).1 ft
      refine ⟨?_, ?_, ?_⟩
      · exact (PushTask_perm _ ft).mem_iff.2 (List.mem_cons_of_mem _ (a4 hmB))
      · rw [(hps.2.2.2.2.2 h).2, a2, hactB]
      · rw [(hps.2.2.2.2.2 h).1, a1, hdB]

theorem onSchedule_succ (h : Nat) (D p : Int) (k : Nat) :
    onSchedule h D p (k + 1) =
      { task := h, deadline := D, now := D } :: onSchedule h (D + p) p k := by
  unfold onSchedule
  rw [List.range_succ_eq_map, List.map_cons, List.map_map]
  congr 1
  · simp
  · apply List.map_congr_left
    intro i _
    simp only [Function.comp, Nat.succ_eq_add_one, Nat.cast_add, Nat.cast_one]
    have e : D + ((i : Int) + 1) * p = D + p + (i : Int) * p := by ring
    rw [e]

theorem ticker_schedule (Q0 : List Nat) (n0 : Nat) (h : Nat) (p : Int) (f : Int → Prog U)
    (htrue : ∀ now (w1 : World U), ((f now).run w1).2 = true) (n : Nat) (w : World U)
    (es : List Firing) (hw : BufInv Q0 n0 w es) (hmem : h ∈ w.taskQueue)
    (hact : (w.tasks h).Action = Action.simTicker p f) :
    ∃ es1 k, (advances n w).fired = w.fired ++ es1 ∧
      firingsOf h es1 = onSchedule h (w.tasks h).Deadline p k ∧ k ≤ n ∧
      BufInv Q0 n0 (advances n w) (es ++ es1) ∧ h ∈ (advances n w).taskQueue ∧
      ((advances n w).tasks h).Action = Action.simTicker p f ∧
      ((advances n w).tasks h).Deadline = (w.tasks h).Deadline + (k : Int) * p := by
  induction n generalizing w es with
  | zero =>
    refine ⟨[], 0, by simp [advances], rfl, le_refl _, by simpa [advances] using hw,
      hmem, hact, by simp [advances]⟩
  | succ m ih =>
    have hne : w.taskQueue ≠ [] := fun e => by
      rw [e] at hmem
      exact absurd hmem (List.not_mem_nil h)
    obtain ⟨root, hroot, _⟩ := PopTask_spec w hne
    have hadv : (Advance w).world = (processNextTask w).1 := by
      unfold Advance
      rw [AdvanceIfBefore_fires w 0 root hroot (Or.inl rfl)]
    have hdue := hw.due root (mem_of_getElem?_eq_some hroot)
    have hfired := processNextTask_fired w root hroot
    rw [max_eq_right hdue] at hfired
    have hinv := BufInv_processNextTask Q0 n0 es w root hroot hw
    rw [max_eq_right hdue] at hinv
    obtain ⟨k1, k2, k3⟩ := processNextTask_ticker Q0 n0 es w root h p f hroot hw hmem hact htrue
    obtain ⟨es1, k, g1, g2, g3, g4, g5, g6, g7⟩ := ih (processNextTask w).1 _ hinv k1 k2
    have hadv2 : advances (m + 1) w = advances m (processNextTask w).1 := by
      show advances m (Advance w).world = _
      rw [hadv]
    rw [hadv2]
    by_cases hrh : root = h
    · subst hrh
      rw [if_pos rfl] at k3
      rw [k3] at g2 g7
      refine ⟨Firing.mk root (w.tasks root).Deadline (w.tasks root).Deadline :: es1, k + 1,
        ?_, ?_, by omega, ?_, g5, g6, ?_⟩
      · rw [g1, hfired, List.append_assoc]
        rfl
      · rw [onSchedule_succ, ← g2]
        simp [firingsOf]
      · rw [List.append_assoc] at g4
        exact g4
      · rw [g7]
        push_cast
        ring
    · rw [if_neg hrh] at k3
      rw [k3] at g2 g7
      refine ⟨Firing.mk root (w.tasks root).Deadline (w.tasks root).Deadline :: es1, k,
        ?_, ?_, by omega, ?_, g5, g6, g7⟩
      · rw [g1, hfired, List.append_assoc]
        rfl
      · rw [← g2]
        simp [firingsOf, hrh]
      · rw [List.append_assoc] at g4
        exact g4

theorem resetTask_spec (w : World U) (h : Nat) (d : Int) :
    h ∈ (resetTask w h d).1.taskQueue ∧
    ((resetTask w h d).1.tasks h).Deadline = w.now + d ∧
    (∀ x, x ≠ h → ((resetTask w h d).1.tasks x).Deadline = (w.tasks x).Deadline) ∧
    (∀ x ∈ (resetTask w h d).1.taskQueue, x = h ∨ x ∈ w.taskQueue) := by
  have key : ∀ w1 : World U, QueueStep w w1 → (∀ x ∈ w1.taskQueue, x ∈ w.taskQueue) →
      h ∈ (taskQueue.PushTask { w1 with
        tasks := Function.update w1.tasks h
          { w1.tasks h with Deadline := Time.Add w1.now d } } h).taskQueue ∧
      ((taskQueue.PushTask { w1 with
        tasks := Function.update w1.tasks h
          { w1.tasks h with Deadline := Time.Add w1.now d } } h).tasks h).Deadline = w.now + d ∧
      (∀ x, x ≠ h → ((taskQueue.PushTask { w1 with
        tasks := Function.update w1.tasks h
          { w1.tasks h with Deadline := Time.Add w1.now d } } h).tasks x).Deadline
            = (w.tasks x).Deadline) ∧
      (∀ x ∈ (taskQueue.PushTask { w1 with
        tasks := Function.update w1.tasks h
          { w1.tasks h with Deadline := Time.Add w1.now d } } h).taskQueue,
            x = h ∨ x ∈ w.taskQueue) := by
    intro w1 hs hsub
    generalize hw2 : ({ w1 with
        tasks := Function.update w1.tasks h
          { w1.tasks h with Deadline := Time.Add w1.now d } } : World U) = w2
    have ht2 : w2.tasks = Function.update w1.tasks h
        { w1.tasks h with Deadline := Time.Add w1.now d } := by rw [← hw2]
    have hq2 : w2.taskQueue = w1.taskQueue := by rw [← hw2]
    have hps := PushTask_step w2 h
    have hpp := PushTask_perm w2 h
    refine ⟨hpp.mem_iff.2 (List.mem_cons_self _ _), ?_, ?_, ?_⟩
    · rw [(hps.2.2.2.2.2 h).1, ht2, Function.update_same]
      show w1.now + d = _
      rw [hs.1]
    · intro x hx
      rw [(hps.2.2.2.2.2 x).1, ht2, Function.update_noteq hx]
      exact (hs.2.2.2.2.2 x).1
    · intro x hx
      rcases List.mem_cons.1 (hpp.mem_iff.1 hx) with e | e
      · exact Or.inl e
      · rw [hq2] at e
        exact Or.inr (hsub x e)
  unfold resetTask
  simp only
  split_ifs
  · exact key _ (RemoveTask_step w h) (RemoveTask_subset w h)
  · exact key w (QueueStep.refl w) (fun _ hx => hx)

theorem BufInv_after_Reset (Q0 : List Nat) (n0 : Nat) (es : List Firing) (w : World U)
    (h : Nat) (d : Int) (hd : 0 ≤ d) (hlt : h < w.nextId) (hw : BufInv Q0 n0 w es) :
    BufInv (resetTask w h d).1.taskQueue (resetTask w h d).1.nextId (resetTask w h d).1 [] := by
  obtain ⟨_, s2, s3, s4⟩ := resetTask_spec w h d
  apply BufInv_init
  · exact Good_resetTask w h d hlt hw.good
  · intro t
    rw [resetTask_Action]
    exact hw.acts t
  · intro t ht
    rw [resetTask_now]
    by_cases hth : t = h
    · rw [hth, s2]
      omega
    · rw [s3 t hth]
      rcases s4 t ht with e | e
      · exact absurd e hth
      · exact hw.due t e

theorem Run_quiet_queue (w : World U) (h : Nat) (now : Int) (p : Int) (f : Int → Prog U)
    (hact : (w.tasks h).Action = Action.simTicker p f) (hq : ∀ now, (f now).Quiet) :
    (Task.Run w h now).1.taskQueue = w.taskQueue := by
  unfold Task.Run
  simp only [hact]
  generalize hw0 : ({ w with
      fired := w.fired ++ [{ task := h, deadline := (w.tasks h).Deadline, now := now }] }
        : World U) = w0
  have hq0 : w0.taskQueue = w.taskQueue := by rw [← hw0]
  have hr := Prog.Quiet.run_eq (f now) (hq now) w0
  split_ifs
  · rw [hr]
    exact hq0
  · show ((f now).run w0).1.taskQueue = _
    rw [hr]
    exact hq0

theorem processNextTask_alone (Q0 : List Nat) (n0 : Nat) (es : List Firing) (w : World U)
    (h : Nat) (p : Int) (f : Int → Prog U) (hw : BufInv Q0 n0 w es)
    (hq : w.taskQueue = [h]) (hact : (w.tasks h).Action = Action.simTicker p f)
    (htrue : ∀ now (w1 : World U), ((f now).run w1).2 = true)
    (hquiet : ∀ now, (f now).Quiet) :
    (processNextTask w).1.taskQueue = [h] := by
  have hroot : w.taskQueue[0]? = some h := by rw [hq]; rfl
  have hne : w.taskQueue ≠ [] := by rw [hq]; simp
  obtain ⟨r, hr0, hres, hperm, hlen, _⟩ := PopTask_spec w hne
  have hs := PopTask_step w
  obtain ⟨hmid, _, _, hlt, _, _⟩ := BufInv_mid Q0 n0 es w h hroot hw
  have hactB : ((beforeRun w h).tasks h).Action = Action.simTicker p f := by
    show ((taskQueue.PopTask w).1.tasks h).Action = _
    rw [(hs.2.2.2.2.2 h).2, hact]
  have hB : (beforeRun w h).taskQueue = [] := by
    show (taskQueue.PopTask w).1.taskQueue = []
    rw [hq] at hlen
    simp only [List.length_singleton] at hlen
    exact List.length_eq_zero.1 (by omega)
  obtain ⟨b1, _, _⟩ := Run_rearms (beforeRun w h) h (max w.now (w.tasks h).Deadline) p f
    hmid.acts hlt hactB htrue
  have hrq := Run_quiet_queue (beforeRun w h) h (max w.now (w.tasks h).Deadline) p f hactB hquiet
  rw [processNextTask_eq w hne h hroot]
  simp only [b1]
  have hpp := PushTask_perm (Task.Run (beforeRun w h) h (max w.now (w.tasks h).Deadline)).1 h
  rw [hrq, hB] at hpp
  exact List.perm_singleton.1 hpp

theorem ticker_alone (Q0 : List Nat) (n0 : Nat) (h : Nat) (p : Int) (f : Int → Prog U)
    (htrue : ∀ now (w1 : World U), ((f now).run w1).2 = true)
    (hquiet : ∀ now, (f now).Quiet) (n : Nat) (w : World U)
    (es : List Firing) (hw : BufInv Q0 n0 w es) (hq : w.taskQueue = [h])
    (hact : (w.tasks h).Action = Action.simTicker p f) :
    (advances n w).fired = w.fired ++ onSchedule h (w.tasks h).Deadline p n ∧
    (advances n w).taskQueue = [h] := by
  induction n generalizing w es with
  | zero => exact ⟨by simp [advances, onSchedule], hq⟩
  | succ m ih =>
    have hroot : w.taskQueue[0]? = some h := by rw [hq]; rfl
    have hmem : h ∈ w.taskQueue := by rw [hq]; exact List.mem_singleton_self h
    have hadv : advances (m + 1) w = advances m (processNextTask w).1 := by
      show advances m (Advance w).world = _
      unfold Advance
      rw [AdvanceIfBefore_fires w 0 h hroot (Or.inl rfl)]
    have hdue := hw.due h hmem
    have hfired := processNextTask_fired w h hroot
    rw [max_eq_right hdue] at hfired
    have hinv := BufInv_processNextTask Q0 n0 es w h hroot hw
    obtain ⟨_, k2, k3⟩ := processNextTask_ticker Q0 n0 es w h h p f hroot hw hmem hact htrue
    rw [if_pos rfl] at k3
    have hq1 := processNextTask_alone Q0 n0 es w h p f hw hq hact htrue hquiet
    obtain ⟨i1, i2⟩ := ih (processNextTask w).1 _ hinv hq1 k2
    refine ⟨?_, by rw [hadv]; exact i2⟩
    rw [hadv, i1, hfired, k3, onSchedule_succ, List.append_assoc]
    rfl

theorem EveryFunc_start (w0 : World U) (p : Int) (f : Int → Prog U) (hp : 0 < p)
    (hgood : GoodQueue w0) (hacts : ∀ t, (w0.tasks t).Action.BufOK)
    (hdue : ∀ t ∈ w0.taskQueue, w0.now ≤ (w0.tasks t).Deadline)
    (hf : ∀ now, (f now).BufOK) :
    (EveryFunc w0 p f).2 = w0.nextId ∧
    BufInv w0.taskQueue w0.nextId (EveryFunc w0 p f).1 [] ∧
    w0.nextId ∈ (EveryFunc w0 p f).1.taskQueue ∧
    ((EveryFunc w0 p f).1.tasks w0.nextId).Action = Action.simTicker p f ∧
    ((EveryFunc w0 p f).1.tasks w0.nextId).Deadline = w0.now + p ∧
    (EveryFunc w0 p f).1.fired = w0.fired ∧
    (w0.taskQueue = [] → (EveryFunc w0 p f).1.taskQueue = [w0.nextId]) := by
  have hs := PushTask_step
    (w0.alloc (newTask (Time.Add w0.now p) (Action.simTicker p f))).1 w0.nextId
  have hpp := PushTask_perm
    (w0.alloc (newTask (Time.Add w0.now p) (Action.simTicker p f))).1 w0.nextId
  have hE : (EveryFunc w0 p f).1 = taskQueue.PushTask
      (w0.alloc (newTask (Time.Add w0.now p) (Action.simTicker p f))).1 w0.nextId := rfl
  refine ⟨rfl, ?_, ?_, ?_, ?_, ?_, ?_⟩
  · rw [hE]
    have hb : (newTask (Time.Add w0.now p) (Action.simTicker p f)).Action.BufOK := ⟨hp, hf⟩
    apply BufInv_alloc_push _ _ w0 [] _ rfl hb _ (BufInv_init w0 hgood hacts hdue)
    show w0.now ≤ w0.now + p
    omega
  · rw [hE]
    exact hpp.mem_iff.2 (List.mem_cons_self _ _)
  · rw [hE, (hs.2.2.2.2.2 w0.nextId).2]
    show (Function.update w0.tasks w0.nextId _ w0.nextId).Action = _
    rw [Function.update_same]
    rfl
  · rw [hE, (hs.2.2.2.2.2 w0.nextId).1]
    show (Function.update w0.tasks w0.nextId _ w0.nextId).Deadline = _
    rw [Function.update_same]
    rfl
  · rw [hE, hs.2.2.2.2.1]
    rfl
  · intro hq
    rw [hE]
    have : (w0.alloc (newTask (Time.Add w0.now p) (Action.simTicker p f))).1.taskQueue = [] := hq
    rw [this] at hpp
    exact List.perm_singleton.1 hpp

theorem resetTask_alone (w : World U) (h : Nat) (d : Int) (hlt : h < w.nextId)
    (hg : GoodQueue w) (hq : w.taskQueue = [h]) : (resetTask w h d).1.taskQueue = [h] := by
  obtain ⟨s1, _, _, s4⟩ := resetTask_spec w h d
  have hnd := AllLinked_nodup _ (Good_resetTask w h d hlt hg).2.1
  have hall : ∀ x ∈ (resetTask w h d).1.taskQueue, x = h := by
    intro x hx
    rcases s4 x hx with e | e
    · exact e
    · rw [hq] at e
      exact List.mem_singleton.1 e
  cases hl : (resetTask w h d).1.taskQueue with
  | nil => rw [hl] at s1; exact absurd s1 (List.not_mem_nil h)
  | cons a l =>
    rw [hl] at hall hnd
    have ha : a = h := hall a (List.mem_cons_self _ _)
    cases l with
    | nil => rw [ha]
    | cons b l2 =>
      have hb : b = h := hall b (List.mem_cons_of_mem _ (List.mem_cons_self _ _))
      rw [ha, hb] at hnd
      simp at hnd

theorem onSchedule_getElem? (h : Nat) (D p : Int) (j k : Nat) (hj : j < k) :
    (onSchedule h D p k)[j]? =
      some { task := h, deadline := D + (j : Int) * p, now := D + (j : Int) * p } := by
  unfold onSchedule
  rw [List.getElem?_map, List.getElem?_range hj]
  rfl

/-- Firing times of a ticker under forward-only scheduling.  Let the simulator be in a state
with a good queue in which no pending task is due before the current time
`t0`, let the stored callbacks schedule only forward in time, and let
`EveryFunc(p, f)` with `p > 0` be called, `f` a predicate of that kind that
always returns true.  After any number of `Advance` calls the firings of the
ticker are on schedule: the `k`-th one has the deadline `t0 + k*p` and is
invoked at that simulated time.  When `Reset(d)`, `d ≥ 0`, is then called on
the ticker between two `Advance` calls, at simulated time `r`, its later
firings are at `r + d`, `r + d + p`, `r + d + 2p`, and so on, each invoked at
the time it is due.  When the ticker is the only pending task and `f` makes no
call on the clock, each `Advance` is one firing, so that the ticker does fire
at each of these times. -/
theorem ticker_firing_times_forward (w0 : World U) (p : Int) (f : Int → Prog U) (hp : 0 < p)
    (hgood : GoodQueue w0) (hacts : ∀ t, (w0.tasks t).Action.BufOK)
    (hdue : ∀ t ∈ w0.taskQueue, w0.now ≤ (w0.tasks t).Deadline)
    (hf : ∀ now, (f now).BufOK)
    (htrue : ∀ now (w1 : World U), ((f now).run w1).2 = true) :
    (∀ n, ∃ es k, k ≤ n ∧ (advances n (EveryFunc w0 p f).1).fired = w0.fired ++ es ∧
      firingsOf (EveryFunc w0 p f).2 es = onSchedule (EveryFunc w0 p f).2 (w0.now + p) p k) ∧
    (∀ n d, 0 ≤ d → ∀ m, ∃ es k, k ≤ m ∧
      (advances m
        (simTicker.Reset (advances n (EveryFunc w0 p f).1) (EveryFunc w0 p f).2 d)).fired
          = (advances n (EveryFunc w0 p f).1).fired ++ es ∧
      firingsOf (EveryFunc w0 p f).2 es =
        onSchedule (EveryFunc w0 p f).2 ((advances n (EveryFunc w0 p f).1).now + d) p k) ∧
    (w0.taskQueue = [] → (∀ now, (f now).Quiet) →
      (∀ n, (advances n (EveryFunc w0 p f).1).fired
          = w0.fired ++ onSchedule (EveryFunc w0 p f).2 (w0.now + p) p n) ∧
      (∀ n d, 0 ≤ d → ∀ m,
        (advances m
          (simTicker.Reset (advances n (EveryFunc w0 p f).1) (EveryFunc w0 p f).2 d)).fired
            = (advances n (EveryFunc w0 p f).1).fired ++
              onSchedule (EveryFunc w0 p f).2
                ((advances n (EveryFunc w0 p f).1).now + d) p m)) ∧
    (∀ (D : Int) (j k : Nat), j < k →
      (onSchedule (EveryFunc w0 p f).2 (D + p) p k)[j]? =
        some { task := (EveryFunc w0 p f).2, deadline := D + ((j : Int) + 1) * p,
               now := D + ((j : Int) + 1) * p }) := by
  obtain ⟨e0, hinv1, hmem1, hact1, hdl1, hfired1, halone1⟩ :=
    EveryFunc_start w0 p f hp hgood hacts hdue hf
  rw [e0]
  have hreset : ∀ n d, 0 ≤ d →
      BufInv (resetTask (advances n (EveryFunc w0 p f).1) w0.nextId d).1.taskQueue
        (resetTask (advances n (EveryFunc w0 p f).1) w0.nextId d).1.nextId
        (resetTask (advances n (EveryFunc w0 p f).1) w0.nextId d).1 [] ∧
      w0.nextId ∈ (resetTask (advances n (EveryFunc w0 p f).1) w0.nextId d).1.taskQueue ∧
      ((resetTask (advances n (EveryFunc w0 p f).1) w0.nextId d).1.tasks w0.nextId).Action
        = Action.simTicker p f ∧
      ((resetTask (advances n (EveryFunc w0 p f).1) w0.nextId d).1.tasks w0.nextId).Deadline
        = (advances n (EveryFunc w0 p f).1).now + d ∧
      w0.nextId < (advances n (EveryFunc w0 p f).1).nextId ∧
      GoodQueue (advances n (EveryFunc w0 p f).1) := by
    intro n d hd
    obtain ⟨es1, k, _, _, _, g4, g5, g6, _⟩ :=
      ticker_schedule _ _ w0.nextId p f htrue n _ [] hinv1 hmem1 hact1
    have hlt := g4.good.2.2 _ g5
    obtain ⟨s1, s2, _, _⟩ := resetTask_spec (advances n (EveryFunc w0 p f).1) w0.nextId d
    exact ⟨BufInv_after_Reset _ _ _ _ _ d hd hlt g4, s1, by rw [resetTask_Action, g6], s2, hlt,
      g4.good⟩
  refine ⟨?_, ?_, ?_, ?_⟩
  · intro n
    obtain ⟨es1, k, g1, g2, g3, _⟩ :=
      ticker_schedule _ _ w0.nextId p f htrue n _ [] hinv1 hmem1 hact1
    refine ⟨es1, k, g3, ?_, ?_⟩
    · rw [g1, hfired1]
    · rw [g2, hdl1]
  · intro n d hd m
    obtain ⟨r1, r2, r3, r4, _, _⟩ := hreset n d hd
    obtain ⟨es1, k, g1, g2, g3, _⟩ :=
      ticker_schedule _ _ w0.nextId p f htrue m _ [] r1 r2 r3
    refine ⟨es1, k, g3, ?_, ?_⟩
    · show (advances m (resetTask (advances n (EveryFunc w0 p f).1) w0.nextId d).1).fired = _
      rw [g1, resetTask_fired]
    · rw [g2, r4]
  · intro hq0 hquiet
    constructor
    · intro n
      have := (ticker_alone _ _ w0.nextId p f htrue hquiet n _ [] hinv1 (halone1 hq0) hact1).1
      rw [this, hfired1, hdl1]
    · intro n d hd m
      obtain ⟨r1, r2, r3, r4, r5, r6⟩ := hreset n d hd
      have hqn :=
        (ticker_alone _ _ w0.nextId p f htrue hquiet n _ [] hinv1 (halone1 hq0) hact1).2
      have hq1 := resetTask_alone _ w0.nextId d r5 r6 hqn
      have := (ticker_alone _ _ w0.nextId p f htrue hquiet m _ [] r1 hq1 r3).1
      show (advances m (resetTask (advances n (EveryFunc w0 p f).1) w0.nextId d).1).fired = _
      rw [this, resetTask_fired, r4]
  · intro D j k hj
    rw [onSchedule_getElem? _ _ _ j k hj]
    have e : D + p + (j : Int) * p = D + ((j : Int) + 1) * p := by ring
    rw [e]

/-- A concrete instance: a ticker of period 10 created at time 0
on a new simulator.  Its first three firings are at 10, 20 and 30; after
`Reset(25)` at time 10 the next two are at 35 and 45. -/
theorem ticker_firing_times_forward_witness :
    (0 : Int) < 10 ∧ GoodQueue (NewSimulator 0 ()) ∧
    (advances 3 demoTicker).fired = (NewSimulator 0 ()).fired ++
      onSchedule (EveryFunc (NewSimulator 0 ()) 10 (fun _ => Prog.ret true)).2
        ((NewSimulator 0 ()).now + 10) 10 3 ∧
    onSchedule 0 (0 + 10) 10 3 =
      [{ task := 0, deadline := 10, now := 10 }, { task := 0, deadline := 20, now := 20 },
       { task := 0, deadline := 30, now := 30 }] ∧
    (advances 2 (simTicker.Reset (advances 1 demoTicker) 0 25)).fired =
      (advances 1 demoTicker).fired ++
        onSchedule (EveryFunc (NewSimulator 0 ()) 10 (fun _ => Prog.ret true)).2
          ((advances 1 demoTicker).now + 25) 10 2 ∧
    (advances 1 demoTicker).now = 10 :=
  ⟨by decide, (SafeWorld_new 0 ()).1,
   ((ticker_firing_times_forward (NewSimulator 0 ()) 10 (fun _ => Prog.ret true) (by decide)
      (SafeWorld_new 0 ()).1 (fun _ _ => trivial)
      (fun t ht => absurd ht (List.not_mem_nil t)) (fun _ => trivial)
      (fun _ _ => rfl)).2.2.1 rfl (fun _ => trivial)).1 3,
   by decide,
   ((ticker_firing_times_forward (NewSimulator 0 ()) 10 (fun _ => Prog.ret true) (by decide)
      (SafeWorld_new 0 ()).1 (fun _ _ => trivial)
      (fun t ht => absurd ht (List.not_mem_nil t)) (fun _ => trivial)
      (fun _ _ => rfl)).2.2.1 rfl (fun _ => trivial)).2 1 25 (by decide) 2,
   by decide!⟩

/-! ## C22: pending deadlines and the current time -/

/-- Claim C22, evaluated at a failing input: a simulator driven only by
`EveryFunc(10, f)`, `AfterFunc(20, g)` and `Advance`, where the ticker's
predicate `f` calls `Reset(5)` on the ticker and returns true (every duration
is non-negative).  After two `Advance` calls the current time is 25 while the
timer, due at 20, is still pending; the third `Advance` invokes the timer's
action with `now = 25`, not its deadline 20, and returns the elapsed value
-5. -/
theorem C22_pending_deadline_before_now :
    (advances 2 demoSelfReset).now = 25 ∧
    1 ∈ (advances 2 demoSelfReset).taskQueue ∧
    ((advances 2 demoSelfReset).tasks 1).IsPending = true ∧
    ((advances 2 demoSelfReset).tasks 1).Deadline = 20 ∧
    (Advance (advances 2 demoSelfReset)).hadTasks = true ∧
    (Advance (advances 2 demoSelfReset)).newNow = 25 ∧
    (Advance (advances 2 demoSelfReset)).leap = -5 ∧
    (advances 3 demoSelfReset).fired =
      [{ task := 0, deadline := 10, now := 10 }, { task := 0, deadline := 25, now := 25 },
       { task := 1, deadline := 20, now := 25 }] := by
  refine ⟨by decide!, by decide!, by decide!, by decide!, by decide!, by decide!, by decide!,
    by decide!⟩


/-! ## Claims that meet the re-queued ticker, evaluated -/

/-- Claim C4, evaluated at a failing input: the simulator of `demoSelfReset`
(a ticker of period 10 whose predicate calls `Reset(5)` on the ticker itself
and returns true, and a timer due at 20) after one `Advance`.  The time is 10,
the queue is non-empty, and the earliest pending deadline is 20 (the timer,
task 1), strictly before the bound 22; yet `AdvanceIfBefore(22)` returns
`(10, 0, false)` and runs nothing, and `AdvanceIfBefore` with the zero bound
runs the ticker due at 25, not the timer due at 20. -/
theorem C4_AdvanceIfBefore_misses_earliest :
    (advances 1 demoSelfReset).now = 10 ∧
    (advances 1 demoSelfReset).taskQueue = [0, 1, 0] ∧
    ((advances 1 demoSelfReset).tasks 0).Deadline = 25 ∧
    ((advances 1 demoSelfReset).tasks 1).Deadline = 20 ∧
    ((advances 1 demoSelfReset).tasks 1).IsPending = true ∧
    (AdvanceIfBefore (advances 1 demoSelfReset) 22).hadTasks = false ∧
    (AdvanceIfBefore (advances 1 demoSelfReset) 22).newNow = 10 ∧
    (AdvanceIfBefore (advances 1 demoSelfReset) 22).leap = 0 ∧
    (AdvanceIfBefore (advances 1 demoSelfReset) 22).world.fired =
      (advances 1 demoSelfReset).fired ∧
    (AdvanceIfBefore (advances 1 demoSelfReset) 0).hadTasks = true ∧
    (AdvanceIfBefore (advances 1 demoSelfReset) 0).newNow = 25 ∧
    (AdvanceIfBefore (advances 1 demoSelfReset) 0).world.fired =
      [{ task := 0, deadline := 10, now := 10 }, { task := 0, deadline := 25, now := 25 }] := by
  refine ⟨by decide!, by decide!, by decide!, by decide!, by decide!, by decide!, by decide!,
    by decide!, by decide!, by decide!, by decide!, by decide!⟩

/-- Claim C7, evaluated at a failing input with `N = 1`: a ticker of period 10
whose predicate returns true on its first invocation, after calling `Reset(5)`
on the ticker, and false on every later one.  The predicate returns true
exactly when its counter is 0 and counts each invocation; `ProcessAll` returns
after three task actions, all three of them invocations of the predicate (at
the times 10, 25 and 25), not two; afterwards the queue is empty and the task
is not pending. -/
theorem C7_ProcessAll_invokes_three_times :
    (∀ (now : Int) (w : World Nat),
      ((demoResetOncePred now).run w).2 = decide (w.vars = 0)) ∧
    demoResetOnce.vars = 0 ∧
    (ProcessAll 6 demoResetOnce 0).map (fun r => (r.2.1, r.2.2)) = some (3, none) ∧
    (ProcessAll 6 demoResetOnce 0).map (fun r => r.1.vars) = some 3 ∧
    (ProcessAll 6 demoResetOnce 0).map (fun r => r.1.fired) =
      some [{ task := 0, deadline := 10, now := 10 }, { task := 0, deadline := 25, now := 25 },
            { task := 0, deadline := 25, now := 25 }] ∧
    (ProcessAll 6 demoResetOnce 0).map (fun r => r.1.taskQueue) = some [] ∧
    (ProcessAll 6 demoResetOnce 0).map (fun r => (r.1.tasks 0).IsPending) = some false := by
  refine ⟨?_, by decide!, by decide!, by decide!, by decide!, by decide!, by decide!⟩
  intro now w
  by_cases h : w.vars = 0
  · by_cases h0 : 0 < w.nextId <;> simp [demoResetOncePred, Prog.run, h, h0]
  · simp [demoResetOncePred, Prog.run, h]

/-- Claim C8, evaluated at a failing input: the simulator of `demoSelfReset`
(a ticker of period 10 whose predicate calls `Reset(5)` on the ticker itself
and returns true, and a timer due at 20), a context that is never cancelled and
the bound 22.  `ProcessAllUntil` returns `(1, nil)` after one task action, at
time 10, while the timer (task 1) is pending with deadline 20, strictly before
the bound. -/
theorem C8_ProcessAllUntil_leaves_task_before_bound :
    (∀ ctx, demoSelfReset.ctxErr ctx = none) ∧
    (ProcessAllUntil 5 demoSelfReset 0 22).map (fun r => (r.2.1, r.2.2)) = some (1, none) ∧
    (ProcessAllUntil 5 demoSelfReset 0 22).map (fun r => r.1.now) = some 10 ∧
    (ProcessAllUntil 5 demoSelfReset 0 22).map (fun r => r.1.fired) =
      some [{ task := 0, deadline := 10, now := 10 }] ∧
    (ProcessAllUntil 5 demoSelfReset 0 22).map (fun r => r.1.taskQueue) = some [0, 1, 0] ∧
    (ProcessAllUntil 5 demoSelfReset 0 22).map (fun r => (r.1.tasks 1).IsPending) = some true ∧
    (ProcessAllUntil 5 demoSelfReset 0 22).map (fun r => (r.1.tasks 1).Deadline) = some 20 := by
  refine ⟨fun _ => rfl, by decide!, by decide!, by decide!, by decide!, by decide!, by decide!⟩

/-- Claim C17, evaluated at two failing inputs.  On a simulator at time 100
whose only task is due at 50 (`demoPast`), `Approach` returns
`(100, -50, true)` and the time stays 100: it is not set to the deadline 50.
On the simulator of `demoSelfReset` after one `Advance`, where the timer due at
20 is pending, `Approach` returns `(25, 15, true)` and sets the time to 25, the
deadline of the ticker in the first slot, not the earliest pending deadline. -/
theorem C17_Approach_not_earliest_deadline :
    demoPast.now = 100 ∧
    demoPast.taskQueue = [0] ∧
    (demoPast.tasks 0).Deadline = 50 ∧
    (Approach demoPast).hadTasks = true ∧
    (Approach demoPast).newNow = 100 ∧
    (Approach demoPast).leap = -50 ∧
    (Approach demoPast).world.now = 100 ∧
    (advances 1 demoSelfReset).now = 10 ∧
    ((advances 1 demoSelfReset).tasks 1).IsPending = true ∧
    ((advances 1 demoSelfReset).tasks 1).Deadline = 20 ∧
    (Approach (advances 1 demoSelfReset)).hadTasks = true ∧
    (Approach (advances 1 demoSelfReset)).newNow = 25 ∧
    (Approach (advances 1 demoSelfReset)).leap = 15 ∧
    (Approach (advances 1 demoSelfReset)).world.now = 25 := by
  refine ⟨by decide!, by decide!, by decide!, by decide!, by decide!, by decide!, by decide!,
    by decide!, by decide!, by decide!, by decide!, by decide!, by decide!, by decide!⟩

/-- Claim C21, evaluated at two failing inputs.  In `demoTwoTickers` the ticker
of period 12 created at time 0 (task 0), whose predicate always returns true,
shares the simulator with a ticker whose predicate resets that other ticker
itself: over six `Advance` calls the third firing of task 0, due at 36, is
invoked at the time 40, not at `0 + 3 * 12`.  In `demoTicker` (period 10,
created at time 0), `Reset(-3)` called from outside at the time 10 gives a next
firing due at 7 that is invoked at the time 10, not at `10 + (-3)`. -/
theorem C21_third_firing_late :
    (advances 6 demoTwoTickers).fired =
      [{ task := 1, deadline := 10, now := 10 }, { task := 0, deadline := 12, now := 12 },
       { task := 0, deadline := 24, now := 24 }, { task := 1, deadline := 25, now := 25 },
       { task := 1, deadline := 40, now := 40 }, { task := 0, deadline := 36, now := 40 }] ∧
    firingsOf 0 (advances 6 demoTwoTickers).fired =
      [{ task := 0, deadline := 12, now := 12 }, { task := 0, deadline := 24, now := 24 },
       { task := 0, deadline := 36, now := 40 }] ∧
    firingsOf 0 (advances 6 demoTwoTickers).fired ≠ onSchedule 0 12 12 3 ∧
    (advances 1 demoTicker).now = 10 ∧
    (advances 1 (simTicker.Reset (advances 1 demoTicker) 0 (-3))).fired =
      [{ task := 0, deadline := 10, now := 10 }, { task := 0, deadline := 7, now := 10 }] := by
  refine ⟨by decide!, by decide!, by decide!, by decide!, by decide!⟩

end Chrono
